import Mathlib

/-!
Verification of the minesweeper solving engine (`system.py`).

The embedding mirrors the Python source: `Board` holds the ground-truth grid
plus the revealed/flagged coordinate sets (Python sets are modelled as
insertion-ordered duplicate-free lists), `get_csp_state` builds the agent
observation, and the `Agent` functions mirror `MinesweeperAgent`.  Python's
list indexing (including negative wrap-around and IndexError) is modelled by
`pyIdx?`.  Randomness (`random.choice`) is modelled by an explicit stream
`rng : Nat → Nat` of draws; a draw `k` selects index `k % length` of the
candidate list, so every concrete choice corresponds to some draw value.
Unbounded `while` loops are modelled with an explicit fuel parameter together
with theorems showing the fuel used by the embedding suffices.
-/

namespace MS

/-- Ground-truth cell value of a loaded board: the mine marker or an integer clue. -/
inductive Cell where
  | mine : Cell
  | num : Int → Cell
deriving DecidableEq

/-- Observation values of the agent state.  Python stores plain integers
(9 covered, 10 flagged, clue values as themselves) and the string S for
cells derived safe by propagation. -/
inductive AVal where
  | ofInt : Int → AVal
  | safeMark : AVal
deriving DecidableEq

/-- MinesweeperAgent.COVERED. -/
def COVERED : AVal := .ofInt 9

/-- MinesweeperAgent.FLAGGED. -/
def FLAGGED : AVal := .ofInt 10

/-- Python list indexing: nonnegative indices read from the front, negative
indices wrap around from the end, and out-of-range access raises IndexError,
modelled as `none`. -/
def pyIdx? {α : Type} (l : List α) (i : Int) : Option α :=
  if 0 ≤ i then l[i.toNat]?
  else if (-i).toNat ≤ l.length then l[l.length - (-i).toNat]? else none

/-- The Board class: dimensions and mine count from the file header, the
ground-truth grid, and the revealed/flagged coordinate sets. -/
structure Board where
  rows : Nat
  cols : Nat
  numMines : Int
  grid : List (List Cell)
  revealed : List (Int × Int)
  flagged : List (Int × Int)
deriving DecidableEq

/-- Grid access at in-range nonnegative coordinates (`self.board[r][c]` for
`0 ≤ r < rows`, `0 ≤ c < cols`; the default is irrelevant on well-shaped grids). -/
def Board.cellAt (b : Board) (r c : Nat) : Cell :=
  (b.grid.getD r []).getD c (.num 0)

/-- Result of Board.reveal: `noop` is Python's `None`, `err` an IndexError,
`val` the returned board value. -/
inductive RevealRes where
  | noop : RevealRes
  | err : RevealRes
  | val : Cell → RevealRes
deriving DecidableEq

/-- Board.reveal.  Note the coordinate is added to the revealed set before the
grid is indexed, so the set is mutated even when indexing raises. -/
def Board.reveal (b : Board) (r c : Int) : Board × RevealRes :=
  if (r, c) ∈ b.revealed ∨ (r, c) ∈ b.flagged then (b, .noop)
  else
    let b2 : Board := { b with revealed := b.revealed ++ [(r, c)] }
    match pyIdx? b.grid r with
    | none => (b2, .err)
    | some row =>
      match pyIdx? row c with
      | none => (b2, .err)
      | some v => (b2, .val v)

/-- Board.flag: marks flagged unless already revealed (set add is a no-op on
an already flagged coordinate). -/
def Board.flag (b : Board) (r c : Int) : Board :=
  if (r, c) ∈ b.revealed then b
  else if (r, c) ∈ b.flagged then b
  else { b with flagged := b.flagged ++ [(r, c)] }

/-- A Python return value of apply_move: a string, an integer clue, or a raised
IndexError. -/
inductive PyRes where
  | s : String → PyRes
  | i : Int → PyRes
  | err : PyRes
deriving DecidableEq

/-- Board.apply_move. -/
def Board.apply_move (b : Board) (action : String) (r c : Int) : Board × PyRes :=
  if action = "R" then
    if (r, c) ∈ b.flagged then (b, .s "flagged_cell")
    else
      match b.reveal r c with
      | (b2, .noop) => (b2, .s "already_revealed")
      | (b2, .err) => (b2, .err)
      | (b2, .val .mine) => (b2, .s "hit_mine")
      | (b2, .val (.num n)) => (b2, .i n)
  else if action = "F" then (b.flag r c, .s "flagged")
  else (b, .s "invalid")

/-- Board.is_solved. -/
def Board.is_solved (b : Board) : Bool :=
  decide ((b.revealed.length : Int) = (b.rows : Int) * (b.cols : Int) - b.numMines)

/-- get_csp_state: the agent observation of a board. -/
def get_csp_state (b : Board) : List (List AVal) :=
  (List.range b.rows).map fun (r : Nat) =>
    (List.range b.cols).map fun (c : Nat) =>
      if ((r : Int), (c : Int)) ∈ b.flagged then FLAGGED
      else if ((r : Int), (c : Int)) ∈ b.revealed then
        match b.cellAt r c with
        | .num n => .ofInt n
        | .mine => COVERED
      else COVERED

/-- The MinesweeperAgent: its dimensions and mutable observation state. -/
structure Agent where
  rows : Nat
  cols : Nat
  st : List (List AVal)
deriving DecidableEq

/-- MinesweeperAgent.__init__ (the list copy is irrelevant for values). -/
def mkAgent (state : List (List AVal)) : Agent :=
  ⟨state.length, (state.getD 0 []).length, state⟩

/-- Observation state access `self.state[r][c]` at in-range coordinates. -/
def Agent.get (a : Agent) (r c : Nat) : AVal :=
  (a.st.getD r []).getD c COVERED

/-- Tests `isinstance(v, int) and 0 <= v <= 8`. -/
def isClue : AVal → Bool
  | .ofInt n => decide (0 ≤ n ∧ n ≤ 8)
  | .safeMark => false

/-- Integer value of an observation cell (only used on clue cells). -/
def clueVal : AVal → Int
  | .ofInt n => n
  | .safeMark => 0

/-- The eight Moore-neighborhood offsets in Python iteration order. -/
def mooreOffsets : List (Int × Int) :=
  [(-1, -1), (-1, 0), (-1, 1), (0, -1), (0, 1), (1, -1), (1, 0), (1, 1)]

/-- Offset application for the neighbor enumeration: the neighbor coordinate
when it lies inside the grid. -/
def nbrsF (rows cols r c : Nat) (d : Int × Int) : Option (Nat × Nat) :=
  if 0 ≤ (r : Int) + d.1 ∧ (r : Int) + d.1 < (rows : Int) ∧
     0 ≤ (c : Int) + d.2 ∧ (c : Int) + d.2 < (cols : Int) then
    some (((r : Int) + d.1).toNat, ((c : Int) + d.2).toNat)
  else none

/-- Moore neighborhood clipped to the grid, in Python iteration order. -/
def nbrs (rows cols : Nat) (r c : Nat) : List (Nat × Nat) :=
  mooreOffsets.filterMap (nbrsF rows cols r c)

/-- MinesweeperAgent.neighbors. -/
def Agent.neighbors (a : Agent) (r c : Nat) : List (Nat × Nat) :=
  nbrs a.rows a.cols r c

/-- Covered neighbors of a cell, in neighbor order. -/
def Agent.coveredNbrs (a : Agent) (r c : Nat) : List (Nat × Nat) :=
  (a.neighbors r c).filter fun p => decide (a.get p.1 p.2 = COVERED)

/-- Number of flagged neighbors of a cell. -/
def Agent.flaggedNbrCount (a : Agent) (r c : Nat) : Nat :=
  (a.neighbors r c).countP fun p => decide (a.get p.1 p.2 = FLAGGED)

/-- Row-major list of all grid positions. -/
def gridPositions (rows cols : Nat) : List (Nat × Nat) :=
  (List.range rows).flatMap fun r => (List.range cols).map fun c => (r, c)

/-- Row-major positions of the agent grid. -/
def Agent.positions (a : Agent) : List (Nat × Nat) :=
  gridPositions a.rows a.cols

/-- Appends, preserving first-insertion order, the elements of `xs` not already
present (models Python `set.update` up to iteration order, which only ever
feeds membership-insensitive consumers). -/
def pushNew {α : Type} [DecidableEq α] (acc : List α) (xs : List α) : List α :=
  xs.foldl (fun a x => if x ∈ a then a else a ++ [x]) acc

/-- Remaining mine count of a clue cell: clue value minus flagged neighbors. -/
def Agent.remAt (a : Agent) (r c : Nat) : Int :=
  clueVal (a.get r c) - (a.flaggedNbrCount r c : Int)

/-- One cell's contribution to a propagation sweep. -/
def sweepStep (a : Agent) (sm : List (Nat × Nat) × List (Nat × Nat)) (p : Nat × Nat) :
    List (Nat × Nat) × List (Nat × Nat) :=
  if isClue (a.get p.1 p.2) then
    let covered := a.coveredNbrs p.1 p.2
    let rem := a.remAt p.1 p.2
    (if rem = 0 ∧ covered ≠ [] then pushNew sm.1 covered else sm.1,
     if rem = (covered.length : Int) ∧ 0 < rem then pushNew sm.2 covered else sm.2)
  else sm

/-- The single propagation sweep of MinesweeperAgent.propagate: collects the
(new_safe, new_mines) sets over all clue cells in row-major order. -/
def Agent.sweep (a : Agent) : List (Nat × Nat) × List (Nat × Nat) :=
  a.positions.foldl (sweepStep a) ([], [])

/-- Writes one observation cell (no-op when out of physical range, which never
happens on well-shaped states). -/
def setCell (st : List (List AVal)) (r c : Nat) (v : AVal) : List (List AVal) :=
  st.set r ((st.getD r []).set c v)

/-- Writes the value `v` into each still-covered cell of the list: with
`v = safeMark` this is the new_safe update loop of propagate, with
`v = FLAGGED` the new_mines one. -/
def Agent.markWith (a : Agent) (v : AVal) (cells : List (Nat × Nat)) : Agent :=
  cells.foldl
    (fun b p => if b.get p.1 p.2 = COVERED then { b with st := setCell b.st p.1 p.2 v } else b)
    a

/-- MinesweeperAgent.propagate: one sweep plus the state update (safe cells
first, then mines, matching the Python statement order). -/
def Agent.propagate (a : Agent) : Agent × List (Nat × Nat) × List (Nat × Nat) :=
  let sm := a.sweep
  ((a.markWith .safeMark sm.1).markWith FLAGGED sm.2, sm)

/-- The state transformation of one propagate call. -/
def propStep (a : Agent) : Agent :=
  (a.propagate).1

/-- Well-shaped observation state, as produced by get_csp_state. -/
def Agent.WF (a : Agent) : Prop :=
  a.st.length = a.rows ∧ ∀ row ∈ a.st, row.length = a.cols

instance (a : Agent) : Decidable a.WF := by
  unfold Agent.WF
  infer_instance

/-- The spec's condition for a sweep to derive cell x safe from the clue at
p: a covered cell neighboring a revealed clue whose remaining count is zero
with a non-empty covered-neighbor set. -/
def safeCondAt (a : Agent) (p x : Nat × Nat) : Prop :=
  isClue (a.get p.1 p.2) = true ∧ a.remAt p.1 p.2 = 0 ∧
  a.coveredNbrs p.1 p.2 ≠ [] ∧ x ∈ a.coveredNbrs p.1 p.2

/-- The spec's condition for a sweep to derive cell x a mine from the clue at
p: a covered cell neighboring a revealed clue whose positive remaining count
equals its covered-neighbor count. -/
def mineCondAt (a : Agent) (p x : Nat × Nat) : Prop :=
  isClue (a.get p.1 p.2) = true ∧
  a.remAt p.1 p.2 = ((a.coveredNbrs p.1 p.2).length : Int) ∧
  0 < a.remAt p.1 p.2 ∧ x ∈ a.coveredNbrs p.1 p.2

/-- Some sweep over the current state derives x safe. -/
def forcedSafeAt (a : Agent) (x : Nat × Nat) : Prop :=
  ∃ p ∈ a.positions, safeCondAt a p x

/-- Some sweep over the current state derives x a mine. -/
def forcedMineAt (a : Agent) (x : Nat × Nat) : Prop :=
  ∃ p ∈ a.positions, mineCondAt a p x

/-- Number of covered cells of the observation state. -/
def Agent.coveredCount (a : Agent) : Nat :=
  a.positions.countP fun p => decide (a.get p.1 p.2 = COVERED)

/-- Reason tag attached to an action (Python uses strings; only equality with
the string random is ever consulted, by solve_ai's interception). -/
inductive Reason where
  | forcedFlag : Reason
  | forcedReveal : Reason
  | probFlag : ℚ → Reason
  | probReveal : ℚ → Reason
  | assume : Reason
  | rand : Reason
  | monteCarlo : Reason
deriving DecidableEq

/-- An agent action tuple (act, r, c, reason). -/
structure Action where
  act : String
  r : Nat
  c : Nat
  why : Reason
deriving DecidableEq

/-- The body of MinesweeperAgent.get_forced_actions with explicit fuel: loop
propagation sweeps, appending flags then reveals per sweep, until a sweep
derives nothing. -/
def gfaAux : Nat → Agent → Agent × List Action
  | 0, a => (a, [])
  | fuel + 1, a =>
    let pr := a.propagate
    if pr.2.1 = [] ∧ pr.2.2 = [] then (pr.1, [])
    else
      let rest := gfaAux fuel pr.1
      (rest.1,
        (pr.2.2.map fun p => ⟨"F", p.1, p.2, .forcedFlag⟩) ++
        (pr.2.1.map fun p => ⟨"R", p.1, p.2, .forcedReveal⟩) ++ rest.2)

/-- MinesweeperAgent.get_forced_actions.  The fuel `coveredCount + 1` is shown
sufficient to reach the propagation fixpoint (theorem `gfa_fixpoint`). -/
def Agent.get_forced_actions (a : Agent) : Agent × List Action :=
  gfaAux (a.coveredCount + 1) a

/-- All bit assignments of length n (`itertools.product([0,1], repeat=n)` up
to order, which only feeds counting). -/
def bitLists : Nat → List (List Bool)
  | 0 => [[]]
  | n + 1 => (bitLists n).flatMap fun bs => [false :: bs, true :: bs]

/-- Value of an assignment at a frontier cell (`assign[cell]` with `assign =
dict(zip(frontier, bits))`). -/
def assignVal (fr : List (Nat × Nat)) (bits : List Bool) (p : Nat × Nat) : Bool :=
  ((fr.zip bits).lookup p).getD false

/-- Validity of an assignment: every constraint's covered-neighbor mine-bit
sum equals its required count. -/
def validBits (cs : List (List (Nat × Nat) × Int)) (fr : List (Nat × Nat))
    (bits : List Bool) : Bool :=
  cs.all fun cn => decide ((cn.1.countP fun p => assignVal fr bits p : Int) = cn.2)

/-- One cell's contribution to the constraint list and frontier of
estimate_probabilities. -/
def cfStep (a : Agent) (acc : List (List (Nat × Nat) × Int) × List (Nat × Nat))
    (p : Nat × Nat) : List (List (Nat × Nat) × Int) × List (Nat × Nat) :=
  if isClue (a.get p.1 p.2) then
    if a.coveredNbrs p.1 p.2 ≠ [] then
      (acc.1 ++ [(a.coveredNbrs p.1 p.2, a.remAt p.1 p.2)],
        pushNew acc.2 (a.coveredNbrs p.1 p.2))
    else acc
  else acc

/-- The constraint list and frontier built by estimate_probabilities: one
constraint per clue cell with covered neighbors, the frontier being the union
of their covered-neighbor sets. -/
def Agent.constraintsAndFrontier (a : Agent) :
    List (List (Nat × Nat) × Int) × List (Nat × Nat) :=
  a.positions.foldl (cfStep a) ([], [])

/-- MinesweeperAgent.estimate_probabilities; `none` is the NotImplementedError
raised when the frontier exceeds 20 cells. -/
def Agent.estimate_probabilities (a : Agent) : Option (List ((Nat × Nat) × ℚ)) :=
  let cf := a.constraintsAndFrontier
  let fr := cf.2
  if 20 < fr.length then none
  else
    let valids := (bitLists fr.length).filter fun bits => validBits cf.1 fr bits
    let total := valids.length
    some (fr.map fun p =>
      (p, if total = 0 then 0
          else mkRat (valids.countP fun bits => assignVal fr bits p : Nat) total))

/-- A candidate clue cell of assumption_actions: position, local combination
count, covered neighbors and remaining mines. -/
structure Cand where
  pos : Nat × Nat
  combos : Nat
  covered : List (Nat × Nat)
  ml : Int
deriving DecidableEq

/-- The local combination count of a clue cell: C(unopened, minesLeft). -/
def candCombos (a : Agent) (q : Nat × Nat) : Nat :=
  Nat.choose (a.coveredNbrs q.1 q.2).length (a.remAt q.1 q.2).toNat

/-- The candidate entry assumption_actions gathers for one cell: a clue cell
with `0 < mines_left ≤ unopened` and local combination count at most 10. -/
def candAt (a : Agent) (q : Nat × Nat) : Option Cand :=
  if isClue (a.get q.1 q.2) then
    if 0 < a.remAt q.1 q.2 ∧ a.remAt q.1 q.2 ≤ ((a.coveredNbrs q.1 q.2).length : Int) then
      if candCombos a q ≤ 10 then
        some ⟨q, candCombos a q, a.coveredNbrs q.1 q.2, a.remAt q.1 q.2⟩
      else none
    else none
  else none

/-- The candidate list gathered by assumption_actions in row-major order. -/
def Agent.assumptionCands (a : Agent) : List Cand :=
  a.positions.filterMap (candAt a)

/-- The amended candidate condition of assumption_actions: a clue cell whose
positive remaining count is at most its covered-neighbor count, with local
combination count at most 10. -/
def CandPred (a : Agent) (q : Nat × Nat) : Prop :=
  isClue (a.get q.1 q.2) = true ∧ 0 < a.remAt q.1 q.2 ∧
  a.remAt q.1 q.2 ≤ ((a.coveredNbrs q.1 q.2).length : Int) ∧ candCombos a q ≤ 10

instance (a : Agent) (q : Nat × Nat) : Decidable (CandPred a q) := by
  unfold CandPred
  infer_instance

/-- The claim's stated candidate condition, which skips only a negative
remaining count (or one exceeding the covered-neighbor count): it admits
remaining count zero, which the code skips. -/
def CandPredClaim (a : Agent) (q : Nat × Nat) : Prop :=
  isClue (a.get q.1 q.2) = true ∧ 0 ≤ a.remAt q.1 q.2 ∧
  a.remAt q.1 q.2 ≤ ((a.coveredNbrs q.1 q.2).length : Int) ∧ candCombos a q ≤ 10

instance (a : Agent) (q : Nat × Nat) : Decidable (CandPredClaim a q) := by
  unfold CandPredClaim
  infer_instance

/-- MinesweeperAgent.assumption_actions. -/
def Agent.assumption_actions (a : Agent) : List Action :=
  match a.assumptionCands with
  | [] => []
  | c0 :: rest =>
    let best := rest.foldl (fun b x => if x.combos < b.combos then x else b) c0
    let pats := (bitLists best.covered.length).filter fun bs =>
      decide ((bs.countP id : Int) = best.ml)
    let acts := (List.range best.covered.length).flatMap fun i =>
      (if pats.all fun bs => bs.getD i false then
        [(⟨"F", (best.covered.getD i (0, 0)).1, (best.covered.getD i (0, 0)).2,
          .assume⟩ : Action)]
      else []) ++
      (if pats.all fun bs => !(bs.getD i false) then
        [(⟨"R", (best.covered.getD i (0, 0)).1, (best.covered.getD i (0, 0)).2,
          .assume⟩ : Action)]
      else [])
    acts.filter fun act => decide (a.get act.r act.c = COVERED)

/-- Minimum of the probability values (`min(probs.values())` on a nonempty
dict). -/
def minProb (probs : List ((Nat × Nat) × ℚ)) : ℚ :=
  match probs with
  | [] => 0
  | q :: rest => rest.foldl (fun m cp => min m cp.2) q.2

/-- MinesweeperAgent.next_move, with one random draw `k`: the draw selects
index `k % length` of the candidate list in the branches that call
`random.choice`.  Returns the mutated agent together with the action list. -/
def Agent.next_move (a : Agent) (k : Nat) : Agent × List Action :=
  let fr := a.get_forced_actions
  if fr.2 ≠ [] then fr
  else
    let a2 := fr.1
    let probs := (a2.estimate_probabilities).getD []
    match probs.find? fun cp => decide (cp.2 = 1) with
    | some cp => (a2, [⟨"F", cp.1.1, cp.1.2, .probFlag cp.2⟩])
    | none =>
      if probs ≠ [] then
        let mp := minProb probs
        let best := (probs.filter fun cp => decide (cp.2 = mp)).map fun cp => cp.1
        let ch := best.getD (k % best.length) (0, 0)
        (a2, [⟨"R", ch.1, ch.2, .probReveal mp⟩])
      else
        let asm := a2.assumption_actions
        if asm ≠ [] then (a2, asm)
        else
          let covered := a2.positions.filter fun p => decide (a2.get p.1 p.2 = COVERED)
          if covered ≠ [] then
            let ch := covered.getD (k % covered.length) (0, 0)
            (a2, [⟨"R", ch.1, ch.2, .rand⟩])
          else (a2, [])

/-- Row-major covered board cells (`(r,c) not in revealed and not in flagged`),
as computed both by solve_ai and by the Monte Carlo playout. -/
def uncoveredCells (b : Board) : List (Int × Int) :=
  ((gridPositions b.rows b.cols).map fun p => ((p.1 : Int), (p.2 : Int))).filter
    fun p => decide (p ∉ b.revealed ∧ p ∉ b.flagged)

/-- Result of one Monte Carlo trial; `out` marks fuel exhaustion of the
embedding (shown unreachable at the fuel used). -/
inductive TrialRes where
  | win : TrialRes
  | loss : TrialRes
  | errT : TrialRes
  | out : TrialRes
deriving DecidableEq

/-- The cell drawn by `random.choice` on the covered non-flagged cells for a
stream draw `k`. -/
def playPick (b : Board) (k : Nat) : Int × Int :=
  (uncoveredCells b).getD (k % (uncoveredCells b).length) (0, 0)

/-- One playout step: reveal the drawn cell. -/
def playMove (b : Board) (k : Nat) : Board × PyRes :=
  b.apply_move "R" (playPick b k).1 (playPick b k).2

/-- The random playout loop of one trial: repeatedly reveal a random covered
non-flagged cell until the board is solved (win), no cell remains or a mine is
hit (loss), or an IndexError is raised. -/
def playoutAux (rng : Nat → Nat) : Nat → Nat → Board → TrialRes × Nat
  | 0, i, _ => (.out, i)
  | fuel + 1, i, b =>
    if b.is_solved then (.win, i)
    else if uncoveredCells b = [] then (.loss, i)
    else if (playMove b (rng i)).2 = .s "hit_mine" then (.loss, i + 1)
    else if (playMove b (rng i)).2 = .err then (.errT, i + 1)
    else playoutAux rng fuel (i + 1) (playMove b (rng i)).1

/-- One Monte Carlo trial: clone the visible progress (re-loading the file
reproduces the same grid), reveal the candidate, and run the random playout. -/
def runTrial (orig : Board) (cell : Int × Int) (rng : Nat → Nat) (i : Nat) :
    TrialRes × Nat :=
  let mv := orig.apply_move "R" cell.1 cell.2
  if mv.2 = .s "hit_mine" then (.loss, i)
  else if mv.2 = .err then (.errT, i)
  else playoutAux rng ((uncoveredCells mv.1).length + 1) i mv.1

/-- Win count of a candidate over a number of sequential trials, threading the
random stream position. -/
def trialsRun (orig : Board) (cell : Int × Int) (rng : Nat → Nat) :
    Nat → Nat → Nat × Nat
  | 0, i => (0, i)
  | t + 1, i =>
    let ri := runTrial orig cell rng i
    let rest := trialsRun orig cell rng t ri.2
    ((if ri.1 = .win then 1 else 0) + rest.1, rest.2)

/-- monte_carlo_select: best candidate by win count, strict improvement only,
so ties keep the first-encountered candidate. -/
def monte_carlo_select (orig : Board) (covered : List (Int × Int)) (trials : Nat)
    (rng : Nat → Nat) (i : Nat) : Option (Int × Int) × Int × Nat :=
  covered.foldl
    (fun acc cell =>
      let wr := trialsRun orig cell rng trials acc.2.2
      if acc.2.1 < (wr.1 : Int) then (some cell, (wr.1 : Int), wr.2)
      else (acc.1, acc.2.1, wr.2))
    (none, -1, i)

/-- Terminal outcome of the solver loop.  `crash` models an uncaught Python
exception (Monte Carlo returning None, or an IndexError while applying);
`fuelOut` marks fuel exhaustion of the embedding. -/
inductive Outcome where
  | won : Outcome
  | lost : Outcome
  | stuck : Outcome
  | crash : Outcome
  | fuelOut : Outcome
deriving DecidableEq

/-- Result of applying one cycle's action batch in order: stops at the first
mine hit (solve_ai returns immediately) or raised IndexError. -/
inductive ApplyRes where
  | ok : Board → ApplyRes
  | mine : Board → ApplyRes
  | errd : Board → ApplyRes
deriving DecidableEq

/-- Applies the action batch of one cycle to the board. -/
def applyActs (b : Board) : List Action → ApplyRes
  | [] => .ok b
  | act :: rest =>
    if (b.apply_move act.act (act.r : Int) (act.c : Int)).2 = .s "hit_mine" then
      .mine (b.apply_move act.act (act.r : Int) (act.c : Int)).1
    else if (b.apply_move act.act (act.r : Int) (act.c : Int)).2 = .err then
      .errd (b.apply_move act.act (act.r : Int) (act.c : Int)).1
    else applyActs (b.apply_move act.act (act.r : Int) (act.c : Int)).1 rest

/-- solve_ai's interception of a pure random guess: a singleton action tagged
random is replaced by the Monte Carlo selection over the covered board cells
(`none` models the crash when no candidate exists). -/
def interceptMC (b : Board) (acts : List Action) (rng : Nat → Nat) (i : Nat) :
    Option (List Action × Nat) :=
  match acts with
  | [act] =>
    if act.why = .rand then
      match (monte_carlo_select b (uncoveredCells b) 5 rng i).1 with
      | none => none
      | some ch =>
        some ([⟨"R", ch.1.toNat, ch.2.toNat, .monteCarlo⟩],
          (monte_carlo_select b (uncoveredCells b) 5 rng i).2.2)
    else some ([act], i)
  | _ => some (acts, i)

/-- Result of one cycle of the solver loop body. -/
inductive CycleRes where
  | next : Board → Nat → CycleRes
  | halt : Outcome → CycleRes
deriving DecidableEq

/-- One cycle of solve_ai's while loop: build the observation, ask the agent
for moves, intercept a pure random guess with Monte Carlo, and apply the
batch. -/
def solveCycle (rng : Nat → Nat) (b : Board) (i : Nat) : CycleRes :=
  let acts0 := ((mkAgent (get_csp_state b)).next_move (rng i)).2
  match interceptMC b acts0 rng (i + 1) with
  | none => .halt .crash
  | some ai =>
    if ai.1 = [] then .halt .stuck
    else
      match applyActs b ai.1 with
      | .mine _ => .halt .lost
      | .errd _ => .halt .crash
      | .ok b2 => .next b2 ai.2

/-- solve_ai's driving loop with explicit cycle fuel: each unit of fuel is one
execution of the while-loop body. -/
def solveLoop (rng : Nat → Nat) : Nat → Board → Nat → Outcome
  | 0, b, _ => if b.is_solved then .won else .fuelOut
  | fuel + 1, b, i =>
    if b.is_solved then .won
    else
      match solveCycle rng b i with
      | .halt o => o
      | .next b2 i2 => solveLoop rng fuel b2 i2

/-- Well-shaped grid: the loader rejects any file whose grid does not have
exactly `rows` rows of `cols` entries, so every loaded board satisfies this. -/
def Board.shaped (b : Board) : Prop :=
  b.grid.length = b.rows ∧ ∀ row ∈ b.grid, row.length = b.cols

instance (b : Board) : Decidable b.shaped := by
  unfold Board.shaped
  infer_instance

/-- Observation value of a board at in-range coordinates. -/
def cspAt (b : Board) (r c : Nat) : AVal :=
  ((get_csp_state b).getD r []).getD c COVERED

/-- Claim C1 as stated: flagged coordinates map to FLAGGED, revealed
coordinates map to their ground-truth value (in particular a revealed mine is
visible, hence not rendered as COVERED), all other coordinates map to
COVERED. -/
def C1ClaimAt (b : Board) : Prop :=
  ∀ r c : Nat, r < b.rows → c < b.cols →
    (((r : Int), (c : Int)) ∈ b.flagged → cspAt b r c = FLAGGED) ∧
    (((r : Int), (c : Int)) ∉ b.flagged → ((r : Int), (c : Int)) ∈ b.revealed →
      (∀ n : Int, b.cellAt r c = .num n → cspAt b r c = .ofInt n) ∧
      (b.cellAt r c = .mine → cspAt b r c ≠ COVERED)) ∧
    (((r : Int), (c : Int)) ∉ b.flagged → ((r : Int), (c : Int)) ∉ b.revealed →
      cspAt b r c = COVERED)

/-- Claim C1 amended: a revealed mine coordinate maps to COVERED (the code
renders any non-integer board value as COVERED). -/
def C1AmendedAt (b : Board) : Prop :=
  ∀ r c : Nat, r < b.rows → c < b.cols →
    (((r : Int), (c : Int)) ∈ b.flagged → cspAt b r c = FLAGGED) ∧
    (((r : Int), (c : Int)) ∉ b.flagged → ((r : Int), (c : Int)) ∈ b.revealed →
      (∀ n : Int, b.cellAt r c = .num n → cspAt b r c = .ofInt n) ∧
      (b.cellAt r c = .mine → cspAt b r c = COVERED)) ∧
    (((r : Int), (c : Int)) ∉ b.flagged → ((r : Int), (c : Int)) ∉ b.revealed →
      cspAt b r c = COVERED)

/-- A 1x1 board whose only cell is a mine that has been revealed (a lost
game): the projection renders it as COVERED. -/
def bMineRevealed : Board :=
  ⟨1, 1, 1, [[.mine]], [(0, 0)], []⟩

/-- A 2x2 board with pairwise distinct clue values, nothing revealed. -/
def bQuad : Board :=
  ⟨2, 2, 0, [[.num 1, .num 2], [.num 3, .num 4]], [], []⟩

/-- A 2x2 board exercising every apply_move branch: mine at (0,0), clue cells
elsewhere, (1,1) revealed and (0,1) flagged. -/
def bMixed : Board :=
  ⟨2, 2, 1, [[.mine, .num 1], [.num 1, .num 1]], [(1, 1)], [(0, 1)]⟩

/-- Claim C7's return vocabulary: the values apply_move is claimed to return. -/
def C7ResultVocab (res : PyRes) : Prop :=
  res = .s "flagged" ∨ res = .s "unflagged" ∨ res = .s "already_revealed" ∨
  res = .s "flagged_cell" ∨ res = .s "hit_mine" ∨ (∃ n : Int, res = .i n) ∨
  res = .s "invalid_action"

instance (a : Agent) (p x : Nat × Nat) : Decidable (safeCondAt a p x) := by
  unfold safeCondAt
  infer_instance

instance (a : Agent) (p x : Nat × Nat) : Decidable (mineCondAt a p x) := by
  unfold mineCondAt
  infer_instance

instance (a : Agent) (x : Nat × Nat) : Decidable (forcedSafeAt a x) := by
  unfold forcedSafeAt
  infer_instance

instance (a : Agent) (x : Nat × Nat) : Decidable (forcedMineAt a x) := by
  unfold forcedMineAt
  infer_instance

/-- A 1x2 observation: a revealed clue 1 beside a covered cell, which forces a
flag on the covered cell. -/
def exProp : Agent := mkAgent [[.ofInt 1, .ofInt 9]]

/-- A 1x2 observation: a revealed clue 0 beside a covered cell. -/
def exZero : Agent := mkAgent [[.ofInt 0, .ofInt 9]]

/-- A 2x2 observation with a single revealed clue 1: propagation derives
nothing and the three covered neighbors get probability 1/3 each. -/
def exProb4 : Agent := mkAgent [[.ofInt 1, .ofInt 9], [.ofInt 9, .ofInt 9]]

/-- The probability map computed on exProb4: each of the three covered
neighbors of the clue 1 carries probability 1/3. -/
def exProbs4 : List ((Nat × Nat) × ℚ) :=
  [((0, 1), mkRat 1 3), ((1, 0), mkRat 1 3), ((1, 1), mkRat 1 3)]

/-- The mine set selected by a bit assignment over the frontier list. -/
def selOf (fr : List (Nat × Nat)) (bits : List Bool) : Finset (Nat × Nat) :=
  ((fr.zip bits).filterMap fun pb => if pb.2 then some pb.1 else none).toFinset

/-- The spec's frontier: a covered cell adjacent to at least one revealed
clue. -/
def FrontierPred (a : Agent) (x : Nat × Nat) : Prop :=
  a.get x.1 x.2 = COVERED ∧
  ∃ q ∈ a.positions, isClue (a.get q.1 q.2) = true ∧ x ∈ a.neighbors q.1 q.2

instance (a : Agent) (x : Nat × Nat) : Decidable (FrontierPred a x) := by
  unfold FrontierPred
  infer_instance

/-- The spec's validity of a mine set: every constraint's covered-neighbor
mine count equals its required count. -/
def ValidSet (cs : List (List (Nat × Nat) × Int)) (S : Finset (Nat × Nat)) : Prop :=
  ∀ cn ∈ cs, ((cn.1.filter fun q => decide (q ∈ S)).length : Int) = cn.2

instance (cs : List (List (Nat × Nat) × Int)) (S : Finset (Nat × Nat)) :
    Decidable (ValidSet cs S) := by
  unfold ValidSet
  infer_instance

/-- The spec's total number of valid assignments over the frontier. -/
def totalSpec (a : Agent) : Nat :=
  (((a.constraintsAndFrontier).2.toFinset.powerset).filter fun S =>
    ValidSet (a.constraintsAndFrontier).1 S).card

/-- The spec's number of valid assignments in which a given cell is a mine. -/
def mineSpec (a : Agent) (cell : Nat × Nat) : Nat :=
  (((a.constraintsAndFrontier).2.toFinset.powerset).filter fun S =>
    ValidSet (a.constraintsAndFrontier).1 S ∧ cell ∈ S).card

/-- The per-candidate score list of monte_carlo_select: each candidate paired
with its win count over the given number of sequential trials, threading the
random stream position across candidates exactly as the nested loops do. -/
def mcScores (orig : Board) (trials : Nat) (rng : Nat → Nat) :
    List (Int × Int) → Nat → List ((Int × Int) × Nat) × Nat
  | [], i => ([], i)
  | cell :: rest, i =>
    let wr := trialsRun orig cell rng trials i
    let tl := mcScores orig trials rng rest wr.2
    ((cell, wr.1) :: tl.1, tl.2)

/-- First-encountered argmax of a score list: the named entry attains the
maximal score and strictly exceeds every score before it. -/
def IsFirstArgmax (scores : List ((Int × Int) × Nat)) (c : Int × Int) : Prop :=
  ∃ j, j < scores.length ∧ (scores.getD j ((0, 0), 0)).1 = c ∧
    (∀ k, k < scores.length →
      (scores.getD k ((0, 0), 0)).2 ≤ (scores.getD j ((0, 0), 0)).2) ∧
    ∀ k, k < j → (scores.getD k ((0, 0), 0)).2 < (scores.getD j ((0, 0), 0)).2

/-- One step of the random playout, stated declaratively: the board is not yet
solved, a covered non-flagged cell remains, the uniformly drawn one is
revealed, and the reveal neither hits a mine nor raises IndexError. -/
def PlayStepR (rng : Nat → Nat) (s t : Board × Nat) : Prop :=
  s.1.is_solved = false ∧ uncoveredCells s.1 ≠ [] ∧ t.2 = s.2 + 1 ∧
  t.1 = (playMove s.1 (rng s.2)).1 ∧
  (playMove s.1 (rng s.2)).2 ≠ .s "hit_mine" ∧
  (playMove s.1 (rng s.2)).2 ≠ .err

/-- The spec's trial-win condition: revealing the candidate on the clone
neither hits a mine nor raises, and some finite sequence of random playout
steps then reaches a solved board without hitting a mine. -/
def TrialWin (orig : Board) (cell : Int × Int) (rng : Nat → Nat) (i : Nat) : Prop :=
  (orig.apply_move "R" cell.1 cell.2).2 ≠ .s "hit_mine" ∧
  (orig.apply_move "R" cell.1 cell.2).2 ≠ .err ∧
  ∃ s : Board × Nat,
    Relation.ReflTransGen (PlayStepR rng) ((orig.apply_move "R" cell.1 cell.2).1, i) s ∧
    s.1.is_solved = true

/-- Number of mine neighbors of a cell (the clue value a correct generator
writes). -/
def mineNbrs (b : Board) (r c : Nat) : Nat :=
  (nbrs b.rows b.cols r c).countP fun q => decide (b.cellAt q.1 q.2 = .mine)

/-- Number of mine cells of the grid. -/
def mineCells (b : Board) : Nat :=
  (gridPositions b.rows b.cols).countP fun p => decide (b.cellAt p.1 p.2 = .mine)

/-- A clue cell carries its true mine-neighbor count. -/
def cellValOK (b : Board) (r c : Nat) : Bool :=
  match b.cellAt r c with
  | .mine => true
  | .num n => decide (n = (mineNbrs b r c : Int))

/-- A member of the revealed set is an in-range non-mine coordinate. -/
def revOK (b : Board) (p : Int × Int) : Bool :=
  decide (0 ≤ p.1) && decide (p.1 < (b.rows : Int)) && decide (0 ≤ p.2) &&
    decide (p.2 < (b.cols : Int)) && decide (b.cellAt p.1.toNat p.2.toNat ≠ .mine)

/-- A member of the flagged set is an in-range mine coordinate. -/
def flagOK (b : Board) (p : Int × Int) : Bool :=
  decide (0 ≤ p.1) && decide (p.1 < (b.rows : Int)) && decide (0 ≤ p.2) &&
    decide (p.2 < (b.cols : Int)) && decide (b.cellAt p.1.toNat p.2.toNat = .mine)

/-- Well-formedness of a game position, established by the loader plus a safe
first reveal and maintained by the solver loop: a well-shaped nonempty grid
whose header mine count and clue values are correct, with a duplicate-free
revealed set of in-range non-mine cells and a flagged set of in-range mines. -/
def Inv (b : Board) : Prop :=
  b.shaped ∧ 0 < b.rows ∧ 0 < b.cols ∧
  b.numMines = (mineCells b : Int) ∧
  (∀ r : Nat, r < b.rows → ∀ c : Nat, c < b.cols → cellValOK b r c = true) ∧
  b.revealed.Nodup ∧
  (∀ p ∈ b.revealed, revOK b p = true) ∧
  (∀ p ∈ b.flagged, flagOK b p = true)

instance (b : Board) : Decidable (Inv b) := by
  unfold Inv
  infer_instance

/-- Board-level covered-cell count: the cells neither revealed nor flagged. -/
def coveredCountB (b : Board) : Nat :=
  (uncoveredCells b).length

/-- Consistency of an observation state with the underlying board: dimensions
agree, FLAGGED cells are mines, clue cells carry the true mine-neighbor count
of a non-mine cell, safety-marked cells are non-mines, and every cell holds
one of these values or COVERED. -/
def obsOK (b : Board) (a : Agent) : Prop :=
  a.rows = b.rows ∧ a.cols = b.cols ∧ a.WF ∧
  ∀ r : Nat, r < b.rows → ∀ c : Nat, c < b.cols →
    (a.get r c = FLAGGED → b.cellAt r c = .mine) ∧
    (isClue (a.get r c) = true →
      clueVal (a.get r c) = (mineNbrs b r c : Int) ∧ b.cellAt r c ≠ .mine) ∧
    (a.get r c = .safeMark → b.cellAt r c ≠ .mine) ∧
    (a.get r c = FLAGGED ∨ a.get r c = COVERED ∨ a.get r c = .safeMark ∨
      isClue (a.get r c) = true)

/-- The facts the solver loop guarantees about every action of a cycle batch:
the action is a reveal or flag at an in-range coordinate that was covered at
the start of the cycle, and a flag always targets a mine. -/
def ActFact (b : Board) (act : Action) : Prop :=
  (act.act = "R" ∨ act.act = "F") ∧ act.r < b.rows ∧ act.c < b.cols ∧
  ((act.r : Int), (act.c : Int)) ∉ b.revealed ∧
  ((act.r : Int), (act.c : Int)) ∉ b.flagged ∧
  (act.act = "F" → b.cellAt act.r act.c = .mine)

/-- A 1x1 mine-free board with its single clue 0 still covered. -/
def bSolo : Board := ⟨1, 1, 0, [[.num 0]], [], []⟩

/-! Support lemmas. -/

theorem pyIdx?_natCast {α : Type} (l : List α) (n : Nat) :
    pyIdx? l (n : Int) = l[n]? := by
  simp [pyIdx?]

theorem pyIdx?_getD {α : Type} (l : List α) (n : Nat) (d : α) (h : n < l.length) :
    pyIdx? l (n : Int) = some (l.getD n d) := by
  rw [pyIdx?_natCast, List.getElem?_eq_getElem h, List.getD_eq_getElem?_getD,
    List.getElem?_eq_getElem h]
  simp

theorem cspAt_eq (b : Board) (r c : Nat) (hr : r < b.rows) (hc : c < b.cols) :
    cspAt b r c =
      (if ((r : Int), (c : Int)) ∈ b.flagged then FLAGGED
       else if ((r : Int), (c : Int)) ∈ b.revealed then
         match b.cellAt r c with
         | .num n => .ofInt n
         | .mine => COVERED
       else COVERED) := by
  have h1 : (get_csp_state b).getD r [] =
      (List.range b.cols).map fun (c : Nat) =>
        (if ((r : Int), (c : Int)) ∈ b.flagged then FLAGGED
         else if ((r : Int), (c : Int)) ∈ b.revealed then
           match b.cellAt r c with
           | .num n => .ofInt n
           | .mine => COVERED
         else COVERED) := by
    rw [get_csp_state, List.getD_eq_getElem?_getD, List.getElem?_map,
      List.getElem?_range hr]
    simp
  rw [cspAt, h1, List.getD_eq_getElem?_getD, List.getElem?_map,
    List.getElem?_range hc]
  simp

/-! Theorems for the claims about the observation projection (C1), the
apply_move contract (C7) and unchecked coordinates (C10). -/

/-- C1 counterexample: on a board where a mine was actually revealed, the
observation built by get_csp_state renders that coordinate as COVERED rather
than exposing the mine, so the claimed projection is not what the code
computes. -/
theorem C1_cex_revealed_mine : ¬ C1ClaimAt bMineRevealed := by
  intro h
  exact ((h 0 0 (by decide) (by decide)).2.1 (by decide) (by decide)).2 (by decide) (by decide)

/-- C1 (amended): for every board, the observation maps a flagged coordinate
to FLAGGED, a revealed coordinate to its clue integer when the ground truth is
a clue and to COVERED when the ground truth is a mine, and every other
coordinate to COVERED; moreover the solver is a function of this projection
only, never of the board itself. -/
theorem C1_csp_projection :
    (∀ b : Board, C1AmendedAt b) ∧
    (∀ (b1 b2 : Board) (k : Nat), get_csp_state b1 = get_csp_state b2 →
      (mkAgent (get_csp_state b1)).next_move k = (mkAgent (get_csp_state b2)).next_move k) := by
  constructor
  · intro b r c hr hc
    refine ⟨?_, ?_, ?_⟩
    · intro hf
      rw [cspAt_eq b r c hr hc, if_pos hf]
    · intro hf hrev
      constructor
      · intro n hn
        rw [cspAt_eq b r c hr hc, if_neg hf, if_pos hrev, hn]
      · intro hm
        rw [cspAt_eq b r c hr hc, if_neg hf, if_pos hrev, hm]
    · intro hf hrev
      rw [cspAt_eq b r c hr hc, if_neg hf, if_neg hrev]
  · intro b1 b2 k h
    rw [h]

/-- Witness for C1_csp_projection at the concrete mixed board. -/
theorem C1_csp_projection_witness :
    cspAt bMixed 0 1 = FLAGGED ∧ cspAt bMixed 1 1 = .ofInt 1 ∧ cspAt bMixed 1 0 = COVERED := by
  refine ⟨(C1_csp_projection.1 bMixed 0 1 (by decide) (by decide)).1 (by decide), ?_, ?_⟩
  · exact ((C1_csp_projection.1 bMixed 1 1 (by decide) (by decide)).2.1 (by decide)
      (by decide)).1 1 (by decide)
  · exact (C1_csp_projection.1 bMixed 1 0 (by decide) (by decide)).2.2 (by decide) (by decide)

/-- C7 counterexample: the action token U (and likewise any unrecognized
token, including an attempted unflag) makes apply_move return the string
invalid, which is outside the claimed return vocabulary: there is no unflag
support and no invalid_action value. -/
theorem C7_cex_no_unflag :
    (bMixed.apply_move "U" 0 0).2 = .s "invalid" ∧
    (bMixed.apply_move "unflag" 0 1).2 = .s "invalid" ∧
    ¬ C7ResultVocab (.s "invalid") := by
  refine ⟨by decide, by decide, ?_⟩
  intro h
  rcases h with h | h | h | h | h | ⟨n, h⟩ | h <;> simp_all

/-- C7 (amended): apply_move supports exactly the tokens R and F: a reveal of
a flagged cell returns flagged_cell, of an already revealed cell
already_revealed, of a mine hit_mine, of a fresh clue cell its clue integer;
a flag returns flagged; every other token returns invalid. -/
theorem C7_apply_move_contract (b : Board) (t : String) (r c : Nat)
    (hs : b.shaped) (hr : r < b.rows) (hc : c < b.cols) :
    (t = "R" →
      (((r : Int), (c : Int)) ∈ b.flagged →
        (b.apply_move t r c).2 = .s "flagged_cell") ∧
      (((r : Int), (c : Int)) ∉ b.flagged → ((r : Int), (c : Int)) ∈ b.revealed →
        (b.apply_move t r c).2 = .s "already_revealed") ∧
      (((r : Int), (c : Int)) ∉ b.flagged → ((r : Int), (c : Int)) ∉ b.revealed →
        (b.cellAt r c = .mine → (b.apply_move t r c).2 = .s "hit_mine") ∧
        (∀ n : Int, b.cellAt r c = .num n → (b.apply_move t r c).2 = .i n))) ∧
    (t = "F" → (b.apply_move t r c).2 = .s "flagged") ∧
    (t ≠ "R" → t ≠ "F" → (b.apply_move t r c).2 = .s "invalid") := by
  obtain ⟨hlen, hrow⟩ := hs
  have hrlen : r < b.grid.length := by omega
  have hgrid : pyIdx? b.grid (r : Int) = some (b.grid.getD r []) :=
    pyIdx?_getD b.grid r [] hrlen
  have hrowlen : (b.grid.getD r []).length = b.cols := by
    have hm : b.grid.getD r [] ∈ b.grid := by
      rw [List.getD_eq_getElem?_getD, List.getElem?_eq_getElem hrlen]
      exact List.getElem_mem _
    exact hrow _ hm
  have hclen : c < (b.grid.getD r []).length := by omega
  have hcell : pyIdx? (b.grid.getD r []) (c : Int) = some (b.cellAt r c) :=
    pyIdx?_getD (b.grid.getD r []) c (.num 0) hclen
  refine ⟨?_, ?_, ?_⟩
  · intro ht
    subst ht
    refine ⟨?_, ?_, ?_⟩
    · intro hf
      rw [Board.apply_move, if_pos rfl, if_pos hf]
    · intro hf hrev
      rw [Board.apply_move, if_pos rfl, if_neg hf, Board.reveal,
        if_pos (Or.inl hrev)]
    · intro hf hrev
      constructor
      · intro hm
        rw [Board.apply_move, if_pos rfl, if_neg hf, Board.reveal,
          if_neg (by simp [hf, hrev]), hgrid]
        simp only
        rw [hcell, hm]
      · intro n hn
        rw [Board.apply_move, if_pos rfl, if_neg hf, Board.reveal,
          if_neg (by simp [hf, hrev]), hgrid]
        simp only
        rw [hcell, hn]
  · intro ht
    subst ht
    rw [Board.apply_move, if_neg (by decide), if_pos rfl]
  · intro hR hF
    rw [Board.apply_move, if_neg hR, if_neg hF]

/-- Witness for C7_apply_move_contract on the mixed board: each branch at a
concrete input. -/
theorem C7_apply_move_contract_witness :
    (bMixed.apply_move "R" 0 1).2 = .s "flagged_cell" ∧
    (bMixed.apply_move "R" 1 1).2 = .s "already_revealed" ∧
    (bMixed.apply_move "R" 0 0).2 = .s "hit_mine" ∧
    (bMixed.apply_move "R" 1 0).2 = .i 1 ∧
    (bMixed.apply_move "F" 1 0).2 = .s "flagged" ∧
    (bMixed.apply_move "X" 1 0).2 = .s "invalid" := by
  have h1 := C7_apply_move_contract bMixed "R" 0 1 (by decide) (by decide) (by decide)
  have h2 := C7_apply_move_contract bMixed "R" 1 1 (by decide) (by decide) (by decide)
  have h3 := C7_apply_move_contract bMixed "R" 0 0 (by decide) (by decide) (by decide)
  have h4 := C7_apply_move_contract bMixed "R" 1 0 (by decide) (by decide) (by decide)
  have h5 := C7_apply_move_contract bMixed "F" 1 0 (by decide) (by decide) (by decide)
  have h6 := C7_apply_move_contract bMixed "X" 1 0 (by decide) (by decide) (by decide)
  refine ⟨(h1.1 rfl).1 (by decide), (h2.1 rfl).2.1 (by decide) (by decide),
    ((h3.1 rfl).2.2 (by decide) (by decide)).1 (by decide),
    ((h4.1 rfl).2.2 (by decide) (by decide)).2 1 (by decide),
    h5.2.1 rfl, h6.2.2 (by decide) (by decide)⟩

/-- C10: Board.reveal performs no bounds check.  At row -1 it records the
out-of-grid coordinate as revealed and returns the value of the wrapped-around
in-grid cell (1,0), and at row 2 (beyond the grid) the revealed set is mutated
even though indexing then raises. -/
theorem C10_reveal_no_bounds_check :
    (bQuad.reveal (-1) 0).2 = .val (.num 3) ∧
    (bQuad.reveal (-1) 0).1.revealed = [((-1 : Int), (0 : Int))] ∧
    bQuad.cellAt 1 0 = .num 3 ∧
    ((-1 : Int), (0 : Int)) ≠ ((1 : Int), (0 : Int)) ∧
    (¬ ((0 : Int) ≤ -1)) ∧
    (bQuad.apply_move "R" (-1) 1).2 = .i 4 ∧
    (bQuad.reveal 2 0).2 = .err ∧
    (bQuad.reveal 2 0).1.revealed = [((2 : Int), (0 : Int))] := by
  decide

/-! Generic list support lemmas. -/

theorem countP_mono_of {α : Type} (l : List α) (p q : α → Bool)
    (h : ∀ x ∈ l, q x = true → p x = true) : l.countP q ≤ l.countP p := by
  induction l with
  | nil => simp
  | cons y ys ih =>
    rw [List.countP_cons, List.countP_cons]
    have h1 : q y = true → p y = true := h y (List.mem_cons_self y ys)
    have h2 := ih fun x hx => h x (List.mem_cons_of_mem y hx)
    cases hq : q y
    · cases hp : p y <;> simp <;> omega
    · rw [h1 hq]
      simp
      omega

theorem countP_lt_of {α : Type} (l : List α) (p q : α → Bool)
    (h : ∀ x ∈ l, q x = true → p x = true) (x0 : α) (hm : x0 ∈ l)
    (hp : p x0 = true) (hq : q x0 = false) : l.countP q < l.countP p := by
  induction l with
  | nil => simp at hm
  | cons y ys ih =>
    rw [List.countP_cons, List.countP_cons]
    have hys : ∀ x ∈ ys, q x = true → p x = true :=
      fun x hx => h x (List.mem_cons_of_mem y hx)
    rcases List.mem_cons.mp hm with rfl | hmem
    · have := countP_mono_of ys p q hys
      rw [hq, hp]
      simp
      omega
    · have hlt := ih hys hmem
      have h1 : q y = true → p y = true := h y (List.mem_cons_self y ys)
      cases hqy : q y
      · cases hpy : p y <;> simp <;> omega
      · rw [h1 hqy]
        simp
        omega

theorem mem_pushNew {α : Type} [DecidableEq α] (acc xs : List α) (x : α) :
    x ∈ pushNew acc xs ↔ x ∈ acc ∨ x ∈ xs := by
  induction xs generalizing acc with
  | nil => simp [pushNew]
  | cons y ys ih =>
    have hstep : pushNew acc (y :: ys) = pushNew (if y ∈ acc then acc else acc ++ [y]) ys := by
      rw [pushNew, pushNew, List.foldl_cons]
    rw [hstep, ih]
    by_cases hy : y ∈ acc
    · rw [if_pos hy]
      simp only [List.mem_cons]
      constructor
      · rintro (h | h)
        · exact Or.inl h
        · exact Or.inr (Or.inr h)
      · rintro (h | rfl | h)
        · exact Or.inl h
        · exact Or.inl hy
        · exact Or.inr h
    · rw [if_neg hy]
      simp only [List.mem_append, List.mem_singleton, List.mem_cons]
      tauto

theorem nodup_pushNew {α : Type} [DecidableEq α] (acc xs : List α)
    (h : acc.Nodup) : (pushNew acc xs).Nodup := by
  induction xs generalizing acc with
  | nil => exact h
  | cons y ys ih =>
    have hstep : pushNew acc (y :: ys) = pushNew (if y ∈ acc then acc else acc ++ [y]) ys := by
      rw [pushNew, pushNew, List.foldl_cons]
    rw [hstep]
    by_cases hy : y ∈ acc
    · rw [if_pos hy]
      exact ih acc h
    · rw [if_neg hy]
      refine ih _ ?_
      rw [← List.concat_eq_append]
      exact List.Nodup.concat hy h

theorem mem_gridPositions (rows cols : Nat) (x : Nat × Nat) :
    x ∈ gridPositions rows cols ↔ x.1 < rows ∧ x.2 < cols := by
  cases x with
  | mk r c =>
    simp only [gridPositions, List.mem_flatMap, List.mem_map, List.mem_range, Prod.mk.injEq]
    constructor
    · rintro ⟨r0, hr0, c0, hc0, rfl, rfl⟩
      exact ⟨hr0, hc0⟩
    · rintro ⟨hr, hc⟩
      exact ⟨r, hr, c, hc, rfl, rfl⟩

theorem length_gridPositions (rows cols : Nat) :
    (gridPositions rows cols).length = rows * cols := by
  induction rows with
  | zero => simp [gridPositions]
  | succ n ih =>
    rw [gridPositions, List.range_succ, List.flatMap_append]
    simp only [List.length_append, List.flatMap_cons, List.flatMap_nil]
    rw [← gridPositions, ih]
    simp [Nat.succ_mul]

theorem nodup_gridPositions (rows cols : Nat) : (gridPositions rows cols).Nodup := by
  rw [gridPositions, List.nodup_flatMap]
  constructor
  · intro r _
    refine List.Nodup.map ?_ (List.nodup_range cols)
    intro c1 c2 h
    exact congrArg Prod.snd h
  · refine (List.pairwise_lt_range rows).imp ?_
    intro r1 r2 hlt
    rw [Function.onFun, List.disjoint_left]
    rintro x hx1 hx2
    obtain ⟨c1, _, rfl⟩ := List.mem_map.mp hx1
    obtain ⟨c2, _, he⟩ := List.mem_map.mp hx2
    have hfst := congrArg Prod.fst he
    simp only at hfst
    omega

theorem nbrsF_some {rows cols r c : Nat} {d : Int × Int} {q : Nat × Nat}
    (h : nbrsF rows cols r c d = some q) :
    0 ≤ (r : Int) + d.1 ∧ (r : Int) + d.1 < (rows : Int) ∧
    0 ≤ (c : Int) + d.2 ∧ (c : Int) + d.2 < (cols : Int) ∧
    q = (((r : Int) + d.1).toNat, ((c : Int) + d.2).toNat) := by
  rw [nbrsF] at h
  split at h
  · rename_i hcond
    exact ⟨hcond.1, hcond.2.1, hcond.2.2.1, hcond.2.2.2, (Option.some.inj h).symm⟩
  · exact absurd h (by simp)

theorem nbrs_bounds {rows cols r c : Nat} {q : Nat × Nat}
    (h : q ∈ nbrs rows cols r c) : q.1 < rows ∧ q.2 < cols := by
  rw [nbrs] at h
  rcases List.mem_filterMap.mp h with ⟨d, _, hd⟩
  obtain ⟨h1, h2, h3, h4, rfl⟩ := nbrsF_some hd
  constructor
  · show ((r : Int) + d.1).toNat < rows
    omega
  · show ((c : Int) + d.2).toNat < cols
    omega

theorem nbrs_nodup (rows cols r c : Nat) : (nbrs rows cols r c).Nodup := by
  rw [nbrs]
  refine List.Nodup.filterMap ?_ (by decide)
  intro d1 d2 q h1 h2
  simp only [Option.mem_def] at h1 h2
  obtain ⟨a1, b1, c1, e1, hq1⟩ := nbrsF_some h1
  obtain ⟨a2, b2, c2, e2, hq2⟩ := nbrsF_some h2
  rw [hq1] at hq2
  have hfst := congrArg Prod.fst hq2
  have hsnd := congrArg Prod.snd hq2
  simp only at hfst hsnd
  obtain ⟨d11, d12⟩ := d1
  obtain ⟨d21, d22⟩ := d2
  simp only at a1 b1 c1 e1 a2 b2 c2 e2 hfst hsnd
  have : d11 = d21 := by omega
  have : d12 = d22 := by omega
  simp_all

theorem mem_coveredNbrs {a : Agent} {r c : Nat} {q : Nat × Nat} :
    q ∈ a.coveredNbrs r c ↔ q ∈ a.neighbors r c ∧ a.get q.1 q.2 = COVERED := by
  simp [Agent.coveredNbrs, List.mem_filter]

theorem coveredNbrs_bounds {a : Agent} {r c : Nat} {q : Nat × Nat}
    (h : q ∈ a.coveredNbrs r c) :
    q.1 < a.rows ∧ q.2 < a.cols ∧ a.get q.1 q.2 = COVERED := by
  obtain ⟨h1, h2⟩ := mem_coveredNbrs.mp h
  have := nbrs_bounds h1
  exact ⟨this.1, this.2, h2⟩

theorem nodup_coveredNbrs (a : Agent) (r c : Nat) : (a.coveredNbrs r c).Nodup :=
  List.Nodup.filter _ (nbrs_nodup a.rows a.cols r c)

/-! Lemmas about state updates. -/

theorem getD_set_ne {α : Type} (l : List α) (i j : Nat) (w : α) (d : α) (h : j ≠ i) :
    (l.set i w).getD j d = l.getD j d := by
  rw [List.getD_eq_getElem?_getD, List.getD_eq_getElem?_getD,
    List.getElem?_set_ne (fun he => h he.symm)]

theorem getD_set_self {α : Type} (l : List α) (i : Nat) (w : α) (d : α)
    (h : i < l.length) : (l.set i w).getD i d = w := by
  rw [List.getD_eq_getElem?_getD, List.getElem?_set_eq_of_lt _ h]
  simp

theorem setCell_length (st : List (List AVal)) (r c : Nat) (v : AVal) :
    (setCell st r c v).length = st.length := by
  simp [setCell]

theorem setCell_get_ne (st : List (List AVal)) (r c : Nat) (v : AVal) (x y : Nat)
    (h : ¬(x = r ∧ y = c)) :
    ((setCell st r c v).getD x []).getD y COVERED = (st.getD x []).getD y COVERED := by
  by_cases hx : x = r
  · subst hx
    have hy : y ≠ c := fun hc => h ⟨rfl, hc⟩
    rcases Nat.lt_or_ge x st.length with hlt | hge
    · rw [setCell, getD_set_self st x _ [] hlt, getD_set_ne _ c y v COVERED hy]
    · rw [setCell, List.set_eq_of_length_le hge]
  · rw [setCell, getD_set_ne st r x _ [] hx]

theorem setCell_get_self (st : List (List AVal)) (r c : Nat) (v : AVal)
    (hr : r < st.length) (hc : c < (st.getD r []).length) :
    ((setCell st r c v).getD r []).getD c COVERED = v := by
  rw [setCell, getD_set_self st r _ [] hr, getD_set_self _ c v COVERED hc]

theorem WF_setCell {a : Agent} (hWF : a.WF) (r c : Nat) (v : AVal) :
    Agent.WF { a with st := setCell a.st r c v } := by
  obtain ⟨hlen, hrows⟩ := hWF
  refine ⟨by simpa [setCell_length], ?_⟩
  intro row hrow
  rw [setCell] at hrow
  rcases Nat.lt_or_ge r a.st.length with hlt | hge
  · rcases List.mem_or_eq_of_mem_set hrow with hmem | rfl
    · exact hrows row hmem
    · rw [List.length_set]
      refine hrows _ ?_
      rw [List.getD_eq_getElem?_getD, List.getElem?_eq_getElem hlt]
      exact List.getElem_mem _
  · rw [List.set_eq_of_length_le hge] at hrow
    exact hrows row hrow

theorem markWith_cons (a : Agent) (v : AVal) (p : Nat × Nat) (ps : List (Nat × Nat)) :
    a.markWith v (p :: ps) =
      (if a.get p.1 p.2 = COVERED then { a with st := setCell a.st p.1 p.2 v } else a).markWith
        v ps := by
  rw [Agent.markWith, Agent.markWith, List.foldl_cons]

theorem markWith_dims (a : Agent) (v : AVal) (cells : List (Nat × Nat)) :
    (a.markWith v cells).rows = a.rows ∧ (a.markWith v cells).cols = a.cols := by
  induction cells generalizing a with
  | nil => exact ⟨rfl, rfl⟩
  | cons p ps ih =>
    rw [markWith_cons]
    rcases ih (if a.get p.1 p.2 = COVERED then { a with st := setCell a.st p.1 p.2 v } else a)
      with ⟨h1, h2⟩
    rw [h1, h2]
    constructor <;> split <;> rfl

theorem markWith_WF {a : Agent} (hWF : a.WF) (v : AVal) (cells : List (Nat × Nat)) :
    (a.markWith v cells).WF := by
  induction cells generalizing a with
  | nil => exact hWF
  | cons p ps ih =>
    rw [markWith_cons]
    split
    · exact ih (WF_setCell hWF p.1 p.2 v)
    · exact ih hWF

theorem markWith_get {a : Agent} (hWF : a.WF) (v : AVal) (cells : List (Nat × Nat))
    (hin : ∀ q ∈ cells, q.1 < a.rows ∧ q.2 < a.cols) (x y : Nat) :
    (a.markWith v cells).get x y =
      if (x, y) ∈ cells ∧ a.get x y = COVERED then v else a.get x y := by
  induction cells generalizing a with
  | nil => simp [Agent.markWith]
  | cons p ps ih =>
    rw [markWith_cons]
    have hp := hin p (List.mem_cons_self p ps)
    have hin2 : ∀ q ∈ ps, q.1 < a.rows ∧ q.2 < a.cols := fun q hq =>
      hin q (List.mem_cons_of_mem p hq)
    by_cases hcov : a.get p.1 p.2 = COVERED
    · rw [if_pos hcov]
      have hr : p.1 < a.st.length := by rw [hWF.1]; exact hp.1
      have hc : p.2 < (a.st.getD p.1 []).length := by
        rw [hWF.2 (a.st.getD p.1 []) (by
          rw [List.getD_eq_getElem?_getD, List.getElem?_eq_getElem hr]
          exact List.getElem_mem _)]
        exact hp.2
      have hWF1 : Agent.WF { a with st := setCell a.st p.1 p.2 v } :=
        WF_setCell hWF p.1 p.2 v
      have hget1 : ∀ x0 y0 : Nat,
          Agent.get { a with st := setCell a.st p.1 p.2 v } x0 y0 =
            if (x0, y0) = p ∧ a.get x0 y0 = COVERED then v else a.get x0 y0 := by
        intro x0 y0
        by_cases hxp : (x0, y0) = p
        · have h1 : x0 = p.1 := congrArg Prod.fst hxp
          have h2 : y0 = p.2 := congrArg Prod.snd hxp
          have hcov0 : a.get x0 y0 = COVERED := by rw [h1, h2]; exact hcov
          rw [if_pos ⟨hxp, hcov0⟩]
          show ((setCell a.st p.1 p.2 v).getD x0 []).getD y0 COVERED = v
          rw [h1, h2]
          exact setCell_get_self a.st p.1 p.2 v hr hc
        · rw [if_neg (fun hand => hxp hand.1)]
          show ((setCell a.st p.1 p.2 v).getD x0 []).getD y0 COVERED =
            (a.st.getD x0 []).getD y0 COVERED
          exact setCell_get_ne a.st p.1 p.2 v x0 y0
            (fun hand => hxp (Prod.ext hand.1 hand.2))
      rw [ih hWF1 hin2]
      simp only [hget1, List.mem_cons]
      by_cases hxp : (x, y) = p
      · have hcovxy : a.get x y = COVERED := by
          have h1 : x = p.1 := congrArg Prod.fst hxp
          have h2 : y = p.2 := congrArg Prod.snd hxp
          rw [h1, h2]
          exact hcov
        simp [hxp, hcovxy]
      · by_cases hmem : (x, y) ∈ ps <;> by_cases hcov2 : a.get x y = COVERED <;>
          simp [hxp, hmem, hcov2]
    · rw [if_neg hcov]
      rw [ih hWF hin2]
      simp only [List.mem_cons]
      by_cases hxp : (x, y) = p
      · have hncov : ¬a.get x y = COVERED := by
          have h1 : x = p.1 := congrArg Prod.fst hxp
          have h2 : y = p.2 := congrArg Prod.snd hxp
          rw [h1, h2]
          exact hcov
        simp [hxp, hncov]
      · by_cases hmem : (x, y) ∈ ps <;> by_cases hcov2 : a.get x y = COVERED <;>
          simp [hxp, hmem, hcov2]

/-! Characterization of propagation sweeps. -/

theorem sweepStep_mem (a : Agent) (acc : List (Nat × Nat) × List (Nat × Nat))
    (p x : Nat × Nat) :
    (x ∈ (sweepStep a acc p).1 ↔ x ∈ acc.1 ∨ safeCondAt a p x) ∧
    (x ∈ (sweepStep a acc p).2 ↔ x ∈ acc.2 ∨ mineCondAt a p x) := by
  rw [sweepStep]
  by_cases hc : isClue (a.get p.1 p.2) = true
  · rw [if_pos hc]
    constructor
    · simp only
      split
      · rename_i hcond
        rw [mem_pushNew]
        unfold safeCondAt
        tauto
      · rename_i hcond
        unfold safeCondAt
        rw [not_and_or] at hcond
        tauto
    · simp only
      split
      · rename_i hcond
        rw [mem_pushNew]
        unfold mineCondAt
        tauto
      · rename_i hcond
        unfold mineCondAt
        rw [not_and_or] at hcond
        tauto
  · rw [if_neg hc]
    unfold safeCondAt mineCondAt
    tauto

theorem sweep_fold (a : Agent) (l : List (Nat × Nat))
    (acc : List (Nat × Nat) × List (Nat × Nat)) (x : Nat × Nat) :
    (x ∈ (l.foldl (sweepStep a) acc).1 ↔ x ∈ acc.1 ∨ ∃ p ∈ l, safeCondAt a p x) ∧
    (x ∈ (l.foldl (sweepStep a) acc).2 ↔ x ∈ acc.2 ∨ ∃ p ∈ l, mineCondAt a p x) := by
  induction l generalizing acc with
  | nil => simp
  | cons p ps ih =>
    rw [List.foldl_cons]
    have hstep := sweepStep_mem a acc p x
    have hih := ih (sweepStep a acc p)
    constructor
    · rw [hih.1, hstep.1]
      simp only [List.mem_cons]
      constructor
      · rintro ((h | h) | ⟨q, hq, hcond⟩)
        · exact Or.inl h
        · exact Or.inr ⟨p, Or.inl rfl, h⟩
        · exact Or.inr ⟨q, Or.inr hq, hcond⟩
      · rintro (h | ⟨q, (rfl | hq), hcond⟩)
        · exact Or.inl (Or.inl h)
        · exact Or.inl (Or.inr hcond)
        · exact Or.inr ⟨q, hq, hcond⟩
    · rw [hih.2, hstep.2]
      simp only [List.mem_cons]
      constructor
      · rintro ((h | h) | ⟨q, hq, hcond⟩)
        · exact Or.inl h
        · exact Or.inr ⟨p, Or.inl rfl, h⟩
        · exact Or.inr ⟨q, Or.inr hq, hcond⟩
      · rintro (h | ⟨q, (rfl | hq), hcond⟩)
        · exact Or.inl (Or.inl h)
        · exact Or.inl (Or.inr hcond)
        · exact Or.inr ⟨q, hq, hcond⟩

theorem sweep_mem_safe (a : Agent) (x : Nat × Nat) :
    x ∈ a.sweep.1 ↔ forcedSafeAt a x := by
  have := (sweep_fold a a.positions ([], []) x).1
  simpa [Agent.sweep, forcedSafeAt] using this

theorem sweep_mem_mine (a : Agent) (x : Nat × Nat) :
    x ∈ a.sweep.2 ↔ forcedMineAt a x := by
  have := (sweep_fold a a.positions ([], []) x).2
  simpa [Agent.sweep, forcedMineAt] using this

theorem sweep_covered {a : Agent} {x : Nat × Nat}
    (h : x ∈ a.sweep.1 ∨ x ∈ a.sweep.2) :
    x.1 < a.rows ∧ x.2 < a.cols ∧ a.get x.1 x.2 = COVERED := by
  rcases h with h | h
  · obtain ⟨p, _, _, _, _, hx⟩ := (sweep_mem_safe a x).mp h
    exact coveredNbrs_bounds hx
  · obtain ⟨p, _, _, _, _, hx⟩ := (sweep_mem_mine a x).mp h
    exact coveredNbrs_bounds hx

/-! Lemmas about one propagate step. -/

theorem propStep_dims (a : Agent) :
    (propStep a).rows = a.rows ∧ (propStep a).cols = a.cols := by
  rw [propStep, Agent.propagate]
  have h1 := markWith_dims a .safeMark a.sweep.1
  have h2 := markWith_dims (a.markWith .safeMark a.sweep.1) FLAGGED a.sweep.2
  exact ⟨h2.1.trans h1.1, h2.2.trans h1.2⟩

theorem propStep_WF {a : Agent} (hWF : a.WF) : (propStep a).WF := by
  rw [propStep, Agent.propagate]
  exact markWith_WF (markWith_WF hWF _ _) _ _

theorem propStep_get {a : Agent} (hWF : a.WF) (x y : Nat) :
    (propStep a).get x y =
      if (x, y) ∈ a.sweep.1 ∧ a.get x y = COVERED then .safeMark
      else if (x, y) ∈ a.sweep.2 ∧ a.get x y = COVERED then FLAGGED
      else a.get x y := by
  rw [propStep, Agent.propagate]
  simp only
  have hin1 : ∀ q ∈ a.sweep.1, q.1 < a.rows ∧ q.2 < a.cols := fun q hq =>
    ⟨(sweep_covered (Or.inl hq)).1, (sweep_covered (Or.inl hq)).2.1⟩
  have hd := markWith_dims a .safeMark a.sweep.1
  have hin2 : ∀ q ∈ a.sweep.2,
      q.1 < (a.markWith .safeMark a.sweep.1).rows ∧
      q.2 < (a.markWith .safeMark a.sweep.1).cols := fun q hq => by
    rw [hd.1, hd.2]
    exact ⟨(sweep_covered (Or.inr hq)).1, (sweep_covered (Or.inr hq)).2.1⟩
  rw [markWith_get (markWith_WF hWF _ _) FLAGGED a.sweep.2 hin2 x y]
  rw [markWith_get hWF .safeMark a.sweep.1 hin1 x y]
  by_cases h1 : (x, y) ∈ a.sweep.1 ∧ a.get x y = COVERED
  · rw [if_pos h1, if_pos h1]
    rw [if_neg (fun hand => by exact absurd hand.2 (by decide))]
  · rw [if_neg h1, if_neg h1]

theorem propStep_covered_imp {a : Agent} (hWF : a.WF) (x y : Nat)
    (h : (propStep a).get x y = COVERED) : a.get x y = COVERED := by
  rw [propStep_get hWF x y] at h
  split at h
  · exact absurd h (by decide)
  · split at h
    · exact absurd h (by decide)
    · exact h

theorem propStep_positions (a : Agent) : (propStep a).positions = a.positions := by
  rw [Agent.positions, Agent.positions, (propStep_dims a).1, (propStep_dims a).2]

theorem propStep_covered_lt {a : Agent} (hWF : a.WF)
    (hne : ¬(a.sweep.1 = [] ∧ a.sweep.2 = [])) :
    (propStep a).coveredCount < a.coveredCount := by
  rw [Agent.coveredCount, Agent.coveredCount, propStep_positions]
  have hx0 : ∃ x0, (x0 ∈ a.sweep.1 ∨ x0 ∈ a.sweep.2) := by
    rcases hs1 : a.sweep.1 with _ | ⟨y, ys⟩
    · rcases hs2 : a.sweep.2 with _ | ⟨z, zs⟩
      · exact absurd ⟨hs1, hs2⟩ hne
      · exact ⟨z, Or.inr (List.mem_cons_self z zs)⟩
    · exact ⟨y, Or.inl (List.mem_cons_self y ys)⟩
  obtain ⟨x0, hx0⟩ := hx0
  obtain ⟨hb1, hb2, hcov⟩ := sweep_covered hx0
  refine countP_lt_of a.positions _ _ ?_ x0 ?_ ?_ ?_
  · intro x hx hq
    have := propStep_covered_imp hWF x.1 x.2 (by simpa using hq)
    simpa using this
  · exact (mem_gridPositions a.rows a.cols x0).mpr ⟨hb1, hb2⟩
  · simpa using hcov
  · have : (propStep a).get x0.1 x0.2 ≠ COVERED := by
      rw [propStep_get hWF x0.1 x0.2]
      rcases hx0 with hm | hm
      · rw [if_pos ⟨by simpa using hm, hcov⟩]
        decide
      · by_cases h1 : (x0.1, x0.2) ∈ a.sweep.1 ∧ a.get x0.1 x0.2 = COVERED
        · rw [if_pos h1]
          decide
        · rw [if_neg h1, if_pos ⟨by simpa using hm, hcov⟩]
          decide
    simpa using this

theorem propStep_fixed {a : Agent} (h : a.sweep = ([], [])) : propStep a = a := by
  rw [propStep, Agent.propagate]
  simp only [h]
  rfl

/-! Lemmas about get_forced_actions. -/

theorem propagate_fst (a : Agent) : (a.propagate).1 = propStep a := rfl

theorem propagate_snd (a : Agent) : (a.propagate).2 = a.sweep := rfl

theorem gfaAux_empty (fuel : Nat) (a : Agent) (h : a.sweep = ([], [])) :
    gfaAux (fuel + 1) a = (a, []) := by
  have h1 : (a.propagate).2.1 = [] := by rw [propagate_snd, h]
  have h2 : (a.propagate).2.2 = [] := by rw [propagate_snd, h]
  rw [gfaAux]
  simp only []
  rw [if_pos ⟨h1, h2⟩, propagate_fst, propStep_fixed h]

theorem gfaAux_nonempty (fuel : Nat) (a : Agent)
    (h : ¬(a.sweep.1 = [] ∧ a.sweep.2 = [])) :
    gfaAux (fuel + 1) a =
      ((gfaAux fuel (propStep a)).1,
        (a.sweep.2.map fun p => (⟨"F", p.1, p.2, .forcedFlag⟩ : Action)) ++
          (a.sweep.1.map fun p => (⟨"R", p.1, p.2, .forcedReveal⟩ : Action)) ++
          (gfaAux fuel (propStep a)).2) := by
  rw [gfaAux]
  simp only [propagate_snd, propagate_fst]
  rw [if_neg h]

theorem gfaAux_fixpoint (fuel : Nat) :
    ∀ a : Agent, a.WF → a.coveredCount < fuel →
      (gfaAux fuel a).1.sweep = ([], []) ∧ (gfaAux fuel a).1.WF ∧
      ((gfaAux fuel a).2 = [] → (gfaAux fuel a).1 = a) ∧
      (gfaAux fuel a).1.rows = a.rows ∧ (gfaAux fuel a).1.cols = a.cols := by
  induction fuel with
  | zero => exact fun a _ hf => absurd hf (Nat.not_lt_zero _)
  | succ n ih =>
    intro a hWF hf
    by_cases h : a.sweep.1 = [] ∧ a.sweep.2 = []
    · have hs : a.sweep = ([], []) := Prod.ext h.1 h.2
      rw [gfaAux_empty n a hs]
      exact ⟨hs, hWF, fun _ => rfl, rfl, rfl⟩
    · rw [gfaAux_nonempty n a h]
      have hWF2 := propStep_WF hWF
      have hlt := propStep_covered_lt hWF h
      have hrec := ih (propStep a) hWF2 (by omega)
      refine ⟨hrec.1, hrec.2.1, ?_, ?_, ?_⟩
      · intro hempty
        simp only [List.append_eq_nil, List.map_eq_nil_iff] at hempty
        exact absurd ⟨hempty.1.2, hempty.1.1⟩ h
      · rw [hrec.2.2.2.1, (propStep_dims a).1]
      · rw [hrec.2.2.2.2, (propStep_dims a).2]

theorem gfaAux_mem (fuel : Nat) :
    ∀ a : Agent, a.WF → a.coveredCount < fuel →
      (∀ x : Nat × Nat,
        ((⟨"R", x.1, x.2, .forcedReveal⟩ : Action) ∈ (gfaAux fuel a).2 ↔
          ∃ k, forcedSafeAt (propStep^[k] a) x) ∧
        ((⟨"F", x.1, x.2, .forcedFlag⟩ : Action) ∈ (gfaAux fuel a).2 ↔
          ∃ k, forcedMineAt (propStep^[k] a) x)) ∧
      (∀ act ∈ (gfaAux fuel a).2,
        act = ⟨"R", act.r, act.c, .forcedReveal⟩ ∨
        act = ⟨"F", act.r, act.c, .forcedFlag⟩) := by
  induction fuel with
  | zero => exact fun a _ hf => absurd hf (Nat.not_lt_zero _)
  | succ n ih =>
    intro a hWF hf
    by_cases h : a.sweep.1 = [] ∧ a.sweep.2 = []
    · have hs : a.sweep = ([], []) := Prod.ext h.1 h.2
      have hfix : propStep a = a := propStep_fixed hs
      rw [gfaAux_empty n a hs]
      refine ⟨fun x => ⟨?_, ?_⟩, fun act hact => absurd hact (List.not_mem_nil _)⟩
      · simp only [List.not_mem_nil, false_iff, not_exists]
        intro k hk
        rw [Function.iterate_fixed hfix k] at hk
        have := (sweep_mem_safe a x).mpr hk
        rw [hs] at this
        exact absurd this (List.not_mem_nil _)
      · simp only [List.not_mem_nil, false_iff, not_exists]
        intro k hk
        rw [Function.iterate_fixed hfix k] at hk
        have := (sweep_mem_mine a x).mpr hk
        rw [hs] at this
        exact absurd this (List.not_mem_nil _)
    · rw [gfaAux_nonempty n a h]
      have hWF2 := propStep_WF hWF
      have hlt := propStep_covered_lt hWF h
      have hrec := ih (propStep a) hWF2 (by omega)
      constructor
      · intro x
        constructor
        · simp only [List.mem_append, List.mem_map]
          constructor
          · rintro ((⟨p, hp, hpe⟩ | ⟨p, hp, hpe⟩) | hmem)
            · have hbad := congrArg Action.act hpe
              simp at hbad
            · have hpx : p = x := by
                have h1 := congrArg Action.r hpe
                have h2 := congrArg Action.c hpe
                exact Prod.ext h1 h2
              subst hpx
              exact ⟨0, by simpa [sweep_mem_safe] using hp⟩
            · obtain ⟨k, hk⟩ := ((hrec.1 x).1).mp hmem
              exact ⟨k + 1, by rwa [Function.iterate_succ_apply]⟩
          · rintro ⟨k, hk⟩
            cases k with
            | zero =>
              refine Or.inl (Or.inr ⟨x, ?_, rfl⟩)
              simpa [sweep_mem_safe] using hk
            | succ k0 =>
              refine Or.inr (((hrec.1 x).1).mpr ⟨k0, ?_⟩)
              rwa [Function.iterate_succ_apply] at hk
        · simp only [List.mem_append, List.mem_map]
          constructor
          · rintro ((⟨p, hp, hpe⟩ | ⟨p, hp, hpe⟩) | hmem)
            · have hpx : p = x := by
                have h1 := congrArg Action.r hpe
                have h2 := congrArg Action.c hpe
                exact Prod.ext h1 h2
              subst hpx
              exact ⟨0, by simpa [sweep_mem_mine] using hp⟩
            · have hbad := congrArg Action.act hpe
              simp at hbad
            · obtain ⟨k, hk⟩ := ((hrec.1 x).2).mp hmem
              exact ⟨k + 1, by rwa [Function.iterate_succ_apply]⟩
          · rintro ⟨k, hk⟩
            cases k with
            | zero =>
              refine Or.inl (Or.inl ⟨x, ?_, rfl⟩)
              simpa [sweep_mem_mine] using hk
            | succ k0 =>
              refine Or.inr (((hrec.1 x).2).mpr ⟨k0, ?_⟩)
              rwa [Function.iterate_succ_apply] at hk
      · intro act hact
        rcases List.mem_append.mp hact with hact1 | hact2
        · rcases List.mem_append.mp hact1 with hactF | hactR
          · obtain ⟨p, _, hpe⟩ := List.mem_map.mp hactF
            right
            rw [← hpe]
          · obtain ⟨p, _, hpe⟩ := List.mem_map.mp hactR
            left
            rw [← hpe]
        · exact hrec.2 act hact2

/-- C3: get_forced_actions repeats propagation sweeps until a sweep derives
nothing, and its output consists exactly of the reveals of cells some sweep
derived safe (remaining count zero, non-empty covered set) and the flags of
cells some sweep derived mines (positive remaining count equal to the covered
count). -/
theorem C3_forced_actions (a : Agent) (hWF : a.WF) :
    a.get_forced_actions.1.sweep = ([], []) ∧
    (∀ x : Nat × Nat,
      ((⟨"R", x.1, x.2, .forcedReveal⟩ : Action) ∈ a.get_forced_actions.2 ↔
        ∃ k, forcedSafeAt (propStep^[k] a) x) ∧
      ((⟨"F", x.1, x.2, .forcedFlag⟩ : Action) ∈ a.get_forced_actions.2 ↔
        ∃ k, forcedMineAt (propStep^[k] a) x)) ∧
    (∀ act ∈ a.get_forced_actions.2,
      act = ⟨"R", act.r, act.c, .forcedReveal⟩ ∨
      act = ⟨"F", act.r, act.c, .forcedFlag⟩) := by
  have h1 := gfaAux_fixpoint (a.coveredCount + 1) a hWF (Nat.lt_succ_self _)
  have h2 := gfaAux_mem (a.coveredCount + 1) a hWF (Nat.lt_succ_self _)
  exact ⟨h1.1, h2.1, h2.2⟩

/-- Witness for C3 on the 1x2 clue-1 observation: the covered neighbor is
emitted as a forced flag, derived by the first sweep. -/
theorem C3_forced_actions_witness :
    (⟨"F", 0, 1, .forcedFlag⟩ : Action) ∈ exProp.get_forced_actions.2 :=
  ((C3_forced_actions exProp (by decide)).2.1 (0, 1)).2.mpr ⟨0, by decide⟩

/-- C9: running get_forced_actions again on the agent state left by a previous
run returns no actions and leaves the state unchanged. -/
theorem C9_propagation_idempotent (a : Agent) (hWF : a.WF) :
    (a.get_forced_actions.1).get_forced_actions = (a.get_forced_actions.1, []) := by
  have hfix := (gfaAux_fixpoint (a.coveredCount + 1) a hWF (Nat.lt_succ_self _)).1
  exact gfaAux_empty _ _ hfix

/-- Witness for C9 on the 1x2 clue-1 observation. -/
theorem C9_propagation_idempotent_witness :
    (exProp.get_forced_actions.1).get_forced_actions = (exProp.get_forced_actions.1, []) :=
  C9_propagation_idempotent exProp (by decide)

/-! Lemmas for the probability branch of next_move. -/

theorem getD_mem {α : Type} (l : List α) (n : Nat) (d : α) (h : n < l.length) :
    l.getD n d ∈ l := by
  rw [List.getD_eq_getElem?_getD, List.getElem?_eq_getElem h]
  exact List.getElem_mem h

theorem foldl_min_le (l : List ((Nat × Nat) × ℚ)) :
    ∀ q0 : ℚ, (l.foldl (fun m cp => min m cp.2) q0 ≤ q0 ∧
      (∀ cp ∈ l, l.foldl (fun m cp => min m cp.2) q0 ≤ cp.2) ∧
      (l.foldl (fun m cp => min m cp.2) q0 = q0 ∨
        ∃ cp ∈ l, l.foldl (fun m cp => min m cp.2) q0 = cp.2)) := by
  induction l with
  | nil => exact fun q0 => ⟨le_refl _, fun cp hcp => absurd hcp (List.not_mem_nil _), Or.inl rfl⟩
  | cons c cs ih =>
    intro q0
    rw [List.foldl_cons]
    obtain ⟨h1, h2, h3⟩ := ih (min q0 c.2)
    refine ⟨le_trans h1 (min_le_left _ _), ?_, ?_⟩
    · intro cp hcp
      rcases List.mem_cons.mp hcp with rfl | hcp2
      · exact le_trans h1 (min_le_right _ _)
      · exact h2 cp hcp2
    · rcases h3 with he | ⟨cp, hcp, he⟩
      · rcases le_total q0 c.2 with hle | hle
        · rw [he, min_eq_left hle]
          exact Or.inl rfl
        · rw [he, min_eq_right hle]
          exact Or.inr ⟨c, List.mem_cons_self c cs, rfl⟩
      · exact Or.inr ⟨cp, List.mem_cons_of_mem c hcp, he⟩

theorem minProb_le (probs : List ((Nat × Nat) × ℚ)) (cp : (Nat × Nat) × ℚ)
    (h : cp ∈ probs) : minProb probs ≤ cp.2 := by
  cases probs with
  | nil => exact absurd h (List.not_mem_nil _)
  | cons q rest =>
    rw [minProb]
    rcases List.mem_cons.mp h with rfl | h2
    · exact (foldl_min_le rest cp.2).1
    · exact (foldl_min_le rest q.2).2.1 cp h2

theorem minProb_mem (probs : List ((Nat × Nat) × ℚ)) (h : probs ≠ []) :
    ∃ cp ∈ probs, cp.2 = minProb probs := by
  cases probs with
  | nil => exact absurd rfl h
  | cons q rest =>
    rw [minProb]
    rcases (foldl_min_le rest q.2).2.2 with he | ⟨cp, hcp, he⟩
    · exact ⟨q, List.mem_cons_self q rest, he.symm⟩
    · exact ⟨cp, List.mem_cons_of_mem q hcp, he.symm⟩

theorem map_fst_nodup_unique {α β : Type} (l : List (α × β))
    (h : (l.map Prod.fst).Nodup) (x : α) (p q : β)
    (hp : (x, p) ∈ l) (hq : (x, q) ∈ l) : p = q := by
  induction l with
  | nil => exact absurd hp (List.not_mem_nil _)
  | cons c cs ih =>
    rw [List.map_cons, List.nodup_cons] at h
    rcases List.mem_cons.mp hp with hpc | hp2
    · rcases List.mem_cons.mp hq with hqc | hq2
      · rw [← hpc] at hqc
        exact (congrArg Prod.snd hqc).symm
      · exact absurd (List.mem_map.mpr ⟨(x, q), hq2, by rw [← hpc]⟩) h.1
    · rcases List.mem_cons.mp hq with hqc | hq2
      · exact absurd (List.mem_map.mpr ⟨(x, p), hp2, by rw [← hqc]⟩) h.1
      · exact ih h.2 hp2 hq2

theorem cf_fold_nodup (a : Agent) (l : List (Nat × Nat))
    (acc : List (List (Nat × Nat) × Int) × List (Nat × Nat)) (h : acc.2.Nodup) :
    ((l.foldl (cfStep a) acc).2).Nodup := by
  induction l generalizing acc with
  | nil => exact h
  | cons p ps ih =>
    rw [List.foldl_cons]
    refine ih (cfStep a acc p) ?_
    rw [cfStep]
    split
    · split
      · exact nodup_pushNew acc.2 _ h
      · exact h
    · exact h

theorem frontier_nodup (a : Agent) : (a.constraintsAndFrontier).2.Nodup :=
  cf_fold_nodup a a.positions ([], []) List.nodup_nil

theorem est_keys (a : Agent) (l : List ((Nat × Nat) × ℚ))
    (h : a.estimate_probabilities = some l) :
    l.map Prod.fst = (a.constraintsAndFrontier).2 := by
  rw [Agent.estimate_probabilities] at h
  simp only at h
  split at h
  · exact absurd h (by simp)
  · rw [← Option.some.inj h, List.map_map]
    exact List.map_id'' (congrFun rfl) _

theorem gfa_empty_state (a : Agent) (hWF : a.WF)
    (hf : a.get_forced_actions.2 = []) : a.get_forced_actions.1 = a :=
  (gfaAux_fixpoint (a.coveredCount + 1) a hWF (Nat.lt_succ_self _)).2.2.1 hf

theorem next_move_unfold (a : Agent) (hWF : a.WF)
    (hf : a.get_forced_actions.2 = []) (j : Nat) :
    a.next_move j =
      (match ((a.estimate_probabilities).getD []).find? fun cp => decide (cp.2 = 1) with
       | some cp => (a, [⟨"F", cp.1.1, cp.1.2, .probFlag cp.2⟩])
       | none =>
         if (a.estimate_probabilities).getD [] ≠ [] then
           let mp := minProb ((a.estimate_probabilities).getD [])
           let best := (((a.estimate_probabilities).getD []).filter fun cp =>
             decide (cp.2 = mp)).map fun cp => cp.1
           let ch := best.getD (j % best.length) (0, 0)
           (a, [⟨"R", ch.1, ch.2, .probReveal mp⟩])
         else
           let asm := a.assumption_actions
           if asm ≠ [] then (a, asm)
           else
             let covered := a.positions.filter fun p => decide (a.get p.1 p.2 = COVERED)
             if covered ≠ [] then
               let ch := covered.getD (j % covered.length) (0, 0)
               (a, [⟨"R", ch.1, ch.2, .rand⟩])
             else (a, [])) := by
  have hstate := gfa_empty_state a hWF hf
  rw [Agent.next_move]
  simp only [hf, hstate, ne_eq, not_true_eq_false, if_false]

/-- C2: in the probability branch (no forced actions, non-empty probability
map), next_move never reveals a probability-1 cell: if some cell has
probability exactly 1 the move is a flag on such a cell, and otherwise the
move is a reveal of a cell of globally minimal probability, the random draw
ranging exactly over the minimal set. -/
theorem C2_probability_policy (a : Agent) (k : Nat) (hWF : a.WF)
    (hf : a.get_forced_actions.2 = [])
    (probs : List ((Nat × Nat) × ℚ))
    (hprobs : a.estimate_probabilities = some probs)
    (hne : probs ≠ []) :
    (∀ act ∈ (a.next_move k).2, act.act = "R" →
      ∀ p : ℚ, ((act.r, act.c), p) ∈ probs → p ≠ 1) ∧
    ((∃ cp ∈ probs, cp.2 = 1) →
      ∃ cp ∈ probs, cp.2 = 1 ∧ (a.next_move k).2 = [⟨"F", cp.1.1, cp.1.2, .probFlag 1⟩]) ∧
    ((∀ cp ∈ probs, cp.2 ≠ 1) →
      ∃ cell : Nat × Nat, (cell, minProb probs) ∈ probs ∧
        (∀ cp ∈ probs, minProb probs ≤ cp.2) ∧
        (a.next_move k).2 = [⟨"R", cell.1, cell.2, .probReveal (minProb probs)⟩]) ∧
    (∀ cp ∈ probs, cp.2 = minProb probs → (∀ cq ∈ probs, cq.2 ≠ 1) →
      ∃ j : Nat, (a.next_move j).2 = [⟨"R", cp.1.1, cp.1.2, .probReveal (minProb probs)⟩]) := by
  have hnm : ∀ j : Nat, a.next_move j =
      (match probs.find? fun cp => decide (cp.2 = 1) with
       | some cp => (a, [⟨"F", cp.1.1, cp.1.2, .probFlag cp.2⟩])
       | none =>
         if probs ≠ [] then
           let mp := minProb probs
           let best := (probs.filter fun cp => decide (cp.2 = mp)).map fun cp => cp.1
           let ch := best.getD (j % best.length) (0, 0)
           (a, [⟨"R", ch.1, ch.2, .probReveal mp⟩])
         else
           let asm := a.assumption_actions
           if asm ≠ [] then (a, asm)
           else
             let covered := a.positions.filter fun p => decide (a.get p.1 p.2 = COVERED)
             if covered ≠ [] then
               let ch := covered.getD (j % covered.length) (0, 0)
               (a, [⟨"R", ch.1, ch.2, .rand⟩])
             else (a, [])) := by
    intro j
    rw [next_move_unfold a hWF hf j, hprobs]
    simp only [Option.getD_some]
  cases hfind : probs.find? fun cp => decide (cp.2 = 1) with
  | some cp =>
    have hcpmem : cp ∈ probs := List.mem_of_find?_eq_some hfind
    have hcp1 : cp.2 = 1 := by
      have hdec := List.find?_some hfind
      exact of_decide_eq_true hdec
    have hacts : (a.next_move k).2 = [⟨"F", cp.1.1, cp.1.2, .probFlag 1⟩] := by
      rw [hnm k, hfind]
      dsimp only
      rw [hcp1]
    refine ⟨?_, ?_, ?_, ?_⟩
    · intro act hact hR p hp
      rw [hacts] at hact
      rcases List.mem_cons.mp hact with rfl | hbad
      · simp at hR
      · exact absurd hbad (List.not_mem_nil _)
    · intro _
      exact ⟨cp, hcpmem, hcp1, hacts⟩
    · intro hall
      exact absurd hcp1 (hall cp hcpmem)
    · intro cq _ _ hnone
      exact absurd hcp1 (hnone cp hcpmem)
  | none =>
    have hno1 : ∀ cq ∈ probs, cq.2 ≠ 1 := by
      intro cq hcq
      have := List.find?_eq_none.mp hfind cq hcq
      simpa using this
    have hbest : ∀ x : Nat × Nat,
        (x ∈ (probs.filter fun cp => decide (cp.2 = minProb probs)).map fun cp => cp.1) ↔
          (x, minProb probs) ∈ probs := by
      intro x
      rw [List.mem_map]
      constructor
      · rintro ⟨cq, hcq, rfl⟩
        obtain ⟨hcqm, hcqv⟩ := List.mem_filter.mp hcq
        have : cq.2 = minProb probs := of_decide_eq_true hcqv
        have hx : cq = (cq.1, minProb probs) := Prod.ext rfl this
        rw [← hx]
        exact hcqm
      · intro hx
        exact ⟨(x, minProb probs), List.mem_filter.mpr ⟨hx, by simp⟩, rfl⟩
    have hbne : ((probs.filter fun cp => decide (cp.2 = minProb probs)).map fun cp => cp.1) ≠ [] := by
      obtain ⟨cp0, hcp0, hv0⟩ := minProb_mem probs hne
      refine List.ne_nil_of_mem ((hbest cp0.1).mpr ?_)
      have hx : cp0 = (cp0.1, minProb probs) := Prod.ext rfl hv0
      rw [← hx]
      exact hcp0
    have hblen : 0 < ((probs.filter fun cp => decide (cp.2 = minProb probs)).map fun cp => cp.1).length :=
      List.length_pos.mpr hbne
    have hacts : ∀ j : Nat, (a.next_move j).2 =
        [⟨"R",
          (((probs.filter fun cp => decide (cp.2 = minProb probs)).map fun cp => cp.1).getD
            (j % ((probs.filter fun cp => decide (cp.2 = minProb probs)).map fun cp => cp.1).length)
            (0, 0)).1,
          (((probs.filter fun cp => decide (cp.2 = minProb probs)).map fun cp => cp.1).getD
            (j % ((probs.filter fun cp => decide (cp.2 = minProb probs)).map fun cp => cp.1).length)
            (0, 0)).2,
          .probReveal (minProb probs)⟩] := by
      intro j
      rw [hnm j, hfind]
      simp only [ne_eq, hne, not_false_eq_true, if_true]
    have hchmem : ∀ j : Nat,
        ((((probs.filter fun cp => decide (cp.2 = minProb probs)).map fun cp => cp.1).getD
          (j % ((probs.filter fun cp => decide (cp.2 = minProb probs)).map fun cp => cp.1).length)
          (0, 0)), minProb probs) ∈ probs := by
      intro j
      refine (hbest _).mp ?_
      refine getD_mem _ _ _ ?_
      exact Nat.mod_lt _ hblen
    refine ⟨?_, ?_, ?_, ?_⟩
    · intro act hact hR p hp
      rw [hacts k] at hact
      rcases List.mem_cons.mp hact with rfl | hbad
      · exact hno1 _ hp
      · exact absurd hbad (List.not_mem_nil _)
    · rintro ⟨cq, hcq, hcq1⟩
      exact absurd hcq1 (hno1 cq hcq)
    · intro _
      refine ⟨_, hchmem k, fun cq hcq => minProb_le probs cq hcq, hacts k⟩
    · intro cp hcpmem hcpmin _
      have hcpb : cp.1 ∈ (probs.filter fun cq => decide (cq.2 = minProb probs)).map fun cq => cq.1 := by
        refine (hbest cp.1).mpr ?_
        have hx : cp = (cp.1, minProb probs) := Prod.ext rfl hcpmin
        rw [← hx]
        exact hcpmem
      obtain ⟨n, hn, hcell⟩ := List.mem_iff_getElem.mp hcpb
      refine ⟨n, ?_⟩
      rw [hacts n]
      have hmod : n % ((probs.filter fun cq =>
          decide (cq.2 = minProb probs)).map fun cq => cq.1).length = n :=
        Nat.mod_eq_of_lt hn
      rw [hmod, List.getD_eq_getElem?_getD, List.getElem?_eq_getElem hn]
      simp only [Option.getD_some]
      rw [hcell]

/-- Witness for C2 on the 2x2 single-clue observation. -/
theorem C2_probability_policy_witness :
    ∃ cell : Nat × Nat, (cell, minProb exProbs4) ∈ exProbs4 ∧
      (∀ cp ∈ exProbs4, minProb exProbs4 ≤ cp.2) ∧
      (exProb4.next_move 0).2 = [⟨"R", cell.1, cell.2, .probReveal (minProb exProbs4)⟩] :=
  (C2_probability_policy exProb4 0 (by decide) (by decide) exProbs4 (by decide)
    (by decide)).2.2.1 (by decide)

/-! Bit assignments versus subsets of the frontier. -/

theorem mem_bitLists (n : Nat) (bits : List Bool) :
    bits ∈ bitLists n ↔ bits.length = n := by
  induction n generalizing bits with
  | zero =>
    rw [bitLists]
    simp [List.length_eq_zero]
  | succ m ih =>
    rw [bitLists]
    simp only [List.mem_flatMap]
    constructor
    · rintro ⟨bs, hbs, hmem⟩
      rcases List.mem_cons.mp hmem with rfl | hmem2
      · simp [(ih bs).mp hbs]
      · rcases List.mem_cons.mp hmem2 with rfl | hbad
        · simp [(ih bs).mp hbs]
        · exact absurd hbad (List.not_mem_nil _)
    · intro hlen
      cases bits with
      | nil => simp at hlen
      | cons b bs =>
        refine ⟨bs, (ih bs).mpr (by simpa using hlen), ?_⟩
        cases b
        · exact List.mem_cons_self _ _
        · exact List.mem_cons_of_mem _ (List.mem_cons_self _ _)

theorem countP_bind_pair {α β : Type} (l : List α) (f g : α → β) (p : β → Bool) :
    ((l.flatMap fun a => [f a, g a]).countP p) =
      l.countP (fun a => p (f a)) + l.countP (fun a => p (g a)) := by
  induction l with
  | nil => simp
  | cons a as ih =>
    rw [List.flatMap_cons, List.countP_append, ih, List.countP_cons, List.countP_cons,
      List.countP_cons, List.countP_cons, List.countP_nil]
    omega

theorem selOf_nil (bits : List Bool) : selOf [] bits = ∅ := by
  simp [selOf]

theorem selOf_cons (x : Nat × Nat) (fr : List (Nat × Nat)) (b : Bool) (bs : List Bool) :
    selOf (x :: fr) (b :: bs) = if b then insert x (selOf fr bs) else selOf fr bs := by
  cases b
  · simp [selOf]
  · simp [selOf]

theorem selOf_subset (fr : List (Nat × Nat)) (bits : List Bool) :
    selOf fr bits ⊆ fr.toFinset := by
  induction fr generalizing bits with
  | nil => simp [selOf_nil]
  | cons x fr2 ih =>
    cases bits with
    | nil => simp [selOf]
    | cons b bs =>
      rw [selOf_cons, List.toFinset_cons]
      cases b
      · exact (ih bs).trans (Finset.subset_insert x _)
      · simpa using Finset.insert_subset_insert x (ih bs)

theorem assignVal_mem_selOf (fr : List (Nat × Nat)) (bits : List Bool)
    (hnd : fr.Nodup) (q : Nat × Nat) (hq : q ∈ fr) :
    assignVal fr bits q = true ↔ q ∈ selOf fr bits := by
  induction fr generalizing bits with
  | nil => exact absurd hq (List.not_mem_nil _)
  | cons x fr2 ih =>
    rw [List.nodup_cons] at hnd
    cases bits with
    | nil => simp [assignVal, selOf]
    | cons b bs =>
      rw [selOf_cons]
      by_cases hqx : q = x
      · subst hqx
        have hlook : assignVal (q :: fr2) (b :: bs) q = b := by
          simp [assignVal, List.lookup]
        rw [hlook]
        have hnot : q ∉ selOf fr2 bs := fun hmem =>
          hnd.1 (List.mem_toFinset.mp (selOf_subset fr2 bs hmem))
        cases b
        · simp [hnot]
        · simp
      · have hq2 : q ∈ fr2 := by
          rcases List.mem_cons.mp hq with h | h
          · exact absurd h hqx
          · exact h
        have hbeq : (q == x) = false := by simp [hqx]
        have hlook : assignVal (x :: fr2) (b :: bs) q = assignVal fr2 bs q := by
          simp [assignVal, List.zip, List.lookup, hbeq]
        rw [hlook, ih bs hnd.2 hq2]
        cases b
        · simp
        · simp [Finset.mem_insert, hqx]

theorem assignVal_map (fr : List (Nat × Nat)) (f : (Nat × Nat) → Bool)
    (q : Nat × Nat) (hq : q ∈ fr) :
    assignVal fr (fr.map f) q = f q := by
  induction fr with
  | nil => exact absurd hq (List.not_mem_nil _)
  | cons x fr2 ih =>
    by_cases hqx : q = x
    · subst hqx
      simp [assignVal, List.lookup]
    · have hq2 : q ∈ fr2 := by
        rcases List.mem_cons.mp hq with h | h
        · exact absurd h hqx
        · exact h
      have hbeq : (q == x) = false := by simp [hqx]
      have hstep : assignVal (x :: fr2) ((x :: fr2).map f) q = assignVal fr2 (fr2.map f) q := by
        simp [assignVal, List.zip, List.lookup, hbeq]
      rw [hstep, ih hq2]

theorem selOf_card (fr : List (Nat × Nat)) (bits : List Bool) (hnd : fr.Nodup)
    (hlen : bits.length = fr.length) :
    (selOf fr bits).card = bits.countP id := by
  induction fr generalizing bits with
  | nil =>
    cases bits with
    | nil => simp [selOf_nil]
    | cons b bs => simp at hlen
  | cons x fr2 ih =>
    rw [List.nodup_cons] at hnd
    cases bits with
    | nil => simp at hlen
    | cons b bs =>
      have hlen2 : bs.length = fr2.length := by simpa using hlen
      rw [selOf_cons, List.countP_cons]
      have hnot : x ∉ selOf fr2 bs := fun hmem =>
        hnd.1 (List.mem_toFinset.mp (selOf_subset fr2 bs hmem))
      cases b
      · simp [ih bs hnd.2 hlen2]
      · rw [if_pos rfl, Finset.card_insert_of_not_mem hnot, ih bs hnd.2 hlen2]
        simp [id]

theorem selOf_of_subset (fr : List (Nat × Nat)) (S : Finset (Nat × Nat))
    (hnd : fr.Nodup) (hS : S ⊆ fr.toFinset) :
    selOf fr (fr.map fun q => decide (q ∈ S)) = S := by
  ext q
  constructor
  · intro hmem
    have hqfr : q ∈ fr := List.mem_toFinset.mp (selOf_subset _ _ hmem)
    have := (assignVal_mem_selOf fr _ hnd q hqfr).mpr hmem
    rw [assignVal_map fr _ q hqfr] at this
    exact of_decide_eq_true this
  · intro hmem
    have hqfr : q ∈ fr := List.mem_toFinset.mp (hS hmem)
    refine (assignVal_mem_selOf fr _ hnd q hqfr).mp ?_
    rw [assignVal_map fr _ q hqfr]
    exact decide_eq_true hmem

theorem countP_bitLists_eq_card (fr : List (Nat × Nat)) (hnd : fr.Nodup)
    (P : Finset (Nat × Nat) → Prop) [DecidablePred P] :
    ((bitLists fr.length).countP fun bits => decide (P (selOf fr bits))) =
      ((fr.toFinset.powerset).filter P).card := by
  induction fr generalizing P with
  | nil =>
    rw [List.length_nil, bitLists]
    rw [List.countP_cons, List.countP_nil]
    rw [List.toFinset_nil, Finset.powerset_empty, Finset.filter_singleton]
    by_cases hP : P ∅
    · rw [if_pos hP, Finset.card_singleton]
      simp [selOf_nil, hP]
    · rw [if_neg hP, Finset.card_empty]
      simp [selOf_nil, hP]
  | cons x fr2 ih =>
    rw [List.nodup_cons] at hnd
    have hxnot : x ∉ fr2.toFinset := fun h => hnd.1 (List.mem_toFinset.mp h)
    rw [List.length_cons, bitLists, List.countP_eq_length_filter]
    rw [← List.countP_eq_length_filter, countP_bind_pair]
    have hfalse : (List.countP (fun bs => decide (P (selOf (x :: fr2) (false :: bs))))
        (bitLists fr2.length)) =
        List.countP (fun bs => decide (P (selOf fr2 bs))) (bitLists fr2.length) := by
      refine List.countP_congr ?_
      intro bs _
      rw [selOf_cons]
      simp
    have htrue : (List.countP (fun bs => decide (P (selOf (x :: fr2) (true :: bs))))
        (bitLists fr2.length)) =
        List.countP (fun bs => decide (P (insert x (selOf fr2 bs)))) (bitLists fr2.length) := by
      refine List.countP_congr ?_
      intro bs _
      rw [selOf_cons]
      simp
    rw [hfalse, htrue, ih hnd.2 P, ih hnd.2 (fun S => P (insert x S))]
    rw [List.toFinset_cons, Finset.powerset_insert, Finset.filter_union]
    rw [Finset.card_union_of_disjoint]
    · congr 1
      rw [Finset.filter_image]
      refine (Finset.card_image_of_injOn ?_).symm
      intro S hS T hT he
      have hxS : x ∉ S := fun hx =>
        hxnot (Finset.mem_powerset.mp (Finset.mem_filter.mp hS).1 hx)
      have hxT : x ∉ T := fun hx =>
        hxnot (Finset.mem_powerset.mp (Finset.mem_filter.mp hT).1 hx)
      rw [← Finset.erase_insert hxS, ← Finset.erase_insert hxT, he]
    · rw [Finset.disjoint_left]
      intro S hS1 hS2
      have hxS : x ∉ S := fun hx =>
        hxnot (Finset.mem_powerset.mp (Finset.mem_filter.mp hS1).1 hx)
      obtain ⟨T, _, hTe⟩ := Finset.mem_image.mp (Finset.mem_filter.mp hS2).1
      exact hxS (hTe ▸ Finset.mem_insert_self x T)

/-! Characterization of the constraints and frontier. -/

theorem cfStep_mem (a : Agent) (acc : List (List (Nat × Nat) × Int) × List (Nat × Nat))
    (q : Nat × Nat) :
    (∀ cn, cn ∈ (cfStep a acc q).1 ↔ cn ∈ acc.1 ∨
      (isClue (a.get q.1 q.2) = true ∧ a.coveredNbrs q.1 q.2 ≠ [] ∧
        cn = (a.coveredNbrs q.1 q.2, a.remAt q.1 q.2))) ∧
    (∀ x, x ∈ (cfStep a acc q).2 ↔ x ∈ acc.2 ∨
      (isClue (a.get q.1 q.2) = true ∧ x ∈ a.coveredNbrs q.1 q.2)) := by
  rw [cfStep]
  by_cases hc : isClue (a.get q.1 q.2) = true
  · rw [if_pos hc]
    by_cases hcov : a.coveredNbrs q.1 q.2 ≠ []
    · rw [if_pos hcov]
      constructor
      · intro cn
        simp only [List.mem_append, List.mem_singleton]
        tauto
      · intro x
        rw [mem_pushNew]
        tauto
    · rw [if_neg hcov]
      push_neg at hcov
      constructor
      · intro cn
        constructor
        · exact fun h => Or.inl h
        · rintro (h | ⟨_, hne, _⟩)
          · exact h
          · exact absurd hcov hne
      · intro x
        constructor
        · exact fun h => Or.inl h
        · rintro (h | ⟨_, hx⟩)
          · exact h
          · rw [hcov] at hx
            exact absurd hx (List.not_mem_nil _)
  · rw [if_neg hc]
    constructor
    · intro cn
      constructor
      · exact fun h => Or.inl h
      · rintro (h | ⟨hclue, _⟩)
        · exact h
        · exact absurd hclue hc
    · intro x
      constructor
      · exact fun h => Or.inl h
      · rintro (h | ⟨hclue, _⟩)
        · exact h
        · exact absurd hclue hc

theorem cf_fold_mem (a : Agent) (l : List (Nat × Nat))
    (acc : List (List (Nat × Nat) × Int) × List (Nat × Nat)) :
    (∀ cn, cn ∈ (l.foldl (cfStep a) acc).1 ↔ cn ∈ acc.1 ∨
      ∃ q ∈ l, isClue (a.get q.1 q.2) = true ∧ a.coveredNbrs q.1 q.2 ≠ [] ∧
        cn = (a.coveredNbrs q.1 q.2, a.remAt q.1 q.2)) ∧
    (∀ x, x ∈ (l.foldl (cfStep a) acc).2 ↔ x ∈ acc.2 ∨
      ∃ q ∈ l, isClue (a.get q.1 q.2) = true ∧ x ∈ a.coveredNbrs q.1 q.2) := by
  induction l generalizing acc with
  | nil => simp
  | cons q qs ih =>
    rw [List.foldl_cons]
    have hstep := cfStep_mem a acc q
    have hih := ih (cfStep a acc q)
    constructor
    · intro cn
      rw [hih.1 cn, hstep.1 cn]
      simp only [List.mem_cons]
      constructor
      · rintro ((h | h) | ⟨p, hp, hcond⟩)
        · exact Or.inl h
        · exact Or.inr ⟨q, Or.inl rfl, h⟩
        · exact Or.inr ⟨p, Or.inr hp, hcond⟩
      · rintro (h | ⟨p, (rfl | hp), hcond⟩)
        · exact Or.inl (Or.inl h)
        · exact Or.inl (Or.inr hcond)
        · exact Or.inr ⟨p, hp, hcond⟩
    · intro x
      rw [hih.2 x, hstep.2 x]
      simp only [List.mem_cons]
      constructor
      · rintro ((h | h) | ⟨p, hp, hcond⟩)
        · exact Or.inl h
        · exact Or.inr ⟨q, Or.inl rfl, h⟩
        · exact Or.inr ⟨p, Or.inr hp, hcond⟩
      · rintro (h | ⟨p, (rfl | hp), hcond⟩)
        · exact Or.inl (Or.inl h)
        · exact Or.inl (Or.inr hcond)
        · exact Or.inr ⟨p, hp, hcond⟩

theorem frontier_mem (a : Agent) (x : Nat × Nat) :
    x ∈ (a.constraintsAndFrontier).2 ↔ FrontierPred a x := by
  have h := (cf_fold_mem a a.positions ([], [])).2 x
  rw [Agent.constraintsAndFrontier, h]
  simp only [List.not_mem_nil, false_or]
  rw [FrontierPred]
  constructor
  · rintro ⟨q, hq, hclue, hcov⟩
    obtain ⟨hn, hcv⟩ := mem_coveredNbrs.mp hcov
    exact ⟨hcv, q, hq, hclue, hn⟩
  · rintro ⟨hcv, q, hq, hclue, hn⟩
    exact ⟨q, hq, hclue, mem_coveredNbrs.mpr ⟨hn, hcv⟩⟩

theorem constraints_mem (a : Agent) (cn : List (Nat × Nat) × Int) :
    cn ∈ (a.constraintsAndFrontier).1 ↔
      ∃ q ∈ a.positions, isClue (a.get q.1 q.2) = true ∧
        a.coveredNbrs q.1 q.2 ≠ [] ∧ cn = (a.coveredNbrs q.1 q.2, a.remAt q.1 q.2) := by
  have h := (cf_fold_mem a a.positions ([], [])).1 cn
  rw [Agent.constraintsAndFrontier, h]
  simp

theorem constraint_cells_subset (a : Agent) (cn : List (Nat × Nat) × Int)
    (h : cn ∈ (a.constraintsAndFrontier).1) : ∀ x ∈ cn.1, x ∈ (a.constraintsAndFrontier).2 := by
  obtain ⟨q, hq, hclue, _, hcn⟩ := (constraints_mem a cn).mp h
  intro x hx
  rw [hcn] at hx
  refine (frontier_mem a x).mpr ?_
  obtain ⟨hn, hcv⟩ := mem_coveredNbrs.mp hx
  exact ⟨hcv, q, hq, hclue, hn⟩

theorem frontier_length_eq (a : Agent) :
    (a.constraintsAndFrontier).2.length =
      (a.positions.filter fun p => decide (FrontierPred a p)).length := by
  have h1 : (a.constraintsAndFrontier).2.Nodup := frontier_nodup a
  have h2 : (a.positions.filter fun p => decide (FrontierPred a p)).Nodup :=
    List.Nodup.filter _ (nodup_gridPositions a.rows a.cols)
  rw [← List.toFinset_card_of_nodup h1, ← List.toFinset_card_of_nodup h2]
  congr 1
  ext x
  rw [List.mem_toFinset, List.mem_toFinset, frontier_mem, List.mem_filter]
  constructor
  · intro hf
    refine ⟨?_, decide_eq_true hf⟩
    obtain ⟨_, q, hq, _, hn⟩ := hf
    have hb := nbrs_bounds hn
    exact (mem_gridPositions a.rows a.cols x).mpr ⟨hb.1, hb.2⟩
  · exact fun h => of_decide_eq_true h.2

theorem validBits_iff_ValidSet (a : Agent) (bits : List Bool) :
    validBits (a.constraintsAndFrontier).1 (a.constraintsAndFrontier).2 bits = true ↔
      ValidSet (a.constraintsAndFrontier).1 (selOf (a.constraintsAndFrontier).2 bits) := by
  rw [validBits, List.all_eq_true, ValidSet]
  have hkey : ∀ cn ∈ (a.constraintsAndFrontier).1,
      (cn.1.countP fun q => assignVal (a.constraintsAndFrontier).2 bits q) =
        (cn.1.filter fun q =>
          decide (q ∈ selOf (a.constraintsAndFrontier).2 bits)).length := by
    intro cn hcn
    rw [← List.countP_eq_length_filter]
    refine List.countP_congr ?_
    intro q hq
    have hqfr := constraint_cells_subset a cn hcn q hq
    have hiff := assignVal_mem_selOf (a.constraintsAndFrontier).2 bits (frontier_nodup a) q hqfr
    by_cases hmem : q ∈ selOf (a.constraintsAndFrontier).2 bits
    · rw [hiff.mpr hmem, decide_eq_true hmem]
    · rw [decide_eq_false hmem]
      cases hav : assignVal (a.constraintsAndFrontier).2 bits q
      · rfl
      · exact absurd (hiff.mp hav) hmem
  constructor
  · intro h cn hcn
    have := of_decide_eq_true (h cn hcn)
    rw [← hkey cn hcn]
    exact this
  · intro h cn hcn
    refine decide_eq_true ?_
    rw [hkey cn hcn]
    exact h cn hcn

theorem total_eq (a : Agent) :
    ((bitLists (a.constraintsAndFrontier).2.length).filter fun bits =>
      validBits (a.constraintsAndFrontier).1 (a.constraintsAndFrontier).2 bits).length =
      totalSpec a := by
  rw [← List.countP_eq_length_filter, totalSpec]
  rw [← countP_bitLists_eq_card (a.constraintsAndFrontier).2 (frontier_nodup a)]
  refine List.countP_congr ?_
  intro bits _
  by_cases hv : ValidSet (a.constraintsAndFrontier).1 (selOf (a.constraintsAndFrontier).2 bits)
  · rw [(validBits_iff_ValidSet a bits).mpr hv, decide_eq_true hv]
  · rw [decide_eq_false hv]
    cases hb : validBits (a.constraintsAndFrontier).1 (a.constraintsAndFrontier).2 bits
    · rfl
    · exact absurd ((validBits_iff_ValidSet a bits).mp hb) hv

theorem mine_eq (a : Agent) (cell : Nat × Nat)
    (hcell : cell ∈ (a.constraintsAndFrontier).2) :
    (((bitLists (a.constraintsAndFrontier).2.length).filter fun bits =>
        validBits (a.constraintsAndFrontier).1 (a.constraintsAndFrontier).2 bits).countP
      fun bits => assignVal (a.constraintsAndFrontier).2 bits cell) =
      mineSpec a cell := by
  rw [List.countP_filter, mineSpec]
  rw [← countP_bitLists_eq_card (a.constraintsAndFrontier).2 (frontier_nodup a)]
  refine List.countP_congr ?_
  intro bits _
  have hval := validBits_iff_ValidSet a bits
  have hmem := assignVal_mem_selOf (a.constraintsAndFrontier).2 bits (frontier_nodup a)
    cell hcell
  by_cases hS : ValidSet (a.constraintsAndFrontier).1 (selOf (a.constraintsAndFrontier).2 bits) ∧
      cell ∈ selOf (a.constraintsAndFrontier).2 bits
  · rw [decide_eq_true hS, hmem.mpr hS.2, hval.mpr hS.1]
    rfl
  · rw [decide_eq_false hS]
    by_cases h1 : assignVal (a.constraintsAndFrontier).2 bits cell = true
    · by_cases h2 : validBits (a.constraintsAndFrontier).1 (a.constraintsAndFrontier).2 bits = true
      · exact absurd ⟨hval.mp h2, hmem.mp h1⟩ hS
      · rw [h1, Bool.eq_false_iff.mpr h2]
        rfl
    · rw [Bool.eq_false_iff.mpr h1]
      rfl

/-- C4: estimate_probabilities fails exactly when the frontier (covered cells
adjacent to at least one revealed clue) exceeds 20 cells, and otherwise maps
every frontier cell to the number of valid assignments making it a mine
divided by the total number of valid assignments, with probability 0
everywhere when the total is zero. -/
theorem C4_estimate_probabilities (a : Agent) :
    (a.estimate_probabilities = none ↔
      20 < (a.positions.filter fun p => decide (FrontierPred a p)).length) ∧
    (∀ l, a.estimate_probabilities = some l → ∀ (cell : Nat × Nat) (p : ℚ),
      ((cell, p) ∈ l ↔ FrontierPred a cell ∧
        p = if totalSpec a = 0 then 0
            else (mineSpec a cell : ℚ) / (totalSpec a : ℚ))) := by
  have hval : ∀ cell ∈ (a.constraintsAndFrontier).2,
      (if ((bitLists (a.constraintsAndFrontier).2.length).filter fun bits =>
            validBits (a.constraintsAndFrontier).1 (a.constraintsAndFrontier).2 bits).length = 0
       then (0 : ℚ)
       else mkRat (((bitLists (a.constraintsAndFrontier).2.length).filter fun bits =>
              validBits (a.constraintsAndFrontier).1 (a.constraintsAndFrontier).2 bits).countP
            fun bits => assignVal (a.constraintsAndFrontier).2 bits cell)
          ((bitLists (a.constraintsAndFrontier).2.length).filter fun bits =>
            validBits (a.constraintsAndFrontier).1 (a.constraintsAndFrontier).2 bits).length) =
      (if totalSpec a = 0 then 0
       else (mineSpec a cell : ℚ) / (totalSpec a : ℚ)) := by
    intro cell hcell
    rw [total_eq a, mine_eq a cell hcell]
    by_cases h0 : totalSpec a = 0
    · rw [if_pos h0, if_pos h0]
    · rw [if_neg h0, if_neg h0, Rat.mkRat_eq_div]
      push_cast
      rfl
  constructor
  · rw [Agent.estimate_probabilities]
    simp only []
    rw [← frontier_length_eq]
    split
    · rename_i h
      simp [h]
    · rename_i h
      simp [h]
  · intro l hl cell p
    rw [Agent.estimate_probabilities] at hl
    simp only [] at hl
    split at hl
    · exact absurd hl (by simp)
    · have hl2 := Option.some.inj hl
      rw [← hl2]
      constructor
      · intro hmem
        obtain ⟨q, hq, he⟩ := List.mem_map.mp hmem
        have hq1 : q = cell := congrArg Prod.fst he
        subst hq1
        have hp := (congrArg Prod.snd he).symm
        simp only at hp
        refine ⟨(frontier_mem a q).mp hq, ?_⟩
        rw [hp, hval q hq]
      · rintro ⟨hfp, hp⟩
        have hq : cell ∈ (a.constraintsAndFrontier).2 := (frontier_mem a cell).mpr hfp
        refine List.mem_map.mpr ⟨cell, hq, ?_⟩
        rw [Prod.mk.injEq]
        exact ⟨rfl, by rw [hval cell hq, ← hp]⟩

/-- Witness for C4 on the 2x2 single-clue observation: cell (0,1) carries
probability 1/3 = 1/3. -/
theorem C4_estimate_probabilities_witness :
    FrontierPred exProb4 (0, 1) ∧
      (mkRat 1 3 : ℚ) = if totalSpec exProb4 = 0 then 0
        else (mineSpec exProb4 (0, 1) : ℚ) / (totalSpec exProb4 : ℚ) :=
  ((C4_estimate_probabilities exProb4).2 exProbs4 (by decide) (0, 1) (mkRat 1 3)).mp
    (by decide)

/-! Lemmas for assumption_actions. -/

theorem getD_map {α β : Type} (l : List α) (f : α → β) (i : Nat) (d : β) (d0 : α)
    (hi : i < l.length) : (l.map f).getD i d = f (l.getD i d0) := by
  rw [List.getD_eq_getElem?_getD, List.getD_eq_getElem?_getD, List.getElem?_map,
    List.getElem?_eq_getElem hi]
  simp

theorem countP_map_mem (cov : List (Nat × Nat)) (S : Finset (Nat × Nat))
    (hnd : cov.Nodup) (hS : S ⊆ cov.toFinset) :
    ((cov.map fun q => decide (q ∈ S)).countP id) = S.card := by
  rw [List.countP_map]
  have h1 : (cov.filter fun q => decide (q ∈ S)).toFinset = S := by
    ext x
    rw [List.mem_toFinset, List.mem_filter]
    constructor
    · exact fun h => of_decide_eq_true h.2
    · intro hx
      exact ⟨List.mem_toFinset.mp (hS hx), decide_eq_true hx⟩
  calc (cov.countP fun q => id (decide (q ∈ S)))
      = (cov.filter fun q => decide (q ∈ S)).length := by
        rw [← List.countP_eq_length_filter]
        rfl
    _ = (cov.filter fun q => decide (q ∈ S)).toFinset.card :=
        (List.toFinset_card_of_nodup (List.Nodup.filter _ hnd)).symm
    _ = S.card := by rw [h1]

theorem assignVal_cons_ne (x : Nat × Nat) (b : Bool) (cov : List (Nat × Nat))
    (bs : List Bool) (q : Nat × Nat) (hne : q ≠ x) :
    assignVal (x :: cov) (b :: bs) q = assignVal cov bs q := by
  have hbeq : (q == x) = false := by simp [hne]
  simp [assignVal, List.zip, List.lookup, hbeq]

theorem assignVal_index (cov : List (Nat × Nat)) (bs : List Bool) (hnd : cov.Nodup)
    (i : Nat) (hi : i < cov.length) (hlen : bs.length = cov.length) :
    assignVal cov bs (cov.getD i (0, 0)) = bs.getD i false := by
  induction cov generalizing bs i with
  | nil => simp at hi
  | cons x cov2 ih =>
    rw [List.nodup_cons] at hnd
    cases bs with
    | nil => simp at hlen
    | cons b bs2 =>
      have hlen2 : bs2.length = cov2.length := by simpa using hlen
      cases i with
      | zero =>
        simp [assignVal, List.lookup]
      | succ i0 =>
        have hi0 : i0 < cov2.length := by simpa using hi
        rw [List.getD_cons_succ, List.getD_cons_succ]
        have hmem : cov2.getD i0 (0, 0) ∈ cov2 := getD_mem cov2 i0 (0, 0) hi0
        have hne : cov2.getD i0 (0, 0) ≠ x := fun he => hnd.1 (he ▸ hmem)
        rw [assignVal_cons_ne x b cov2 bs2 _ hne, ih bs2 hnd.2 i0 hi0 hlen2]

theorem foldl_min_cand (c0 : Cand) (rest : List Cand) :
    (rest.foldl (fun b x => if x.combos < b.combos then x else b) c0) ∈ (c0 :: rest) ∧
    ∀ x ∈ c0 :: rest,
      (rest.foldl (fun b x => if x.combos < b.combos then x else b) c0).combos ≤ x.combos := by
  induction rest generalizing c0 with
  | nil =>
    refine ⟨List.mem_cons_self _ _, ?_⟩
    intro x hx
    rcases List.mem_cons.mp hx with rfl | h
    · exact le_refl _
    · exact absurd h (List.not_mem_nil _)
  | cons y rest2 ih =>
    rw [List.foldl_cons]
    obtain ⟨hmem, hmin⟩ := ih (if y.combos < c0.combos then y else c0)
    constructor
    · rcases List.mem_cons.mp hmem with he | h
      · rw [he]
        split
        · exact List.mem_cons_of_mem _ (List.mem_cons_self _ _)
        · exact List.mem_cons_self _ _
      · exact List.mem_cons_of_mem _ (List.mem_cons_of_mem _ h)
    · intro x hx
      have hinit := hmin _ (List.mem_cons_self _ _)
      rcases List.mem_cons.mp hx with rfl | hx2
      · refine le_trans hinit ?_
        split
        · omega
        · exact le_refl _
      · rcases List.mem_cons.mp hx2 with rfl | hx3
        · refine le_trans hinit ?_
          split
          · exact le_refl _
          · omega
        · exact hmin x (List.mem_cons_of_mem _ hx3)

theorem foldl_append_flatMap {α β : Type} (g : α → List β)
    (step : List β → α → List β) (hstep : ∀ acc i, step acc i = acc ++ g i)
    (l : List α) : ∀ acc : List β, l.foldl step acc = acc ++ l.flatMap g := by
  induction l with
  | nil => simp
  | cons x xs ih =>
    intro acc
    rw [List.foldl_cons, hstep, ih, List.flatMap_cons, List.append_assoc]

theorem pats_all_iff (cov : List (Nat × Nat)) (hnd : cov.Nodup) (ml : Int)
    (i : Nat) (hi : i < cov.length) (P : Bool → Bool) :
    ((((bitLists cov.length).filter fun bs => decide ((bs.countP id : Int) = ml)).all
        fun bs => P (bs.getD i false)) = true) ↔
      (∀ S ⊆ cov.toFinset, (S.card : Int) = ml →
        P (decide (cov.getD i (0, 0) ∈ S)) = true) := by
  rw [List.all_eq_true]
  constructor
  · intro h S hS hcard
    have hbits : (cov.map fun q => decide (q ∈ S)) ∈
        (bitLists cov.length).filter fun bs => decide ((bs.countP id : Int) = ml) := by
      rw [List.mem_filter]
      refine ⟨(mem_bitLists _ _).mpr (by simp), ?_⟩
      rw [countP_map_mem cov S hnd hS, hcard]
      simp
    have := h _ hbits
    rwa [getD_map cov _ i false (0, 0) hi] at this
  · intro h bs hbs
    obtain ⟨hmem, hcount⟩ := List.mem_filter.mp hbs
    have hlen : bs.length = cov.length := (mem_bitLists _ _).mp hmem
    have hcard : ((selOf cov bs).card : Int) = ml := by
      rw [selOf_card cov bs hnd hlen]
      exact of_decide_eq_true hcount
    have hres := h (selOf cov bs) (selOf_subset cov bs) hcard
    have hv : decide (cov.getD i (0, 0) ∈ selOf cov bs) = bs.getD i false := by
      have h1 := assignVal_index cov bs hnd i hi hlen
      have h2 := assignVal_mem_selOf cov bs hnd (cov.getD i (0, 0)) (getD_mem cov i (0, 0) hi)
      cases hb : bs.getD i false
      · refine decide_eq_false ?_
        intro hin
        have := h2.mpr hin
        rw [h1, hb] at this
        exact absurd this (by simp)
      · refine decide_eq_true ?_
        refine h2.mp ?_
        rw [h1, hb]
    rwa [hv] at hres

theorem mem_assumptionCands (a : Agent) (c : Cand) :
    c ∈ a.assumptionCands ↔ ∃ q ∈ a.positions, candAt a q = some c := by
  rw [Agent.assumptionCands, List.mem_filterMap]

theorem candAt_some_iff (a : Agent) (q : Nat × Nat) (c : Cand) :
    candAt a q = some c ↔ CandPred a q ∧
      c = ⟨q, candCombos a q, a.coveredNbrs q.1 q.2, a.remAt q.1 q.2⟩ := by
  rw [candAt, CandPred]
  by_cases h1 : isClue (a.get q.1 q.2) = true
  · rw [if_pos h1]
    by_cases h2 : 0 < a.remAt q.1 q.2 ∧
        a.remAt q.1 q.2 ≤ ((a.coveredNbrs q.1 q.2).length : Int)
    · rw [if_pos h2]
      by_cases h3 : candCombos a q ≤ 10
      · rw [if_pos h3]
        constructor
        · intro h
          exact ⟨⟨h1, h2.1, h2.2, h3⟩, (Option.some.inj h).symm⟩
        · rintro ⟨_, rfl⟩
          rfl
      · rw [if_neg h3]
        constructor
        · intro h
          exact absurd h (by simp)
        · rintro ⟨⟨_, _, _, hc⟩, _⟩
          exact absurd hc h3
    · rw [if_neg h2]
      constructor
      · intro h
        exact absurd h (by simp)
      · rintro ⟨⟨_, ha, hb, _⟩, _⟩
        exact absurd ⟨ha, hb⟩ h2
  · rw [if_neg h1]
    constructor
    · intro h
      exact absurd h (by simp)
    · rintro ⟨⟨hc, _⟩, _⟩
      exact absurd hc h1

/-- C5 counterexample: on a 1x2 observation whose only clue cell has
remaining count zero, the claim's skip condition (only negative or exceeding
counts are skipped) admits the cell as the unique candidate, with local
combination count 1, and every assignment of exactly zero mines leaves the
covered neighbor (0,1) safe, so the claim mandates a forced reveal of (0,1);
the code, which also skips remaining count zero, returns no action. -/
theorem C5_cex_zero_remaining :
    exZero.assumption_actions = [] ∧
    CandPredClaim exZero (0, 0) ∧
    ¬ CandPred exZero (0, 0) ∧
    exZero.remAt 0 0 = 0 ∧
    exZero.coveredNbrs 0 0 = [(0, 1)] ∧
    candCombos exZero (0, 0) = 1 ∧
    (∀ S ∈ ((exZero.coveredNbrs 0 0).toFinset).powerset,
      (S.card : Int) = exZero.remAt 0 0 → (0, 1) ∉ S) ∧
    (∀ q ∈ exZero.positions, CandPredClaim exZero q → q = (0, 0)) := by
  decide

/-- C5 (amended): assumption_actions considers exactly the clue cells whose
positive remaining count is at most their covered-neighbor count and whose
combination count C(unopened, minesLeft) is at most 10 (the amendment: a zero
remaining count is also skipped); with no candidate it returns nothing, and
otherwise there is a selected candidate of minimal combination count such
that the output consists exactly of a flag for each of its covered neighbors
that is a mine in every assignment of exactly minesLeft mines among those
neighbors, and a reveal for each neighbor safe in every such assignment. -/
theorem C5_assumption_actions (a : Agent) :
    ((∀ q ∈ a.positions, ¬ CandPred a q) → a.assumption_actions = []) ∧
    ((∃ q ∈ a.positions, CandPred a q) →
      ∃ best ∈ a.positions, CandPred a best ∧
        (∀ q ∈ a.positions, CandPred a q → candCombos a best ≤ candCombos a q) ∧
        (∀ act, act ∈ a.assumption_actions ↔
          ∃ i < (a.coveredNbrs best.1 best.2).length,
            (act = ⟨"F", ((a.coveredNbrs best.1 best.2).getD i (0, 0)).1,
                ((a.coveredNbrs best.1 best.2).getD i (0, 0)).2, .assume⟩ ∧
              ∀ S ⊆ (a.coveredNbrs best.1 best.2).toFinset,
                (S.card : Int) = a.remAt best.1 best.2 →
                  (a.coveredNbrs best.1 best.2).getD i (0, 0) ∈ S) ∨
            (act = ⟨"R", ((a.coveredNbrs best.1 best.2).getD i (0, 0)).1,
                ((a.coveredNbrs best.1 best.2).getD i (0, 0)).2, .assume⟩ ∧
              ∀ S ⊆ (a.coveredNbrs best.1 best.2).toFinset,
                (S.card : Int) = a.remAt best.1 best.2 →
                  (a.coveredNbrs best.1 best.2).getD i (0, 0) ∉ S))) := by
  constructor
  · intro hnone
    have hc : a.assumptionCands = [] := by
      rw [Agent.assumptionCands]
      rw [List.filterMap_eq_nil_iff]
      intro q hq
      by_cases h : candAt a q = none
      · exact h
      · obtain ⟨c, hc⟩ := Option.ne_none_iff_exists'.mp h
        exact absurd ((candAt_some_iff a q c).mp hc).1 (hnone q hq)
    rw [Agent.assumption_actions, hc]
  · rintro ⟨q0, hq0, hcand0⟩
    have hmem0 : (⟨q0, candCombos a q0, a.coveredNbrs q0.1 q0.2, a.remAt q0.1 q0.2⟩ : Cand) ∈
        a.assumptionCands :=
      (mem_assumptionCands a _).mpr ⟨q0, hq0, (candAt_some_iff a q0 _).mpr ⟨hcand0, rfl⟩⟩
    cases hc : a.assumptionCands with
    | nil => rw [hc] at hmem0; exact absurd hmem0 (List.not_mem_nil _)
    | cons c0 rest =>
      obtain ⟨hbmem, hbmin⟩ := foldl_min_cand c0 rest
      rw [← hc] at hbmem
      obtain ⟨qb, hqb, hqbsome⟩ := (mem_assumptionCands a _).mp hbmem
      obtain ⟨hqbcand, hqbeq⟩ := (candAt_some_iff a qb _).mp hqbsome
      refine ⟨qb, hqb, hqbcand, ?_, ?_⟩
      · intro q hq hcq
        have hqin : (⟨q, candCombos a q, a.coveredNbrs q.1 q.2, a.remAt q.1 q.2⟩ : Cand) ∈
            a.assumptionCands :=
          (mem_assumptionCands a _).mpr ⟨q, hq, (candAt_some_iff a q _).mpr ⟨hcq, rfl⟩⟩
        rw [hc] at hqin
        have := hbmin _ hqin
        rw [hqbeq] at this
        exact this
      · intro act
        rw [Agent.assumption_actions, hc]
        simp only []
        rw [hqbeq]
        simp only []
        have hcovall : ∀ act2 ∈ (List.range (a.coveredNbrs qb.1 qb.2).length).flatMap
              (fun i =>
                (if ((bitLists (a.coveredNbrs qb.1 qb.2).length).filter fun bs =>
                    decide ((bs.countP id : Int) = a.remAt qb.1 qb.2)).all
                    (fun bs => bs.getD i false) then
                  [(⟨"F", ((a.coveredNbrs qb.1 qb.2).getD i (0, 0)).1,
                    ((a.coveredNbrs qb.1 qb.2).getD i (0, 0)).2, .assume⟩ : Action)] else []) ++
                (if ((bitLists (a.coveredNbrs qb.1 qb.2).length).filter fun bs =>
                    decide ((bs.countP id : Int) = a.remAt qb.1 qb.2)).all
                    (fun bs => !(bs.getD i false)) then
                  [(⟨"R", ((a.coveredNbrs qb.1 qb.2).getD i (0, 0)).1,
                    ((a.coveredNbrs qb.1 qb.2).getD i (0, 0)).2, .assume⟩ : Action)] else [])),
              decide (a.get act2.r act2.c = COVERED) = true := by
            intro act2 hact2
            obtain ⟨i, hi, hacti⟩ := List.mem_flatMap.mp hact2
            have hicov : (a.coveredNbrs qb.1 qb.2).getD i (0, 0) ∈ a.coveredNbrs qb.1 qb.2 :=
              getD_mem _ i (0, 0) (List.mem_range.mp hi)
            have hcov := (mem_coveredNbrs.mp hicov).2
            rcases List.mem_append.mp hacti with hF | hR
            · split at hF
              · rcases List.mem_singleton.mp hF with rfl
                exact decide_eq_true hcov
              · exact absurd hF (List.not_mem_nil _)
            · split at hR
              · rcases List.mem_singleton.mp hR with rfl
                exact decide_eq_true hcov
              · exact absurd hR (List.not_mem_nil _)
        rw [List.filter_eq_self.mpr hcovall]
        rw [List.mem_flatMap]
        constructor
        · rintro ⟨i, hi, hacti⟩
          have hilt := List.mem_range.mp hi
          refine ⟨i, hilt, ?_⟩
          rcases List.mem_append.mp hacti with hF | hR
          · split at hF
            · rename_i hall
              rcases List.mem_singleton.mp hF with rfl
              left
              refine ⟨rfl, ?_⟩
              intro S hS hcard
              have := (pats_all_iff (a.coveredNbrs qb.1 qb.2)
                (nodup_coveredNbrs a qb.1 qb.2) (a.remAt qb.1 qb.2) i hilt
                (fun b => b)).mp hall S hS hcard
              exact of_decide_eq_true this
            · exact absurd hF (List.not_mem_nil _)
          · split at hR
            · rename_i hall
              rcases List.mem_singleton.mp hR with rfl
              right
              refine ⟨rfl, ?_⟩
              intro S hS hcard
              have := (pats_all_iff (a.coveredNbrs qb.1 qb.2)
                (nodup_coveredNbrs a qb.1 qb.2) (a.remAt qb.1 qb.2) i hilt
                (fun b => !b)).mp hall S hS hcard
              simpa using this
            · exact absurd hR (List.not_mem_nil _)
        · rintro ⟨i, hilt, hcase⟩
          refine ⟨i, List.mem_range.mpr hilt, ?_⟩
          rcases hcase with ⟨rfl, hallS⟩ | ⟨rfl, hallS⟩
          · refine List.mem_append.mpr (Or.inl ?_)
            have hall := (pats_all_iff (a.coveredNbrs qb.1 qb.2)
              (nodup_coveredNbrs a qb.1 qb.2) (a.remAt qb.1 qb.2) i hilt
              (fun b => b)).mpr ?_
            · rw [if_pos hall]
              exact List.mem_singleton.mpr rfl
            · intro S hS hcard
              exact decide_eq_true (hallS S hS hcard)
          · refine List.mem_append.mpr (Or.inr ?_)
            have hall := (pats_all_iff (a.coveredNbrs qb.1 qb.2)
              (nodup_coveredNbrs a qb.1 qb.2) (a.remAt qb.1 qb.2) i hilt
              (fun b => !b)).mpr ?_
            · rw [if_pos hall]
              exact List.mem_singleton.mpr rfl
            · intro S hS hcard
              simpa using hallS S hS hcard

/-- Witness for C5 on the 1x2 clue-1 observation, where (0,0) is a candidate. -/
theorem C5_assumption_actions_witness :
    ∃ best ∈ exProp.positions, CandPred exProp best ∧
      (∀ q ∈ exProp.positions, CandPred exProp q →
        candCombos exProp best ≤ candCombos exProp q) ∧
      (∀ act, act ∈ exProp.assumption_actions ↔
        ∃ i < (exProp.coveredNbrs best.1 best.2).length,
          (act = ⟨"F", ((exProp.coveredNbrs best.1 best.2).getD i (0, 0)).1,
              ((exProp.coveredNbrs best.1 best.2).getD i (0, 0)).2, .assume⟩ ∧
            ∀ S ⊆ (exProp.coveredNbrs best.1 best.2).toFinset,
              (S.card : Int) = exProp.remAt best.1 best.2 →
                (exProp.coveredNbrs best.1 best.2).getD i (0, 0) ∈ S) ∨
          (act = ⟨"R", ((exProp.coveredNbrs best.1 best.2).getD i (0, 0)).1,
              ((exProp.coveredNbrs best.1 best.2).getD i (0, 0)).2, .assume⟩ ∧
            ∀ S ⊆ (exProp.coveredNbrs best.1 best.2).toFinset,
              (S.card : Int) = exProp.remAt best.1 best.2 →
                (exProp.coveredNbrs best.1 best.2).getD i (0, 0) ∉ S)) :=
  (C5_assumption_actions exProp).2 ⟨(0, 0), by decide, by decide⟩

/-! Lemmas for the Monte Carlo fallback. -/

theorem mcScores_length (orig : Board) (trials : Nat) (rng : Nat → Nat) :
    ∀ (l : List (Int × Int)) (i : Nat),
      (mcScores orig trials rng l i).1.length = l.length := by
  intro l
  induction l with
  | nil => intro i; rfl
  | cons cell rest ih =>
    intro i
    rw [mcScores]
    dsimp only
    rw [List.length_cons, List.length_cons, ih]

theorem mcScores_map_fst (orig : Board) (trials : Nat) (rng : Nat → Nat) :
    ∀ (l : List (Int × Int)) (i : Nat),
      (mcScores orig trials rng l i).1.map Prod.fst = l := by
  intro l
  induction l with
  | nil => intro i; rfl
  | cons cell rest ih =>
    intro i
    rw [mcScores]
    dsimp only
    rw [List.map_cons, ih]

theorem mc_fold_scores (orig : Board) (trials : Nat) (rng : Nat → Nat) :
    ∀ (l : List (Int × Int)) (i : Nat) (b0 : Option (Int × Int)) (s0 : Int),
      l.foldl
          (fun acc cell =>
            let wr := trialsRun orig cell rng trials acc.2.2
            if acc.2.1 < (wr.1 : Int) then (some cell, (wr.1 : Int), wr.2)
            else (acc.1, acc.2.1, wr.2))
          (b0, s0, i) =
        (((mcScores orig trials rng l i).1.foldl
              (fun bs cw => if bs.2 < (cw.2 : Int) then (some cw.1, (cw.2 : Int)) else bs)
              (b0, s0)).1,
          ((mcScores orig trials rng l i).1.foldl
              (fun bs cw => if bs.2 < (cw.2 : Int) then (some cw.1, (cw.2 : Int)) else bs)
              (b0, s0)).2,
          (mcScores orig trials rng l i).2) := by
  intro l
  induction l with
  | nil => intro i b0 s0; rfl
  | cons cell rest ih =>
    intro i b0 s0
    rw [mcScores]
    simp only [List.foldl_cons]
    by_cases h : s0 < ((trialsRun orig cell rng trials i).1 : Int)
    · rw [if_pos h, if_pos h, ih]
    · rw [if_neg h, if_neg h, ih]

theorem foldl_best_char :
    ∀ (scores : List ((Int × Int) × Nat)) (b0 : Option (Int × Int)) (s0 : Int),
      (scores.foldl
            (fun bs cw => if bs.2 < (cw.2 : Int) then (some cw.1, (cw.2 : Int)) else bs)
            (b0, s0) = (b0, s0) ∧
          ∀ cw ∈ scores, (cw.2 : Int) ≤ s0) ∨
      (∃ j, j < scores.length ∧
        scores.foldl
            (fun bs cw => if bs.2 < (cw.2 : Int) then (some cw.1, (cw.2 : Int)) else bs)
            (b0, s0) =
          (some (scores.getD j ((0, 0), 0)).1, ((scores.getD j ((0, 0), 0)).2 : Int)) ∧
        s0 < ((scores.getD j ((0, 0), 0)).2 : Int) ∧
        (∀ k, k < scores.length →
          (scores.getD k ((0, 0), 0)).2 ≤ (scores.getD j ((0, 0), 0)).2) ∧
        ∀ k, k < j → (scores.getD k ((0, 0), 0)).2 < (scores.getD j ((0, 0), 0)).2) := by
  intro scores
  induction scores with
  | nil =>
    intro b0 s0
    left
    exact ⟨rfl, by simp⟩
  | cons cw rest ih =>
    intro b0 s0
    rw [List.foldl_cons]
    dsimp only
    by_cases h : s0 < (cw.2 : Int)
    · rw [if_pos h]
      rcases ih (some cw.1) ((cw.2 : Int)) with ⟨heq, hall⟩ | ⟨j, hj, heq, hgt, hmax, hpre⟩
      · right
        refine ⟨0, by rw [List.length_cons]; omega, ?_, ?_, ?_, ?_⟩
        · rw [heq, List.getD_cons_zero]
        · rw [List.getD_cons_zero]
          exact h
        · intro k hk
          rw [List.getD_cons_zero]
          cases k with
          | zero =>
            rw [List.getD_cons_zero]
          | succ q =>
            rw [List.getD_cons_succ]
            rw [List.length_cons] at hk
            have hm := hall (rest.getD q ((0, 0), 0)) (getD_mem _ _ _ (by omega))
            exact_mod_cast hm
        · intro k hk
          exact absurd hk (Nat.not_lt_zero _)
      · right
        refine ⟨j + 1, by rw [List.length_cons]; omega, ?_, ?_, ?_, ?_⟩
        · rw [List.getD_cons_succ]
          exact heq
        · rw [List.getD_cons_succ]
          exact lt_trans h hgt
        · intro k hk
          rw [List.getD_cons_succ]
          cases k with
          | zero =>
            rw [List.getD_cons_zero]
            exact_mod_cast le_of_lt hgt
          | succ q =>
            rw [List.getD_cons_succ]
            rw [List.length_cons] at hk
            exact hmax q (by omega)
        · intro k hk
          rw [List.getD_cons_succ]
          cases k with
          | zero =>
            rw [List.getD_cons_zero]
            exact_mod_cast hgt
          | succ q =>
            rw [List.getD_cons_succ]
            exact hpre q (by omega)
    · rw [if_neg h]
      rcases ih b0 s0 with ⟨heq, hall⟩ | ⟨j, hj, heq, hgt, hmax, hpre⟩
      · left
        refine ⟨heq, ?_⟩
        intro x hx
        rcases List.mem_cons.mp hx with rfl | hx'
        · exact le_of_not_lt h
        · exact hall x hx'
      · right
        refine ⟨j + 1, by rw [List.length_cons]; omega, ?_, ?_, ?_, ?_⟩
        · rw [List.getD_cons_succ]
          exact heq
        · rw [List.getD_cons_succ]
          exact hgt
        · intro k hk
          rw [List.getD_cons_succ]
          cases k with
          | zero =>
            rw [List.getD_cons_zero]
            have hcw : (cw.2 : Int) ≤ s0 := le_of_not_lt h
            exact_mod_cast le_of_lt (lt_of_le_of_lt hcw hgt)
          | succ q =>
            rw [List.getD_cons_succ]
            rw [List.length_cons] at hk
            exact hmax q (by omega)
        · intro k hk
          rw [List.getD_cons_succ]
          cases k with
          | zero =>
            rw [List.getD_cons_zero]
            have hcw : (cw.2 : Int) ≤ s0 := le_of_not_lt h
            exact_mod_cast lt_of_le_of_lt hcw hgt
          | succ q =>
            rw [List.getD_cons_succ]
            exact hpre q (by omega)

theorem reveal_fst_fresh (b : Board) (r c : Int)
    (hno : ¬((r, c) ∈ b.revealed ∨ (r, c) ∈ b.flagged)) :
    (b.reveal r c).1 = { b with revealed := b.revealed ++ [(r, c)] } := by
  rw [Board.reveal, if_neg hno]
  dsimp only
  rcases hg : pyIdx? b.grid r with _ | row
  · rfl
  · dsimp only
    rcases hg2 : pyIdx? row c with _ | v
    · rfl
    · rfl

theorem apply_move_R_fresh (b : Board) (r c : Int)
    (hr : (r, c) ∉ b.revealed) (hf : (r, c) ∉ b.flagged) :
    (b.apply_move "R" r c).1 = { b with revealed := b.revealed ++ [(r, c)] } := by
  have hno : ¬((r, c) ∈ b.revealed ∨ (r, c) ∈ b.flagged) := by
    rintro (h | h)
    · exact hr h
    · exact hf h
  have hfst := reveal_fst_fresh b r c hno
  rw [Board.apply_move, if_pos rfl, if_neg hf]
  rcases hrev : b.reveal r c with ⟨b2, res⟩
  have hb2 : b2 = { b with revealed := b.revealed ++ [(r, c)] } := by
    rw [← hfst, hrev]
  cases res with
  | noop => exact hb2
  | err => exact hb2
  | val v => cases v <;> exact hb2

theorem uncovered_reveal_lt (b : Board) (x : Int × Int) (hx : x ∈ uncoveredCells b) :
    (uncoveredCells (b.apply_move "R" x.1 x.2).1).length < (uncoveredCells b).length := by
  have hmem := hx
  rw [uncoveredCells, List.mem_filter] at hmem
  obtain ⟨hbase, hored⟩ := hmem
  have hcond := of_decide_eq_true hored
  have happ : (b.apply_move "R" x.1 x.2).1 =
      { b with revealed := b.revealed ++ [(x.1, x.2)] } :=
    apply_move_R_fresh b x.1 x.2 (by simpa using hcond.1) (by simpa using hcond.2)
  rw [happ, uncoveredCells, uncoveredCells]
  rw [← List.countP_eq_length_filter, ← List.countP_eq_length_filter]
  refine countP_lt_of _ _ _ ?_ x hbase hored ?_
  · intro y hy hqy
    rw [decide_eq_true_eq] at hqy ⊢
    exact ⟨fun hmem2 => hqy.1 (List.mem_append_left _ hmem2), hqy.2⟩
  · rw [decide_eq_false_iff_not]
    intro hcon
    exact hcon.1 (List.mem_append_right _ (by simp))

theorem playMove_uncovered_lt (b : Board) (k : Nat) (hc : uncoveredCells b ≠ []) :
    (uncoveredCells (playMove b k).1).length < (uncoveredCells b).length := by
  have hlen : 0 < (uncoveredCells b).length := List.length_pos.mpr hc
  have hmem : playPick b k ∈ uncoveredCells b :=
    getD_mem _ _ _ (Nat.mod_lt _ hlen)
  exact uncovered_reveal_lt b (playPick b k) hmem

theorem playout_win_iff (rng : Nat → Nat) :
    ∀ (fuel : Nat) (b : Board) (i : Nat), (uncoveredCells b).length < fuel →
      ((playoutAux rng fuel i b).1 = .win ↔
        ∃ s : Board × Nat, Relation.ReflTransGen (PlayStepR rng) (b, i) s ∧
          s.1.is_solved = true) := by
  intro fuel
  induction fuel with
  | zero =>
    intro b i h
    exact absurd h (Nat.not_lt_zero _)
  | succ n ih =>
    intro b i hlen
    by_cases hs : b.is_solved = true
    · rw [playoutAux, if_pos hs]
      constructor
      · intro _
        exact ⟨(b, i), Relation.ReflTransGen.refl, hs⟩
      · intro _
        rfl
    · by_cases hc : uncoveredCells b = []
      · rw [playoutAux, if_neg hs, if_pos hc]
        constructor
        · intro h
          exact absurd h (by simp)
        · rintro ⟨s, hst, hsolved⟩
          rcases Relation.ReflTransGen.cases_head hst with heq | ⟨mid, hstep, _⟩
          · rw [← heq] at hsolved
            exact (hs hsolved).elim
          · exact (hstep.2.1 hc).elim
      · by_cases hm : (playMove b (rng i)).2 = PyRes.s "hit_mine"
        · rw [playoutAux, if_neg hs, if_neg hc, if_pos hm]
          constructor
          · intro h
            exact absurd h (by simp)
          · rintro ⟨s, hst, hsolved⟩
            rcases Relation.ReflTransGen.cases_head hst with heq | ⟨mid, hstep, _⟩
            · rw [← heq] at hsolved
              exact (hs hsolved).elim
            · exact (hstep.2.2.2.2.1 hm).elim
        · by_cases he : (playMove b (rng i)).2 = PyRes.err
          · rw [playoutAux, if_neg hs, if_neg hc, if_neg hm, if_pos he]
            constructor
            · intro h
              exact absurd h (by simp)
            · rintro ⟨s, hst, hsolved⟩
              rcases Relation.ReflTransGen.cases_head hst with heq | ⟨mid, hstep, _⟩
              · rw [← heq] at hsolved
                exact (hs hsolved).elim
              · exact (hstep.2.2.2.2.2 he).elim
          · rw [playoutAux, if_neg hs, if_neg hc, if_neg hm, if_neg he]
            have hlt := playMove_uncovered_lt b (rng i) hc
            rw [ih (playMove b (rng i)).1 (i + 1) (by omega)]
            have hs' : b.is_solved = false := by
              cases hv : b.is_solved
              · rfl
              · exact absurd hv hs
            constructor
            · rintro ⟨s, hst, hsolved⟩
              exact ⟨s, Relation.ReflTransGen.head ⟨hs', hc, rfl, rfl, hm, he⟩ hst, hsolved⟩
            · rintro ⟨s, hst, hsolved⟩
              rcases Relation.ReflTransGen.cases_head hst with heq | ⟨mid, hstep, hrest⟩
              · rw [← heq] at hsolved
                exact absurd hsolved hs
              · obtain ⟨h1, h2, h3, h4, h5, h6⟩ := hstep
                have hmid : mid = ((playMove b (rng i)).1, i + 1) := Prod.ext h4 h3
                rw [hmid] at hrest
                exact ⟨s, hrest, hsolved⟩

theorem runTrial_win_iff (orig : Board) (cell : Int × Int) (rng : Nat → Nat) (i : Nat) :
    (runTrial orig cell rng i).1 = .win ↔ TrialWin orig cell rng i := by
  rw [runTrial, TrialWin]
  by_cases hm : (orig.apply_move "R" cell.1 cell.2).2 = PyRes.s "hit_mine"
  · rw [if_pos hm]
    constructor
    · intro h
      exact absurd h (by simp)
    · rintro ⟨h1, _, _⟩
      exact absurd hm h1
  · rw [if_neg hm]
    by_cases he : (orig.apply_move "R" cell.1 cell.2).2 = PyRes.err
    · rw [if_pos he]
      constructor
      · intro h
        exact absurd h (by simp)
      · rintro ⟨_, h2, _⟩
        exact absurd he h2
    · rw [if_neg he]
      rw [playout_win_iff rng _ _ _ (Nat.lt_succ_self _)]
      constructor
      · rintro ⟨s, hst, hsol⟩
        exact ⟨hm, he, s, hst, hsol⟩
      · rintro ⟨_, _, s, hst, hsol⟩
        exact ⟨s, hst, hsol⟩

/-- C6: on the pure-guess fallback, monte_carlo_select scores every candidate
covered cell by its win count over 5 sequential random trials (the score list
pairs the candidates in their given row-major order with these counts), a
trial counts as a win exactly when revealing the candidate on the cloned
progress neither hits a mine nor raises and the subsequent uniformly-random
reveal playout reaches a solved board, and the selected candidate is one
attaining the maximal win count whose score strictly exceeds every
earlier-encountered candidate's score (first-encountered tie-breaking). -/
theorem C6_monte_carlo (orig : Board) (covered : List (Int × Int)) (rng : Nat → Nat)
    (i : Nat) (hne : covered ≠ []) :
    (∃ c : Int × Int, (monte_carlo_select orig covered 5 rng i).1 = some c ∧
        IsFirstArgmax (mcScores orig 5 rng covered i).1 c) ∧
    (mcScores orig 5 rng covered i).1.map Prod.fst = covered ∧
    ∀ (cell : Int × Int) (j : Nat),
      ((runTrial orig cell rng j).1 = .win ↔ TrialWin orig cell rng j) := by
  refine ⟨?_, mcScores_map_fst orig 5 rng covered i,
    fun cell j => runTrial_win_iff orig cell rng j⟩
  have hfold := mc_fold_scores orig 5 rng covered i none (-1)
  rcases foldl_best_char (mcScores orig 5 rng covered i).1 none (-1) with
    ⟨heq, hall⟩ | ⟨j, hj, heq, hgt, hmax, hpre⟩
  · exfalso
    have hlen := mcScores_length orig 5 rng covered i
    have hpos : 0 < covered.length := List.length_pos.mpr hne
    have hmem : (mcScores orig 5 rng covered i).1.getD 0 ((0, 0), 0) ∈
        (mcScores orig 5 rng covered i).1 := getD_mem _ _ _ (by omega)
    have hle := hall _ hmem
    omega
  · refine ⟨((mcScores orig 5 rng covered i).1.getD j ((0, 0), 0)).1, ?_, ?_⟩
    · rw [monte_carlo_select, hfold]
      dsimp only
      rw [heq]
    · exact ⟨j, hj, rfl, hmax, hpre⟩

/-- Witness for C6 on the fully covered 2x2 mine-free board with the single
candidate (0,0) and the constant-zero draw stream. -/
theorem C6_monte_carlo_witness :
    ([(0, 0)] : List (Int × Int)) ≠ [] ∧
    ((∃ c : Int × Int, (monte_carlo_select bQuad [(0, 0)] 5 (fun _ => 0) 0).1 = some c ∧
        IsFirstArgmax (mcScores bQuad 5 (fun _ => 0) [(0, 0)] 0).1 c) ∧
      (mcScores bQuad 5 (fun _ => 0) [(0, 0)] 0).1.map Prod.fst = [(0, 0)] ∧
      ∀ (cell : Int × Int) (j : Nat),
        ((runTrial bQuad cell (fun _ => 0) j).1 = .win ↔
          TrialWin bQuad cell (fun _ => 0) j)) :=
  ⟨by decide, C6_monte_carlo bQuad [(0, 0)] (fun _ => 0) 0 (by decide)⟩

/-! Lemmas for the solver loop (C8): board-level basics. -/

theorem mem_uncoveredCells (b : Board) (p : Int × Int) :
    p ∈ uncoveredCells b ↔
      (∃ r : Nat, r < b.rows ∧ ∃ c : Nat, c < b.cols ∧ p = ((r : Int), (c : Int))) ∧
      p ∉ b.revealed ∧ p ∉ b.flagged := by
  rw [uncoveredCells, List.mem_filter, decide_eq_true_eq]
  constructor
  · rintro ⟨hbase, h1, h2⟩
    obtain ⟨q, hq, heq⟩ := List.mem_map.mp hbase
    obtain ⟨hrb, hcb⟩ := (mem_gridPositions b.rows b.cols q).mp hq
    exact ⟨⟨q.1, hrb, q.2, hcb, heq.symm⟩, h1, h2⟩
  · rintro ⟨⟨r, hr, c, hc, rfl⟩, h1, h2⟩
    exact ⟨List.mem_map.mpr ⟨(r, c),
      (mem_gridPositions b.rows b.cols (r, c)).mpr ⟨hr, hc⟩, rfl⟩, h1, h2⟩

theorem coveredCountB_le (b : Board) : coveredCountB b ≤ b.rows * b.cols := by
  rw [coveredCountB, uncoveredCells]
  refine le_trans (List.length_filter_le _ _) ?_
  rw [List.length_map, length_gridPositions]

theorem apply_move_F_fresh (b : Board) (r c : Int) (hrev : (r, c) ∉ b.revealed)
    (hfl : (r, c) ∉ b.flagged) :
    b.apply_move "F" r c = ({ b with flagged := b.flagged ++ [(r, c)] }, .s "flagged") := by
  rw [Board.apply_move, if_neg (by decide), if_pos rfl, Board.flag, if_neg hrev, if_neg hfl]

theorem uncovered_flag_lt (b : Board) (x : Int × Int) (hx : x ∈ uncoveredCells b) :
    (uncoveredCells (b.apply_move "F" x.1 x.2).1).length < (uncoveredCells b).length := by
  have hmem := hx
  rw [uncoveredCells, List.mem_filter] at hmem
  obtain ⟨hbase, hored⟩ := hmem
  have hcond := of_decide_eq_true hored
  have happ : (b.apply_move "F" x.1 x.2).1 =
      { b with flagged := b.flagged ++ [(x.1, x.2)] } := by
    rw [apply_move_F_fresh b x.1 x.2 (by simpa using hcond.1) (by simpa using hcond.2)]
  rw [happ, uncoveredCells, uncoveredCells]
  rw [← List.countP_eq_length_filter, ← List.countP_eq_length_filter]
  refine countP_lt_of _ _ _ ?_ x hbase hored ?_
  · intro y hy hqy
    rw [decide_eq_true_eq] at hqy ⊢
    exact ⟨hqy.1, fun hmem2 => hqy.2 (List.mem_append_left _ hmem2)⟩
  · rw [decide_eq_false_iff_not]
    intro hcon
    exact hcon.2 (List.mem_append_right _ (by simp))

theorem apply_move_fst_cases (b : Board) (s : String) (r c : Int) :
    (b.apply_move s r c).1 = b ∨
    (b.apply_move s r c).1 = { b with revealed := b.revealed ++ [(r, c)] } ∨
    (b.apply_move s r c).1 = { b with flagged := b.flagged ++ [(r, c)] } := by
  by_cases hR : s = "R"
  · subst hR
    rw [Board.apply_move, if_pos rfl]
    by_cases hf : (r, c) ∈ b.flagged
    · rw [if_pos hf]
      exact Or.inl rfl
    · rw [if_neg hf]
      by_cases hmem : (r, c) ∈ b.revealed ∨ (r, c) ∈ b.flagged
      · have hnoop : b.reveal r c = (b, .noop) := by
          rw [Board.reveal, if_pos hmem]
        rw [hnoop]
        exact Or.inl rfl
      · have hfst := reveal_fst_fresh b r c hmem
        rcases hrev : b.reveal r c with ⟨b2, res⟩
        have hb2 : b2 = { b with revealed := b.revealed ++ [(r, c)] } := by
          rw [← hfst, hrev]
        cases res with
        | noop => exact Or.inr (Or.inl hb2)
        | err => exact Or.inr (Or.inl hb2)
        | val v =>
          cases v with
          | mine => exact Or.inr (Or.inl hb2)
          | num n => exact Or.inr (Or.inl hb2)
  · rw [Board.apply_move, if_neg hR]
    by_cases hF : s = "F"
    · rw [if_pos hF, Board.flag]
      by_cases h1 : (r, c) ∈ b.revealed
      · rw [if_pos h1]
        exact Or.inl rfl
      · rw [if_neg h1]
        by_cases h2 : (r, c) ∈ b.flagged
        · rw [if_pos h2]
          exact Or.inl rfl
        · rw [if_neg h2]
          exact Or.inr (Or.inr rfl)
    · rw [if_neg hF]
      exact Or.inl rfl

theorem apply_move_fields (b : Board) (s : String) (r c : Int) :
    (b.apply_move s r c).1.rows = b.rows ∧ (b.apply_move s r c).1.cols = b.cols ∧
    (b.apply_move s r c).1.grid = b.grid ∧
    (b.apply_move s r c).1.numMines = b.numMines := by
  rcases apply_move_fst_cases b s r c with h | h | h <;> rw [h] <;> exact ⟨rfl, rfl, rfl, rfl⟩

theorem apply_move_covered_le (b : Board) (s : String) (r c : Int) :
    (uncoveredCells (b.apply_move s r c).1).length ≤ (uncoveredCells b).length := by
  rcases apply_move_fst_cases b s r c with h | h | h
  · rw [h]
  · rw [h, uncoveredCells, uncoveredCells]
    rw [← List.countP_eq_length_filter, ← List.countP_eq_length_filter]
    refine countP_mono_of _ _ _ ?_
    intro y hy hqy
    rw [decide_eq_true_eq] at hqy ⊢
    exact ⟨fun hmem2 => hqy.1 (List.mem_append_left _ hmem2), hqy.2⟩
  · rw [h, uncoveredCells, uncoveredCells]
    rw [← List.countP_eq_length_filter, ← List.countP_eq_length_filter]
    refine countP_mono_of _ _ _ ?_
    intro y hy hqy
    rw [decide_eq_true_eq] at hqy ⊢
    exact ⟨hqy.1, fun hmem2 => hqy.2 (List.mem_append_left _ hmem2)⟩

theorem reveal_inrange (b : Board) (hsh : b.shaped) (r c : Nat) (hr : r < b.rows)
    (hc : c < b.cols)
    (hno : ¬(((r : Int), (c : Int)) ∈ b.revealed ∨ ((r : Int), (c : Int)) ∈ b.flagged)) :
    b.reveal (r : Int) (c : Int) =
      ({ b with revealed := b.revealed ++ [((r : Int), (c : Int))] },
        .val (b.cellAt r c)) := by
  rw [Board.reveal, if_neg hno]
  have hlt1 : r < b.grid.length := by
    rw [hsh.1]
    exact hr
  rw [pyIdx?_getD b.grid r [] hlt1]
  dsimp only
  have hmem2 : b.grid.getD r [] ∈ b.grid := getD_mem _ _ _ hlt1
  have hlt2 : c < (b.grid.getD r []).length := by
    rw [hsh.2 _ hmem2]
    exact hc
  rw [pyIdx?_getD (b.grid.getD r []) c (.num 0) hlt2]
  rfl

theorem apply_move_R_inrange (b : Board) (hsh : b.shaped) (r c : Nat) (hr : r < b.rows)
    (hc : c < b.cols) (hrev : ((r : Int), (c : Int)) ∉ b.revealed)
    (hfl : ((r : Int), (c : Int)) ∉ b.flagged) :
    b.apply_move "R" (r : Int) (c : Int) =
      ({ b with revealed := b.revealed ++ [((r : Int), (c : Int))] },
        match b.cellAt r c with
        | .mine => .s "hit_mine"
        | .num n => .i n) := by
  have hno : ¬(((r : Int), (c : Int)) ∈ b.revealed ∨ ((r : Int), (c : Int)) ∈ b.flagged) := by
    rintro (h | h)
    · exact hrev h
    · exact hfl h
  rw [Board.apply_move, if_pos rfl, if_neg hfl, reveal_inrange b hsh r c hr hc hno]
  rcases b.cellAt r c with _ | n
  · rfl
  · rfl

theorem apply_move_no_err (b : Board) (hsh : b.shaped) (s : String) (r c : Nat)
    (hs : s = "R" ∨ s = "F") (hr : r < b.rows) (hc : c < b.cols) :
    (b.apply_move s (r : Int) (c : Int)).2 ≠ .err := by
  rcases hs with rfl | rfl
  · by_cases hfl : ((r : Int), (c : Int)) ∈ b.flagged
    · rw [Board.apply_move, if_pos rfl, if_pos hfl]
      simp
    · by_cases hrev : ((r : Int), (c : Int)) ∈ b.revealed
      · rw [Board.apply_move, if_pos rfl, if_neg hfl]
        have hnoop : b.reveal (r : Int) (c : Int) = (b, .noop) := by
          rw [Board.reveal, if_pos (Or.inl hrev)]
        rw [hnoop]
        simp
      · rw [apply_move_R_inrange b hsh r c hr hc hrev hfl]
        rcases b.cellAt r c with _ | n
        · simp
        · simp
  · rw [Board.apply_move, if_neg (by decide), if_pos rfl]
    simp

theorem revOK_elim (b : Board) (p : Int × Int) (h : revOK b p = true) :
    ∃ r : Nat, r < b.rows ∧ ∃ c : Nat, c < b.cols ∧ p = ((r : Int), (c : Int)) ∧
      b.cellAt r c ≠ .mine := by
  rw [revOK] at h
  simp only [Bool.and_eq_true, decide_eq_true_eq] at h
  obtain ⟨⟨⟨⟨h1, h2⟩, h3⟩, h4⟩, h5⟩ := h
  refine ⟨p.1.toNat, by omega, p.2.toNat, by omega, ?_, h5⟩
  rw [Int.toNat_of_nonneg h1, Int.toNat_of_nonneg h3]

theorem flagOK_elim (b : Board) (p : Int × Int) (h : flagOK b p = true) :
    ∃ r : Nat, r < b.rows ∧ ∃ c : Nat, c < b.cols ∧ p = ((r : Int), (c : Int)) ∧
      b.cellAt r c = .mine := by
  rw [flagOK] at h
  simp only [Bool.and_eq_true, decide_eq_true_eq] at h
  obtain ⟨⟨⟨⟨h1, h2⟩, h3⟩, h4⟩, h5⟩ := h
  refine ⟨p.1.toNat, by omega, p.2.toNat, by omega, ?_, h5⟩
  rw [Int.toNat_of_nonneg h1, Int.toNat_of_nonneg h3]

theorem revOK_cast (b : Board) (r c : Nat) (hr : r < b.rows) (hc : c < b.cols)
    (hnm : b.cellAt r c ≠ .mine) : revOK b ((r : Int), (c : Int)) = true := by
  rw [revOK]
  simp only [Bool.and_eq_true, decide_eq_true_eq]
  refine ⟨⟨⟨⟨Int.natCast_nonneg _, by exact_mod_cast hr⟩, Int.natCast_nonneg _⟩,
    by exact_mod_cast hc⟩, ?_⟩
  simpa using hnm

theorem flagOK_cast (b : Board) (r c : Nat) (hr : r < b.rows) (hc : c < b.cols)
    (hm : b.cellAt r c = .mine) : flagOK b ((r : Int), (c : Int)) = true := by
  rw [flagOK]
  simp only [Bool.and_eq_true, decide_eq_true_eq]
  refine ⟨⟨⟨⟨Int.natCast_nonneg _, by exact_mod_cast hr⟩, Int.natCast_nonneg _⟩,
    by exact_mod_cast hc⟩, ?_⟩
  simpa using hm

theorem cellValOK_num (b : Board) (r c : Nat) (h : cellValOK b r c = true)
    (n : Int) (hn : b.cellAt r c = .num n) : n = (mineNbrs b r c : Int) := by
  rw [cellValOK, hn] at h
  exact of_decide_eq_true h

theorem nbrs_length_le (rows cols r c : Nat) : (nbrs rows cols r c).length ≤ 8 := by
  rw [nbrs]
  exact le_trans (List.length_filterMap_le _ _) (by rfl)

theorem mineNbrs_le (b : Board) (r c : Nat) : mineNbrs b r c ≤ 8 := by
  rw [mineNbrs]
  exact le_trans (List.countP_le_length _) (nbrs_length_le _ _ _ _)

/-! Soundness of the inference steps against the ground-truth board. -/

theorem countP_split {α : Type} (l : List α) (p q r : α → Bool)
    (h : ∀ x ∈ l, p x = (q x || r x)) (hd : ∀ x ∈ l, ¬(q x = true ∧ r x = true)) :
    l.countP p = l.countP q + l.countP r := by
  induction l with
  | nil => simp
  | cons y ys ih =>
    have hys := ih (fun x hx => h x (List.mem_cons_of_mem y hx))
      (fun x hx => hd x (List.mem_cons_of_mem y hx))
    rw [List.countP_cons, List.countP_cons, List.countP_cons, hys,
      h y (List.mem_cons_self y ys)]
    cases hqv : q y <;> cases hrv : r y
    · simp [hqv, hrv]
    · simp [hqv, hrv]
      omega
    · simp [hqv, hrv]
      omega
    · exact absurd ⟨hqv, hrv⟩ (hd y (List.mem_cons_self y ys))

theorem cast_pair_inj {r c r' c' : Nat}
    (h : ((r : Int), (c : Int)) = ((r' : Int), (c' : Int))) : r = r' ∧ c = c' := by
  rw [Prod.mk.injEq] at h
  exact ⟨by exact_mod_cast h.1, by exact_mod_cast h.2⟩

theorem mkAgent_csp_rows (b : Board) : (mkAgent (get_csp_state b)).rows = b.rows := by
  show (get_csp_state b).length = b.rows
  rw [get_csp_state, List.length_map, List.length_range]

theorem mkAgent_csp_cols (b : Board) (h : 0 < b.rows) :
    (mkAgent (get_csp_state b)).cols = b.cols := by
  show ((get_csp_state b).getD 0 []).length = b.cols
  rw [get_csp_state, List.getD_eq_getElem?_getD, List.getElem?_map, List.getElem?_range h]
  simp

theorem mkAgent_csp_WF (b : Board) : (mkAgent (get_csp_state b)).WF := by
  refine ⟨rfl, ?_⟩
  intro row hrow
  have hrow2 : row ∈ get_csp_state b := hrow
  rw [get_csp_state] at hrow2
  obtain ⟨r, hr, heq⟩ := List.mem_map.mp hrow2
  have hpos : 0 < b.rows := by
    have := List.mem_range.mp hr
    omega
  show row.length = (mkAgent (get_csp_state b)).cols
  rw [mkAgent_csp_cols b hpos, ← heq, List.length_map, List.length_range]

theorem mkAgent_get (b : Board) (r c : Nat) :
    (mkAgent (get_csp_state b)).get r c = cspAt b r c := rfl

theorem obsOK_base (b : Board) (hInv : Inv b) : obsOK b (mkAgent (get_csp_state b)) := by
  obtain ⟨hsh, hrp, hcp, hnm, hval, hnd, hrev, hfl⟩ := hInv
  refine ⟨mkAgent_csp_rows b, mkAgent_csp_cols b hrp, mkAgent_csp_WF b, ?_⟩
  intro r hr c hc
  rw [mkAgent_get, cspAt_eq b r c hr hc]
  by_cases hf : ((r : Int), (c : Int)) ∈ b.flagged
  · rw [if_pos hf]
    obtain ⟨r', hr', c', hc', heq, hmine⟩ := flagOK_elim b _ (hfl _ hf)
    obtain ⟨hrr, hcc⟩ := cast_pair_inj heq
    subst hrr
    subst hcc
    refine ⟨fun _ => hmine, ?_, ?_, Or.inl rfl⟩
    · intro hcl
      exact absurd hcl (by decide)
    · intro hsm
      exact absurd hsm (by decide)
  · rw [if_neg hf]
    by_cases hrv : ((r : Int), (c : Int)) ∈ b.revealed
    · rw [if_pos hrv]
      obtain ⟨r', hr', c', hc', heq, hnmine⟩ := revOK_elim b _ (hrev _ hrv)
      obtain ⟨hrr, hcc⟩ := cast_pair_inj heq
      subst hrr
      subst hcc
      rcases hcell : b.cellAt r c with _ | n
      · exact absurd hcell hnmine
      · have hval2 : n = (mineNbrs b r c : Int) := cellValOK_num b r c (hval r hr c hc) n hcell
        have hle := mineNbrs_le b r c
        refine ⟨?_, ?_, ?_, ?_⟩
        · intro hFl
          have h10 := AVal.ofInt.inj hFl
          omega
        · intro _
          exact ⟨hval2, by simp⟩
        · intro hsm
          exact absurd hsm (by simp)
        · right; right; right
          refine decide_eq_true ?_
          exact ⟨by omega, by omega⟩
    · rw [if_neg hrv]
      refine ⟨fun h => absurd h (by decide), fun h => absurd h (by decide),
        fun h => absurd h (by decide), Or.inr (Or.inl rfl)⟩

theorem rem_eq_covered_mines (b : Board) (a : Agent) (hok : obsOK b a)
    (p : Nat × Nat) (hp : p ∈ a.positions) (hclue : isClue (a.get p.1 p.2) = true) :
    a.remAt p.1 p.2 = ((a.coveredNbrs p.1 p.2).countP fun q =>
      decide (b.cellAt q.1 q.2 = .mine) : Int) := by
  obtain ⟨hrows, hcols, hWF, hcell⟩ := hok
  obtain ⟨hpr, hpc⟩ := (mem_gridPositions a.rows a.cols p).mp hp
  rw [hrows] at hpr
  rw [hcols] at hpc
  have hkey := hcell p.1 hpr p.2 hpc
  have hcv := hkey.2.1 hclue
  have hN : a.neighbors p.1 p.2 = nbrs b.rows b.cols p.1 p.2 := by
    rw [Agent.neighbors, hrows, hcols]
  have hsplit : (nbrs b.rows b.cols p.1 p.2).countP
        (fun q => decide (b.cellAt q.1 q.2 = .mine)) =
      (nbrs b.rows b.cols p.1 p.2).countP (fun q => decide (a.get q.1 q.2 = FLAGGED)) +
      (nbrs b.rows b.cols p.1 p.2).countP
        (fun q => decide (b.cellAt q.1 q.2 = .mine) && decide (a.get q.1 q.2 = COVERED)) := by
    refine countP_split _ _ _ _ ?_ ?_
    · intro x hx
      have hb := nbrs_bounds hx
      have hx2 := hcell x.1 hb.1 x.2 hb.2
      rcases hx2.2.2.2 with hF | hC | hS | hclx
      · rw [decide_eq_true (hx2.1 hF), decide_eq_true hF]
        rfl
      · rw [hC]
        have h1 : decide (COVERED = FLAGGED) = false := by decide
        have h2 : decide (COVERED = COVERED) = true := by decide
        rw [h1, h2]
        simp
      · rw [hS, decide_eq_false (hx2.2.2.1 hS)]
        have h1 : decide (AVal.safeMark = FLAGGED) = false := by decide
        have h2 : decide (AVal.safeMark = COVERED) = false := by decide
        rw [h1, h2]
        simp
      · have hnm := (hx2.2.1 hclx).2
        have hFd : decide (a.get x.1 x.2 = FLAGGED) = false := by
          refine decide_eq_false ?_
          intro hEq
          rw [hEq] at hclx
          exact absurd hclx (by decide)
        rw [decide_eq_false hnm, hFd]
        simp
    · intro x hx hand
      have h1 := of_decide_eq_true hand.1
      have h2 := (Bool.and_eq_true _ _).mp hand.2
      have h3 := of_decide_eq_true h2.2
      rw [h1] at h3
      exact absurd h3 (by decide)
  have hflag : a.flaggedNbrCount p.1 p.2 =
      (nbrs b.rows b.cols p.1 p.2).countP (fun q => decide (a.get q.1 q.2 = FLAGGED)) := by
    rw [Agent.flaggedNbrCount, Agent.neighbors, hrows, hcols]
  have hcov : (a.coveredNbrs p.1 p.2).countP (fun q => decide (b.cellAt q.1 q.2 = .mine)) =
      (nbrs b.rows b.cols p.1 p.2).countP
        (fun q => decide (b.cellAt q.1 q.2 = .mine) && decide (a.get q.1 q.2 = COVERED)) := by
    rw [Agent.coveredNbrs, Agent.neighbors, hrows, hcols, List.countP_filter]
  rw [Agent.remAt, hcv.1, hcov, hflag, mineNbrs]
  omega

theorem sweep_sound (b : Board) (a : Agent) (hok : obsOK b a) :
    (∀ x ∈ a.sweep.1, b.cellAt x.1 x.2 ≠ .mine) ∧
    (∀ x ∈ a.sweep.2, b.cellAt x.1 x.2 = .mine) := by
  constructor
  · intro x hx
    obtain ⟨p, hp, hclue, hrem, hne, hxc⟩ := (sweep_mem_safe a x).mp hx
    have hrc := rem_eq_covered_mines b a hok p hp hclue
    rw [hrem] at hrc
    have h0 : (a.coveredNbrs p.1 p.2).countP
        (fun q => decide (b.cellAt q.1 q.2 = .mine)) = 0 := by
      exact_mod_cast hrc.symm
    have := List.countP_eq_zero.mp h0 x hxc
    simpa using this
  · intro x hx
    obtain ⟨p, hp, hclue, hlen, hpos, hxc⟩ := (sweep_mem_mine a x).mp hx
    have hrc := rem_eq_covered_mines b a hok p hp hclue
    rw [hlen] at hrc
    have hlenn : (a.coveredNbrs p.1 p.2).countP
        (fun q => decide (b.cellAt q.1 q.2 = .mine)) = (a.coveredNbrs p.1 p.2).length := by
      exact_mod_cast hrc.symm
    have := List.countP_eq_length.mp hlenn x hxc
    simpa using this

theorem propStep_obsOK (b : Board) (a : Agent) (hok : obsOK b a) :
    obsOK b (propStep a) := by
  have hs := sweep_sound b a hok
  obtain ⟨hrows, hcols, hWF, hcell⟩ := hok
  refine ⟨(propStep_dims a).1.trans hrows, (propStep_dims a).2.trans hcols,
    propStep_WF hWF, ?_⟩
  intro r hr c hc
  rw [propStep_get hWF r c]
  by_cases h1 : (r, c) ∈ a.sweep.1 ∧ a.get r c = COVERED
  · rw [if_pos h1]
    refine ⟨fun h => absurd h (by decide), fun h => absurd h (by decide),
      fun _ => hs.1 (r, c) h1.1, Or.inr (Or.inr (Or.inl rfl))⟩
  · rw [if_neg h1]
    by_cases h2 : (r, c) ∈ a.sweep.2 ∧ a.get r c = COVERED
    · rw [if_pos h2]
      refine ⟨fun _ => hs.2 (r, c) h2.1, fun h => absurd h (by decide),
        fun h => absurd h (by decide), Or.inl rfl⟩
    · rw [if_neg h2]
      exact hcell r hr c hc

theorem obsOK_iter (b : Board) (a : Agent) (hok : obsOK b a) (k : Nat) :
    obsOK b (propStep^[k] a) := by
  induction k with
  | zero => exact hok
  | succ n ih =>
    rw [Function.iterate_succ_apply']
    exact propStep_obsOK b _ ih

theorem propStep_iter_facts (a : Agent) (hWF : a.WF) (k : Nat) :
    (propStep^[k] a).rows = a.rows ∧ (propStep^[k] a).cols = a.cols ∧
    (propStep^[k] a).WF ∧
    ∀ x y : Nat, (propStep^[k] a).get x y = COVERED → a.get x y = COVERED := by
  induction k with
  | zero => exact ⟨rfl, rfl, hWF, fun x y h => h⟩
  | succ n ih =>
    rw [Function.iterate_succ_apply']
    refine ⟨?_, ?_, propStep_WF ih.2.2.1, ?_⟩
    · rw [(propStep_dims _).1, ih.1]
    · rw [(propStep_dims _).2, ih.2.1]
    · intro x y h
      exact ih.2.2.2 x y (propStep_covered_imp ih.2.2.1 x y h)

theorem gfa_sound (b : Board) (a : Agent) (hok : obsOK b a) :
    ∀ act ∈ (a.get_forced_actions).2,
      (act.act = "R" ∨ act.act = "F") ∧ act.r < a.rows ∧ act.c < a.cols ∧
      a.get act.r act.c = COVERED ∧
      (act.act = "F" → b.cellAt act.r act.c = .mine) := by
  intro act hact
  have hWF := hok.2.2.1
  have hgm := gfaAux_mem (a.coveredCount + 1) a hWF (Nat.lt_succ_self _)
  rcases hgm.2 act hact with hsha | hsha
  · rw [hsha] at hact
    obtain ⟨kk, hforced⟩ := ((hgm.1 (act.r, act.c)).1).mp hact
    obtain ⟨p, hp, hclue, hrem, hne, hx⟩ := hforced
    have hfacts := propStep_iter_facts a hWF kk
    have hb := coveredNbrs_bounds hx
    refine ⟨Or.inl (congrArg Action.act hsha), ?_, ?_, ?_, ?_⟩
    · rw [← hfacts.1]
      exact hb.1
    · rw [← hfacts.2.1]
      exact hb.2.1
    · exact hfacts.2.2.2 act.r act.c hb.2.2
    · intro hFeq
      have hReq : act.act = "R" := congrArg Action.act hsha
      rw [hFeq] at hReq
      exact absurd hReq (by decide)
  · rw [hsha] at hact
    obtain ⟨kk, hforced⟩ := ((hgm.1 (act.r, act.c)).2).mp hact
    obtain ⟨p, hp, hclue, hlen, hpos, hx⟩ := hforced
    have hfacts := propStep_iter_facts a hWF kk
    have hokk := obsOK_iter b a hok kk
    have hb := coveredNbrs_bounds hx
    have hmine := (sweep_sound b _ hokk).2 (act.r, act.c)
      ((sweep_mem_mine _ _).mpr ⟨p, hp, hclue, hlen, hpos, hx⟩)
    refine ⟨Or.inr (congrArg Action.act hsha), ?_, ?_, ?_, fun _ => hmine⟩
    · rw [← hfacts.1]
      exact hb.1
    · rw [← hfacts.2.1]
      exact hb.2.1
    · exact hfacts.2.2.2 act.r act.c hb.2.2

theorem true_bits_valid (b : Board) (a : Agent) (hok : obsOK b a) :
    validBits (a.constraintsAndFrontier).1 (a.constraintsAndFrontier).2
      ((a.constraintsAndFrontier).2.map fun q => decide (b.cellAt q.1 q.2 = .mine)) = true := by
  rw [validBits, List.all_eq_true]
  intro cn hcn
  obtain ⟨q, hq, hclue, hne, hcneq⟩ := (constraints_mem a cn).mp hcn
  subst hcneq
  refine decide_eq_true ?_
  dsimp only
  have hrem := rem_eq_covered_mines b a hok q hq hclue
  have hcongr : ((a.coveredNbrs q.1 q.2).countP fun p =>
      assignVal (a.constraintsAndFrontier).2
        ((a.constraintsAndFrontier).2.map fun x => decide (b.cellAt x.1 x.2 = .mine)) p) =
      ((a.coveredNbrs q.1 q.2).countP fun p => decide (b.cellAt p.1 p.2 = .mine)) := by
    refine List.countP_congr ?_
    intro x hx
    have hxfr := constraint_cells_subset a _ hcn x hx
    rw [assignVal_map _ _ x hxfr]
  rw [hcongr]
  exact hrem.symm

theorem est_prob_one_mine (b : Board) (a : Agent) (hok : obsOK b a)
    (l : List ((Nat × Nat) × ℚ)) (hest : a.estimate_probabilities = some l)
    (cp : (Nat × Nat) × ℚ) (hcp : cp ∈ l) (h1 : cp.2 = 1) :
    b.cellAt cp.1.1 cp.1.2 = .mine := by
  rw [Agent.estimate_probabilities] at hest
  dsimp only at hest
  split at hest
  · exact absurd hest (by simp)
  · have hl := Option.some.inj hest
    rw [← hl] at hcp
    obtain ⟨p0, hp0, hcpe⟩ := List.mem_map.mp hcp
    have hfst : cp.1 = p0 := by rw [← hcpe]
    rw [hfst]
    rw [← hcpe] at h1
    dsimp only at h1
    split at h1
    · exact absurd h1 (by norm_num)
    · rename_i htot
      have hdiv : (((((bitLists (a.constraintsAndFrontier).2.length).filter fun bits =>
            validBits (a.constraintsAndFrontier).1 (a.constraintsAndFrontier).2 bits).countP
            fun bits => assignVal (a.constraintsAndFrontier).2 bits p0 : Nat) : Int) : ℚ) /
          ((((bitLists (a.constraintsAndFrontier).2.length).filter fun bits =>
            validBits (a.constraintsAndFrontier).1 (a.constraintsAndFrontier).2 bits).length :
              Nat) : ℚ) = 1 := by
        rw [← Rat.mkRat_eq_div]
        exact h1
      have hneq : ((((bitLists (a.constraintsAndFrontier).2.length).filter fun bits =>
          validBits (a.constraintsAndFrontier).1 (a.constraintsAndFrontier).2 bits).length :
            Nat) : ℚ) ≠ 0 := by
        exact_mod_cast htot
      have hcnt : (((bitLists (a.constraintsAndFrontier).2.length).filter fun bits =>
            validBits (a.constraintsAndFrontier).1 (a.constraintsAndFrontier).2 bits).countP
            fun bits => assignVal (a.constraintsAndFrontier).2 bits p0) =
          ((bitLists (a.constraintsAndFrontier).2.length).filter fun bits =>
            validBits (a.constraintsAndFrontier).1 (a.constraintsAndFrontier).2 bits).length := by
        have := (div_eq_one_iff_eq hneq).mp hdiv
        exact_mod_cast this
      have hall := List.countP_eq_length.mp hcnt
      have htrue_mem : ((a.constraintsAndFrontier).2.map fun q =>
          decide (b.cellAt q.1 q.2 = .mine)) ∈
          (bitLists (a.constraintsAndFrontier).2.length).filter fun bits =>
            validBits (a.constraintsAndFrontier).1 (a.constraintsAndFrontier).2 bits := by
        rw [List.mem_filter]
        exact ⟨(mem_bitLists _ _).mpr (List.length_map _ _), true_bits_valid b a hok⟩
      have hassign := hall _ htrue_mem
      rw [assignVal_map (a.constraintsAndFrontier).2 _ p0 hp0] at hassign
      exact of_decide_eq_true hassign

theorem assumption_actions_sound (b : Board) (a : Agent) (hok : obsOK b a) :
    ∀ act ∈ a.assumption_actions,
      (act.act = "R" ∨ act.act = "F") ∧ act.r < a.rows ∧ act.c < a.cols ∧
      a.get act.r act.c = COVERED ∧
      (act.act = "F" → b.cellAt act.r act.c = .mine) := by
  intro act hact
  rcases hc : a.assumptionCands with _ | ⟨c0, rest⟩
  · rw [Agent.assumption_actions, hc] at hact
    exact absurd hact (List.not_mem_nil _)
  · obtain ⟨hbmem, hbmin⟩ := foldl_min_cand c0 rest
    rw [← hc] at hbmem
    obtain ⟨qb, hqb, hqbsome⟩ := (mem_assumptionCands a _).mp hbmem
    obtain ⟨hqbcand, hqbeq⟩ := (candAt_some_iff a qb _).mp hqbsome
    rw [Agent.assumption_actions, hc] at hact
    dsimp only at hact
    rw [hqbeq] at hact
    rw [List.mem_filter] at hact
    obtain ⟨hacts, hcovd⟩ := hact
    have hcov := of_decide_eq_true hcovd
    obtain ⟨j, hjm, hactj⟩ := List.mem_flatMap.mp hacts
    have hjlt : j < (a.coveredNbrs qb.1 qb.2).length := List.mem_range.mp hjm
    have hmemC : (a.coveredNbrs qb.1 qb.2).getD j (0, 0) ∈ a.coveredNbrs qb.1 qb.2 :=
      getD_mem _ _ _ hjlt
    have hbC := coveredNbrs_bounds hmemC
    rcases List.mem_append.mp hactj with hF | hR
    · split at hF
      · rename_i hall
        rcases List.mem_singleton.mp hF with rfl
        refine ⟨Or.inr rfl, hbC.1, hbC.2.1, hcov, fun _ => ?_⟩
        have hiff := (pats_all_iff (a.coveredNbrs qb.1 qb.2)
          (nodup_coveredNbrs a qb.1 qb.2) (a.remAt qb.1 qb.2) j hjlt (fun v => v)).mp hall
        have hrem := rem_eq_covered_mines b a hok qb hqb hqbcand.1
        have hsub : ((a.coveredNbrs qb.1 qb.2).filter fun q =>
            decide (b.cellAt q.1 q.2 = .mine)).toFinset ⊆
            (a.coveredNbrs qb.1 qb.2).toFinset := by
          intro y hy
          rw [List.mem_toFinset] at hy ⊢
          exact List.mem_of_mem_filter hy
        have hcard : ((((a.coveredNbrs qb.1 qb.2).filter fun q =>
            decide (b.cellAt q.1 q.2 = .mine)).toFinset).card : Int) =
            a.remAt qb.1 qb.2 := by
          rw [List.toFinset_card_of_nodup
            (List.Nodup.filter _ (nodup_coveredNbrs a qb.1 qb.2))]
          rw [← List.countP_eq_length_filter]
          exact hrem.symm
        have hmem := hiff _ hsub hcard
        have hmem2 := of_decide_eq_true hmem
        rw [List.mem_toFinset, List.mem_filter] at hmem2
        exact of_decide_eq_true hmem2.2
      · exact absurd hF (List.not_mem_nil _)
    · split at hR
      · rcases List.mem_singleton.mp hR with rfl
        exact ⟨Or.inl rfl, hbC.1, hbC.2.1, hcov, fun hFeq =>
          absurd (show ("R" : String) = "F" from hFeq) (by decide)⟩
      · exact absurd hR (List.not_mem_nil _)

theorem next_move_sound (b : Board) (a : Agent) (hok : obsOK b a) (k : Nat) :
    ∀ act ∈ (a.next_move k).2,
      (act.act = "R" ∨ act.act = "F") ∧ act.r < a.rows ∧ act.c < a.cols ∧
      a.get act.r act.c = COVERED ∧
      (act.act = "F" → b.cellAt act.r act.c = .mine) := by
  intro act hact
  have hWF := hok.2.2.1
  by_cases hf : a.get_forced_actions.2 = []
  · rw [next_move_unfold a hWF hf k] at hact
    rcases hfind : ((a.estimate_probabilities).getD []).find? fun cp => decide (cp.2 = 1)
        with _ | cp
    · rw [hfind] at hact
      dsimp only at hact
      by_cases hpne : (a.estimate_probabilities).getD [] ≠ []
      · rw [if_pos hpne] at hact
        have hlne := hpne
        rcases hest : a.estimate_probabilities with _ | l
        · rw [hest] at hlne
          exact absurd rfl hlne
        · rw [hest, Option.getD_some] at hact hlne
          rcases List.mem_singleton.mp hact with rfl
          obtain ⟨cpm, hcpm, hcpeq⟩ := minProb_mem l hlne
          have hbne : ((l.filter fun cp => decide (cp.2 = minProb l)).map fun cp => cp.1) ≠ [] := by
            have hm : cpm.1 ∈ (l.filter fun cp => decide (cp.2 = minProb l)).map fun cp => cp.1 :=
              List.mem_map.mpr ⟨cpm, List.mem_filter.mpr ⟨hcpm, decide_eq_true hcpeq⟩, rfl⟩
            exact List.ne_nil_of_mem hm
          have hchmem := getD_mem ((l.filter fun cp => decide (cp.2 = minProb l)).map
              fun cp => cp.1)
            (k % ((l.filter fun cp => decide (cp.2 = minProb l)).map fun cp => cp.1).length)
            (0, 0) (Nat.mod_lt _ (List.length_pos.mpr hbne))
          obtain ⟨cq, hcq, hcqeq⟩ := List.mem_map.mp hchmem
          have hcql : cq ∈ l := List.mem_of_mem_filter hcq
          have hfr : cq.1 ∈ (a.constraintsAndFrontier).2 := by
            rw [← est_keys a l hest]
            exact List.mem_map.mpr ⟨cq, hcql, rfl⟩
          obtain ⟨hcovfr, q, hq, hclueq, hnb⟩ := (frontier_mem a _).mp hfr
          have hbnds := nbrs_bounds hnb
          rw [hcqeq] at hcovfr hbnds
          exact ⟨Or.inl rfl, hbnds.1, hbnds.2, hcovfr, fun hFeq =>
            absurd (show ("R" : String) = "F" from hFeq) (by decide)⟩
      · rw [if_neg hpne] at hact
        by_cases hasm : a.assumption_actions ≠ []
        · rw [if_pos hasm] at hact
          exact assumption_actions_sound b a hok act hact
        · rw [if_neg hasm] at hact
          by_cases hcvd : (a.positions.filter fun p => decide (a.get p.1 p.2 = COVERED)) ≠ []
          · rw [if_pos hcvd] at hact
            rcases List.mem_singleton.mp hact with rfl
            have hchmem := getD_mem (a.positions.filter fun p =>
                decide (a.get p.1 p.2 = COVERED))
              (k % (a.positions.filter fun p => decide (a.get p.1 p.2 = COVERED)).length)
              (0, 0) (Nat.mod_lt _ (List.length_pos.mpr hcvd))
            obtain ⟨hpos2, hcv2⟩ := List.mem_filter.mp hchmem
            obtain ⟨hb1, hb2⟩ := (mem_gridPositions a.rows a.cols _).mp hpos2
            exact ⟨Or.inl rfl, hb1, hb2, of_decide_eq_true hcv2, fun hFeq =>
              absurd (show ("R" : String) = "F" from hFeq) (by decide)⟩
          · rw [if_neg hcvd] at hact
            exact absurd hact (List.not_mem_nil _)
    · rw [hfind] at hact
      dsimp only at hact
      rcases List.mem_singleton.mp hact with rfl
      have hcpmem := List.mem_of_find?_eq_some hfind
      have hp1pre := List.find?_some hfind
      have hp1 : cp.2 = 1 := of_decide_eq_true hp1pre
      rcases hest : a.estimate_probabilities with _ | l
      · rw [hest] at hcpmem
        exact absurd hcpmem (List.not_mem_nil _)
      · rw [hest, Option.getD_some] at hcpmem
        have hmine := est_prob_one_mine b a hok l hest cp hcpmem hp1
        have hfr : cp.1 ∈ (a.constraintsAndFrontier).2 := by
          rw [← est_keys a l hest]
          exact List.mem_map.mpr ⟨cp, hcpmem, rfl⟩
        obtain ⟨hcovfr, q, hq, hclueq, hnb⟩ := (frontier_mem a _).mp hfr
        have hbnds := nbrs_bounds hnb
        exact ⟨Or.inr rfl, hbnds.1, hbnds.2, hcovfr, fun _ => hmine⟩
  · rw [Agent.next_move] at hact
    simp only [ne_eq, hf, not_false_eq_true, if_true] at hact
    exact gfa_sound b a hok act hact

theorem covered_bridge (b : Board) (hInv : Inv b) (r c : Nat) (hr : r < b.rows)
    (hc : c < b.cols) (hcov : cspAt b r c = COVERED) :
    ((r : Int), (c : Int)) ∉ b.revealed ∧ ((r : Int), (c : Int)) ∉ b.flagged := by
  obtain ⟨hsh, hrp, hcp, hnm, hval, hnd, hrev, hfl⟩ := hInv
  rw [cspAt_eq b r c hr hc] at hcov
  by_cases hf : ((r : Int), (c : Int)) ∈ b.flagged
  · rw [if_pos hf] at hcov
    exact absurd hcov (by decide)
  · rw [if_neg hf] at hcov
    by_cases hrv : ((r : Int), (c : Int)) ∈ b.revealed
    · rw [if_pos hrv] at hcov
      obtain ⟨r', hr', c', hc', heq, hnmine⟩ := revOK_elim b _ (hrev _ hrv)
      obtain ⟨hrr, hcc⟩ := cast_pair_inj heq
      subst hrr
      subst hcc
      rcases hcell : b.cellAt r c with _ | n
      · exact absurd hcell hnmine
      · rw [hcell] at hcov
        have h9 := AVal.ofInt.inj hcov
        have hval2 := cellValOK_num b r c (hval r hr c hc) n hcell
        have hle := mineNbrs_le b r c
        omega
    · exact ⟨hrv, hf⟩

theorem next_move_facts (b : Board) (hInv : Inv b) (k : Nat) :
    ∀ act ∈ ((mkAgent (get_csp_state b)).next_move k).2, ActFact b act := by
  intro act hact
  have hok := obsOK_base b hInv
  obtain ⟨hA, hr, hc, hcov, hFm⟩ := next_move_sound b _ hok k act hact
  rw [mkAgent_csp_rows] at hr
  rw [mkAgent_csp_cols b hInv.2.1] at hc
  have hcov2 : cspAt b act.r act.c = COVERED := by
    rw [← mkAgent_get]
    exact hcov
  obtain ⟨hnr, hnf⟩ := covered_bridge b hInv act.r act.c hr hc hcov2
  exact ⟨hA, hr, hc, hnr, hnf, hFm⟩

theorem mc_select_mem (orig : Board) (covered : List (Int × Int)) (rng : Nat → Nat)
    (i : Nat) (hne : covered ≠ []) :
    ∃ c : Int × Int, (monte_carlo_select orig covered 5 rng i).1 = some c ∧ c ∈ covered := by
  have hfold := mc_fold_scores orig 5 rng covered i none (-1)
  rcases foldl_best_char (mcScores orig 5 rng covered i).1 none (-1) with
    ⟨heq, hall⟩ | ⟨j, hj, heq, hgt, hmax, hpre⟩
  · exfalso
    have hlen := mcScores_length orig 5 rng covered i
    have hpos : 0 < covered.length := List.length_pos.mpr hne
    have hmem := getD_mem (mcScores orig 5 rng covered i).1 0 ((0, 0), 0) (by omega)
    have hle := hall _ hmem
    omega
  · refine ⟨((mcScores orig 5 rng covered i).1.getD j ((0, 0), 0)).1, ?_, ?_⟩
    · rw [monte_carlo_select, hfold]
      dsimp only
      rw [heq]
    · have hmap := mcScores_map_fst orig 5 rng covered i
      have hlen := mcScores_length orig 5 rng covered i
      have hg := getD_map (mcScores orig 5 rng covered i).1 Prod.fst j (0, 0) ((0, 0), 0) hj
      rw [hmap] at hg
      rw [← hg]
      exact getD_mem covered j (0, 0) (by omega)

theorem interceptMC_facts (b : Board) (hInv : Inv b) (acts : List Action) (rng : Nat → Nat)
    (i : Nat) (hacts : ∀ act ∈ acts, ActFact b act) :
    interceptMC b acts rng i ≠ none ∧
    ∀ ai, interceptMC b acts rng i = some ai → ∀ act ∈ ai.1, ActFact b act := by
  rcases acts with _ | ⟨a0, rest⟩
  · have hu : interceptMC b [] rng i = some ([], i) := rfl
    rw [hu]
    constructor
    · simp
    · intro ai hai act hact
      rw [← Option.some.inj hai] at hact
      exact absurd hact (List.not_mem_nil _)
  · rcases rest with _ | ⟨a1, rest2⟩
    · rw [interceptMC]
      by_cases hw : a0.why = .rand
      · rw [if_pos hw]
        have hf0 := hacts a0 (List.mem_cons_self _ _)
        have hmem : ((a0.r : Int), (a0.c : Int)) ∈ uncoveredCells b :=
          (mem_uncoveredCells b _).mpr ⟨⟨a0.r, hf0.2.1, a0.c, hf0.2.2.1, rfl⟩,
            hf0.2.2.2.1, hf0.2.2.2.2.1⟩
        have hune : uncoveredCells b ≠ [] := List.ne_nil_of_mem hmem
        obtain ⟨ch, hsel, hchmem⟩ := mc_select_mem b (uncoveredCells b) rng i hune
        rw [hsel]
        constructor
        · simp
        · intro ai hai act hact
          rw [← Option.some.inj hai] at hact
          rcases List.mem_singleton.mp hact with rfl
          obtain ⟨⟨r', hr', c', hc', hcheq⟩, hnrev, hnfl⟩ :=
            (mem_uncoveredCells b ch).mp hchmem
          subst hcheq
          refine ⟨Or.inl rfl, ?_, ?_, ?_, ?_, fun hFeq =>
            absurd (show ("R" : String) = "F" from hFeq) (by decide)⟩
          · simpa using hr'
          · simpa using hc'
          · simpa using hnrev
          · simpa using hnfl
      · rw [if_neg hw]
        constructor
        · simp
        · intro ai hai act hact
          rw [← Option.some.inj hai] at hact
          rcases List.mem_singleton.mp hact with rfl
          exact hacts _ (List.mem_cons_self _ _)
    · have hu : interceptMC b (a0 :: a1 :: rest2) rng i = some (a0 :: a1 :: rest2, i) := rfl
      rw [hu]
      constructor
      · simp
      · intro ai hai act hact
        rw [← Option.some.inj hai] at hact
        exact hacts act hact

theorem apply_move_inv (b : Board) (act : Action) (hInv : Inv b)
    (hA : act.act = "R" ∨ act.act = "F") (hr : act.r < b.rows) (hc : act.c < b.cols)
    (hFm : act.act = "F" → b.cellAt act.r act.c = .mine)
    (hm : (b.apply_move act.act (act.r : Int) (act.c : Int)).2 ≠ .s "hit_mine") :
    Inv (b.apply_move act.act (act.r : Int) (act.c : Int)).1 := by
  obtain ⟨hsh, hrp, hcp, hnm, hval, hnd, hrev, hfl⟩ := hInv
  rcases hA with hR | hF
  · rw [hR] at hm ⊢
    by_cases hfl2 : ((act.r : Int), (act.c : Int)) ∈ b.flagged
    · rw [Board.apply_move, if_pos rfl, if_pos hfl2]
      exact ⟨hsh, hrp, hcp, hnm, hval, hnd, hrev, hfl⟩
    · by_cases hrev2 : ((act.r : Int), (act.c : Int)) ∈ b.revealed
      · rw [Board.apply_move, if_pos rfl, if_neg hfl2]
        have hnoop : b.reveal (act.r : Int) (act.c : Int) = (b, .noop) := by
          rw [Board.reveal, if_pos (Or.inl hrev2)]
        rw [hnoop]
        exact ⟨hsh, hrp, hcp, hnm, hval, hnd, hrev, hfl⟩
      · rw [apply_move_R_inrange b hsh act.r act.c hr hc hrev2 hfl2] at hm ⊢
        rcases hcell : b.cellAt act.r act.c with _ | n
        · rw [hcell] at hm
          exact absurd rfl hm
        · refine ⟨hsh, hrp, hcp, hnm, hval, ?_, ?_, hfl⟩
          · rw [List.nodup_append]
            refine ⟨hnd, List.nodup_singleton _, ?_⟩
            intro x hx hy
            rw [List.mem_singleton] at hy
            subst hy
            exact hrev2 hx
          · intro p hp
            rcases List.mem_append.mp hp with h | h
            · exact hrev p h
            · rw [List.mem_singleton] at h
              subst h
              refine revOK_cast _ act.r act.c hr hc ?_
              show b.cellAt act.r act.c ≠ Cell.mine
              rw [hcell]
              simp
  · rw [hF] at hm ⊢
    by_cases hrev2 : ((act.r : Int), (act.c : Int)) ∈ b.revealed
    · rw [Board.apply_move, if_neg (by decide), if_pos rfl, Board.flag, if_pos hrev2]
      exact ⟨hsh, hrp, hcp, hnm, hval, hnd, hrev, hfl⟩
    · by_cases hfl2 : ((act.r : Int), (act.c : Int)) ∈ b.flagged
      · rw [Board.apply_move, if_neg (by decide), if_pos rfl, Board.flag, if_neg hrev2,
          if_pos hfl2]
        exact ⟨hsh, hrp, hcp, hnm, hval, hnd, hrev, hfl⟩
      · rw [apply_move_F_fresh b _ _ hrev2 hfl2]
        refine ⟨hsh, hrp, hcp, hnm, hval, hnd, hrev, ?_⟩
        intro p hp
        rcases List.mem_append.mp hp with h | h
        · exact hfl p h
        · rw [List.mem_singleton] at h
          subst h
          exact flagOK_cast _ act.r act.c hr hc (hFm hF)

theorem apply_fresh_decrease (b : Board) (act : Action)
    (hA : act.act = "R" ∨ act.act = "F")
    (hrev : ((act.r : Int), (act.c : Int)) ∉ b.revealed)
    (hfl : ((act.r : Int), (act.c : Int)) ∉ b.flagged)
    (hr : act.r < b.rows) (hc : act.c < b.cols) :
    coveredCountB (b.apply_move act.act (act.r : Int) (act.c : Int)).1 < coveredCountB b := by
  have hmem : ((act.r : Int), (act.c : Int)) ∈ uncoveredCells b :=
    (mem_uncoveredCells b _).mpr ⟨⟨act.r, hr, act.c, hc, rfl⟩, hrev, hfl⟩
  rcases hA with hA | hA
  · rw [hA]
    exact uncovered_reveal_lt b ((act.r : Int), (act.c : Int)) hmem
  · rw [hA]
    exact uncovered_flag_lt b ((act.r : Int), (act.c : Int)) hmem

theorem applyActs_ok_chain : ∀ (acts : List Action) (b : Board), Inv b →
    (∀ act ∈ acts, (act.act = "R" ∨ act.act = "F") ∧ act.r < b.rows ∧ act.c < b.cols ∧
      (act.act = "F" → b.cellAt act.r act.c = .mine)) →
    ∀ b2, applyActs b acts = .ok b2 →
      Inv b2 ∧ coveredCountB b2 ≤ coveredCountB b := by
  intro acts
  induction acts with
  | nil =>
    intro b hInv _ b2 h
    rw [applyActs] at h
    rw [← ApplyRes.ok.inj h]
    exact ⟨hInv, le_refl _⟩
  | cons a0 rest ih =>
    intro b hInv hacts b2 h
    rw [applyActs] at h
    by_cases hm : (b.apply_move a0.act (a0.r : Int) (a0.c : Int)).2 = .s "hit_mine"
    · rw [if_pos hm] at h
      exact absurd h (by simp)
    · rw [if_neg hm] at h
      by_cases he : (b.apply_move a0.act (a0.r : Int) (a0.c : Int)).2 = .err
      · rw [if_pos he] at h
        exact absurd h (by simp)
      · rw [if_neg he] at h
        obtain ⟨hA0, hr0, hc0, hF0⟩ := hacts a0 (List.mem_cons_self _ _)
        have hInv2 := apply_move_inv b a0 hInv hA0 hr0 hc0 hF0 hm
        have hfields := apply_move_fields b a0.act (a0.r : Int) (a0.c : Int)
        have hrestF : ∀ act ∈ rest, (act.act = "R" ∨ act.act = "F") ∧
            act.r < (b.apply_move a0.act (a0.r : Int) (a0.c : Int)).1.rows ∧
            act.c < (b.apply_move a0.act (a0.r : Int) (a0.c : Int)).1.cols ∧
            (act.act = "F" →
              (b.apply_move a0.act (a0.r : Int) (a0.c : Int)).1.cellAt act.r act.c = .mine) := by
          intro act hact2
          obtain ⟨hA2, hr2, hc2, hF2⟩ := hacts act (List.mem_cons_of_mem _ hact2)
          refine ⟨hA2, ?_, ?_, ?_⟩
          · rw [hfields.1]
            exact hr2
          · rw [hfields.2.1]
            exact hc2
          · intro hFe
            have hmv := hF2 hFe
            rw [Board.cellAt] at hmv ⊢
            rw [hfields.2.2.1]
            exact hmv
        obtain ⟨hI2, hle⟩ := ih _ hInv2 hrestF b2 h
        exact ⟨hI2, le_trans hle (apply_move_covered_le b a0.act _ _)⟩

theorem applyActs_no_err : ∀ (acts : List Action) (b : Board), b.shaped →
    (∀ act ∈ acts, (act.act = "R" ∨ act.act = "F") ∧ act.r < b.rows ∧ act.c < b.cols) →
    ∀ bx, applyActs b acts ≠ .errd bx := by
  intro acts
  induction acts with
  | nil =>
    intro b _ _ bx h
    rw [applyActs] at h
    exact absurd h (by simp)
  | cons a0 rest ih =>
    intro b hsh hacts bx h
    rw [applyActs] at h
    obtain ⟨hA0, hr0, hc0⟩ := hacts a0 (List.mem_cons_self _ _)
    have hne := apply_move_no_err b hsh a0.act a0.r a0.c hA0 hr0 hc0
    by_cases hm : (b.apply_move a0.act (a0.r : Int) (a0.c : Int)).2 = .s "hit_mine"
    · rw [if_pos hm] at h
      exact absurd h (by simp)
    · rw [if_neg hm, if_neg hne] at h
      have hfields := apply_move_fields b a0.act (a0.r : Int) (a0.c : Int)
      refine ih _ ⟨?_, ?_⟩ ?_ bx h
      · rw [hfields.2.2.1, hfields.1]
        exact hsh.1
      · intro row hrow
        rw [hfields.2.2.1] at hrow
        rw [hfields.2.1]
        exact hsh.2 row hrow
      · intro act hact2
        obtain ⟨hA2, hr2, hc2⟩ := hacts act (List.mem_cons_of_mem _ hact2)
        refine ⟨hA2, ?_, ?_⟩
        · rw [hfields.1]
          exact hr2
        · rw [hfields.2.1]
          exact hc2

theorem length_eq_countP_mem {α : Type} (L M : List α) (p : α → Bool) (hL : L.Nodup)
    (hM : M.Nodup) (hp : ∀ x, p x = true ↔ x ∈ L) (hsub : ∀ x ∈ L, x ∈ M) :
    L.length = M.countP p := by
  rw [List.countP_eq_length_filter]
  have hperm : L.Perm (M.filter p) := by
    refine (List.perm_ext_iff_of_nodup hL (List.Nodup.filter _ hM)).mpr ?_
    intro x
    rw [List.mem_filter]
    constructor
    · intro hx
      exact ⟨hsub x hx, (hp x).mpr hx⟩
    · rintro ⟨_, hx⟩
      exact (hp x).mp hx
  exact hperm.length_eq

theorem covered_zero_solved (b : Board) (hInv : Inv b) (h0 : coveredCountB b = 0) :
    b.is_solved = true := by
  obtain ⟨hsh, hrp, hcp, hnm, hval, hnd, hrev, hfl⟩ := hInv
  have hall : ∀ r : Nat, r < b.rows → ∀ c : Nat, c < b.cols →
      ((r : Int), (c : Int)) ∈ b.revealed ∨ ((r : Int), (c : Int)) ∈ b.flagged := by
    intro r hr c hc
    by_contra hno
    push_neg at hno
    have hmem : ((r : Int), (c : Int)) ∈ uncoveredCells b :=
      (mem_uncoveredCells b _).mpr ⟨⟨r, hr, c, hc, rfl⟩, hno.1, hno.2⟩
    rw [coveredCountB, List.length_eq_zero] at h0
    rw [h0] at hmem
    exact absurd hmem (List.not_mem_nil _)
  have hnmrev : ∀ r : Nat, r < b.rows → ∀ c : Nat, c < b.cols →
      b.cellAt r c ≠ .mine → ((r : Int), (c : Int)) ∈ b.revealed := by
    intro r hr c hc hnm2
    rcases hall r hr c hc with h | h
    · exact h
    · obtain ⟨r', hr', c', hc', heq, hmine⟩ := flagOK_elim b _ (hfl _ h)
      obtain ⟨h1, h2⟩ := cast_pair_inj heq
      subst h1
      subst h2
      exact absurd hmine hnm2
  have hrevlen : b.revealed.length =
      ((gridPositions b.rows b.cols).map fun p => ((p.1 : Int), (p.2 : Int))).countP
        fun x => decide (x ∈ b.revealed) := by
    refine length_eq_countP_mem _ _ _ hnd ?_ (fun x => by simp) ?_
    · refine List.Nodup.map ?_ (nodup_gridPositions b.rows b.cols)
      intro x y hxy
      obtain ⟨h1, h2⟩ := cast_pair_inj hxy
      exact Prod.ext h1 h2
    · intro x hx
      obtain ⟨r', hr', c', hc', heq, _⟩ := revOK_elim b x (hrev x hx)
      subst heq
      exact List.mem_map.mpr ⟨(r', c'),
        (mem_gridPositions b.rows b.cols (r', c')).mpr ⟨hr', hc'⟩, rfl⟩
  have hcount : (((gridPositions b.rows b.cols).map fun p =>
        ((p.1 : Int), (p.2 : Int))).countP fun x => decide (x ∈ b.revealed)) =
      (gridPositions b.rows b.cols).countP fun p => decide (¬ b.cellAt p.1 p.2 = .mine) := by
    rw [List.countP_map]
    refine List.countP_congr ?_
    intro p hp
    obtain ⟨hr, hc⟩ := (mem_gridPositions b.rows b.cols p).mp hp
    constructor
    · intro hmem
      have hm2 := of_decide_eq_true hmem
      obtain ⟨r', hr2, c', hc2, heq, hnm2⟩ := revOK_elim b _ (hrev _ hm2)
      refine decide_eq_true ?_
      obtain ⟨h1, h2⟩ := cast_pair_inj heq
      rw [h1, h2]
      exact hnm2
    · intro hmem
      exact decide_eq_true (hnmrev p.1 hr p.2 hc (of_decide_eq_true hmem))
  have hsplit := countP_split (gridPositions b.rows b.cols)
    (fun _ => true)
    (fun p => decide (¬ b.cellAt p.1 p.2 = .mine))
    (fun p => decide (b.cellAt p.1 p.2 = .mine)) ?_ ?_
  · have htrue : (gridPositions b.rows b.cols).countP (fun _ => true) = b.rows * b.cols := by
      rw [List.countP_true, length_gridPositions]
    rw [htrue] at hsplit
    rw [Board.is_solved]
    refine decide_eq_true ?_
    rw [hnm]
    have hprod : ((b.rows * b.cols : Nat) : Int) = (b.rows : Int) * (b.cols : Int) := by
      push_cast
      ring
    rw [← hprod, hrevlen, hcount]
    rw [mineCells] at hnm ⊢
    omega
  · intro x _
    dsimp only
    by_cases hmm : b.cellAt x.1 x.2 = .mine
    · rw [show decide (¬ b.cellAt x.1 x.2 = .mine) = false from
        decide_eq_false (not_not_intro hmm),
        show decide (b.cellAt x.1 x.2 = .mine) = true from decide_eq_true hmm]
      rfl
    · rw [show decide (¬ b.cellAt x.1 x.2 = .mine) = true from decide_eq_true hmm,
        show decide (b.cellAt x.1 x.2 = .mine) = false from decide_eq_false hmm]
      rfl
  · intro x _ hand
    exact (of_decide_eq_true hand.1) (of_decide_eq_true hand.2)

theorem solveCycle_cases (b : Board) (rng : Nat → Nat) (i : Nat) (hInv : Inv b) :
    (∀ b2 i2, solveCycle rng b i = .next b2 i2 →
      Inv b2 ∧ coveredCountB b2 < coveredCountB b) ∧
    (∀ o, solveCycle rng b i = .halt o → o = .lost ∨ o = .stuck) := by
  have hfacts := next_move_facts b hInv (rng i)
  have hint := interceptMC_facts b hInv _ rng (i + 1) hfacts
  rcases hI : interceptMC b ((mkAgent (get_csp_state b)).next_move (rng i)).2 rng (i + 1)
      with _ | ai
  · exact absurd hI hint.1
  · have hai := hint.2 ai hI
    constructor
    · intro b2 i2 h
      rw [solveCycle] at h
      rw [hI] at h
      dsimp only at h
      by_cases hemp : ai.1 = []
      · rw [if_pos hemp] at h
        exact absurd h (by simp)
      · rw [if_neg hemp] at h
        rcases happ : applyActs b ai.1 with ⟨b2'⟩ | ⟨bm⟩ | ⟨berr⟩
        · rw [happ] at h
          have hinj := CycleRes.next.inj h
          rcases hacts1 : ai.1 with _ | ⟨a0, rest⟩
          · exact absurd hacts1 hemp
          · rw [hacts1] at happ
            rw [applyActs] at happ
            have hafact := hai a0 (by
              rw [hacts1]
              exact List.mem_cons_self _ _)
            obtain ⟨hA0, hr0, hc0, hnrev0, hnfl0, hFm0⟩ := hafact
            by_cases hm : (b.apply_move a0.act (a0.r : Int) (a0.c : Int)).2 = .s "hit_mine"
            · rw [if_pos hm] at happ
              exact absurd happ (by simp)
            · rw [if_neg hm] at happ
              by_cases he : (b.apply_move a0.act (a0.r : Int) (a0.c : Int)).2 = .err
              · rw [if_pos he] at happ
                exact absurd happ (by simp)
              · rw [if_neg he] at happ
                have hInv1 := apply_move_inv b a0 hInv hA0 hr0 hc0 hFm0 hm
                have hfields := apply_move_fields b a0.act (a0.r : Int) (a0.c : Int)
                have hrestF : ∀ act ∈ rest, (act.act = "R" ∨ act.act = "F") ∧
                    act.r < (b.apply_move a0.act (a0.r : Int) (a0.c : Int)).1.rows ∧
                    act.c < (b.apply_move a0.act (a0.r : Int) (a0.c : Int)).1.cols ∧
                    (act.act = "F" →
                      (b.apply_move a0.act (a0.r : Int) (a0.c : Int)).1.cellAt act.r act.c =
                        .mine) := by
                  intro act hact2
                  obtain ⟨hA2, hr2, hc2, _, _, hF2⟩ := hai act (by
                    rw [hacts1]
                    exact List.mem_cons_of_mem _ hact2)
                  refine ⟨hA2, ?_, ?_, ?_⟩
                  · rw [hfields.1]
                    exact hr2
                  · rw [hfields.2.1]
                    exact hc2
                  · intro hFe
                    have hmv := hF2 hFe
                    rw [Board.cellAt] at hmv ⊢
                    rw [hfields.2.2.1]
                    exact hmv
                obtain ⟨hI2, hle⟩ := applyActs_ok_chain rest _ hInv1 hrestF b2' happ
                have hdec := apply_fresh_decrease b a0 hA0 hnrev0 hnfl0 hr0 hc0
                rw [← hinj.1]
                exact ⟨hI2, lt_of_le_of_lt hle hdec⟩
        · rw [happ] at h
          exact absurd h (by simp)
        · rw [happ] at h
          exact absurd h (by simp)
    · intro o h
      rw [solveCycle] at h
      rw [hI] at h
      dsimp only at h
      by_cases hemp : ai.1 = []
      · rw [if_pos hemp] at h
        exact Or.inr (CycleRes.halt.inj h).symm
      · rw [if_neg hemp] at h
        rcases happ : applyActs b ai.1 with ⟨b2'⟩ | ⟨bm⟩ | ⟨berr⟩
        · rw [happ] at h
          exact absurd h (by simp)
        · rw [happ] at h
          exact Or.inl (CycleRes.halt.inj h).symm
        · exfalso
          refine applyActs_no_err ai.1 b hInv.1 ?_ berr happ
          intro act hact2
          obtain ⟨hA2, hr2, hc2, _, _, _⟩ := hai act hact2
          exact ⟨hA2, hr2, hc2⟩

theorem solveLoop_halts (rng : Nat → Nat) :
    ∀ (fuel : Nat) (b : Board) (i : Nat), Inv b → coveredCountB b ≤ fuel →
      solveLoop rng fuel b i = .won ∨ solveLoop rng fuel b i = .lost ∨
      solveLoop rng fuel b i = .stuck := by
  intro fuel
  induction fuel with
  | zero =>
    intro b i hInv hf
    have h0 : coveredCountB b = 0 := by omega
    rw [solveLoop, if_pos (covered_zero_solved b hInv h0)]
    exact Or.inl rfl
  | succ n ih =>
    intro b i hInv hf
    rw [solveLoop]
    by_cases hs : b.is_solved = true
    · rw [if_pos hs]
      exact Or.inl rfl
    · rw [if_neg hs]
      have hcyc := solveCycle_cases b rng i hInv
      cases hC : solveCycle rng b i with
      | next b2 i2 =>
        obtain ⟨hI2, hlt⟩ := hcyc.1 b2 i2 hC
        exact ih b2 i2 hI2 (by omega)
      | halt o =>
        rcases hcyc.2 o hC with rfl | rfl
        · exact Or.inr (Or.inl rfl)
        · exact Or.inr (Or.inr rfl)

/-- C8: on a well-formed board (correct header mine count and clue values,
in-range non-mine revealed set without duplicates, in-range mine flagged set)
the solver loop terminates within rows·cols cycles: every cycle that does not
halt the loop applies an action to a cell that was covered (neither revealed
nor flagged) at the start of the cycle, so the covered count strictly
decreases while well-formedness is preserved; the covered count is at most
rows·cols, and the loop run with rows·cols cycles of fuel ends in won, lost,
or stuck. -/
theorem C8_termination (b : Board) (rng : Nat → Nat) (i : Nat) (hInv : Inv b) :
    (∀ b2 i2, solveCycle rng b i = .next b2 i2 →
      Inv b2 ∧ coveredCountB b2 < coveredCountB b) ∧
    coveredCountB b ≤ b.rows * b.cols ∧
    (solveLoop rng (b.rows * b.cols) b i = .won ∨
      solveLoop rng (b.rows * b.cols) b i = .lost ∨
      solveLoop rng (b.rows * b.cols) b i = .stuck) :=
  ⟨(solveCycle_cases b rng i hInv).1, coveredCountB_le b,
    solveLoop_halts rng (b.rows * b.cols) b i hInv (coveredCountB_le b)⟩

/-- Witness for C8 on the 1x1 mine-free board. -/
theorem C8_termination_witness :
    Inv bSolo ∧
    ((∀ b2 i2, solveCycle (fun _ => 0) bSolo 0 = .next b2 i2 →
        Inv b2 ∧ coveredCountB b2 < coveredCountB bSolo) ∧
      coveredCountB bSolo ≤ bSolo.rows * bSolo.cols ∧
      (solveLoop (fun _ => 0) (bSolo.rows * bSolo.cols) bSolo 0 = .won ∨
        solveLoop (fun _ => 0) (bSolo.rows * bSolo.cols) bSolo 0 = .lost ∨
        solveLoop (fun _ => 0) (bSolo.rows * bSolo.cols) bSolo 0 = .stuck)) :=
  ⟨by decide, C8_termination bSolo (fun _ => 0) 0 (by decide)⟩

end MS
